import Mathlib

/-!
Verification of the sorting core of the `safe_dsa` repository.

Sequences (`&mut [T]`) are modelled as `List α`.  Rust's panicking slice
accesses are modelled by `Option`-returning checked operations, so a
function returning `none` corresponds to a panic (out-of-bounds access),
and `some out` to normal termination with final contents `out`.

Rust's generic bound `T : Ord` is modelled by a boolean comparison
`le : α → α → Bool`; the other comparison operators of a lawful `Ord`
are the derived forms (`a < b ↔ ¬ (b ≤ a)`, `a > b ↔ ¬ (a ≤ b)`,
`a ≥ b ↔ b ≤ a`), so e.g. the source test `arr[j - 1] > key` is rendered
`!(le (arr[j-1]) key)`.  Theorems assume totality and transitivity of
`le`, which is what a lawful total order provides to a comparison sort.

The pure helper predicates of `helper.rs` (`gt_seg` … `le_segs`) are
stated over a genuine `LinearOrder`, matching their use of `Ord`'s
`iter().max()` / `iter().min()`.
-/

namespace SafeDsa

variable {α : Type*}

/-- Rust `arr.swap(i, j)`: exchanges two elements, panicking (`none`) if either
index is out of bounds. -/
def swapCk (l : List α) (i j : Nat) : Option (List α) :=
  match l[i]?, l[j]? with
  | some a, some b => some ((l.set i b).set j a)
  | _, _ => none

/-- Rust `arr[i] = v`: writes an element, panicking (`none`) if out of bounds. -/
def setCk (l : List α) (i : Nat) (v : α) : Option (List α) :=
  if i < l.length then some (l.set i v) else none

/-- Rust slice `&arr[l..r]`: panics (`none`) unless `l ≤ r ≤ arr.len()`. -/
def sliceCk (arr : List α) (l r : Nat) : Option (List α) :=
  if l ≤ r ∧ r ≤ arr.length then some ((arr.drop l).take (r - l)) else none

/-- The contents of the slice `arr[l..r]` (total version, used in statements). -/
def sliceL (arr : List α) (l r : Nat) : List α :=
  (arr.drop l).take (r - l)

/-- Source `helper.rs` `is_sorted`: walks `i` in `1..len` and fails on the first
adjacent pair with `arr[i-1] > arr[i]`, so it is true iff every adjacent pair
satisfies `arr[i-1] ≤ arr[i]`. -/
def is_sorted (le : α → α → Bool) : List α → Bool
  | [] => true
  | [_] => true
  | a :: b :: t => le a b && is_sorted le (b :: t)

/-- Rust `Iterator::max` over a slice: a left fold keeping the later element on
ties (per the `Iterator::max` documentation); `none` on an empty slice. -/
def iterMax [LinearOrder α] (l : List α) : Option α :=
  match l with
  | [] => none
  | x :: t => some (t.foldl (fun m y => if m ≤ y then y else m) x)

/-- Rust `Iterator::min` over a slice: a left fold keeping the earlier element on
ties; `none` on an empty slice. -/
def iterMin [LinearOrder α] (l : List α) : Option α :=
  match l with
  | [] => none
  | x :: t => some (t.foldl (fun m y => if y < m then y else m) x)

/-- Source `helper.rs` `gt_seg`: `x` strictly greater than every element. -/
def gt_seg [LinearOrder α] (x : α) (arr : List α) : Bool :=
  match iterMax arr with
  | some m => decide (m < x)
  | none => true

/-- Source `helper.rs` `ge_seg`: `x` greater than or equal to every element. -/
def ge_seg [LinearOrder α] (x : α) (arr : List α) : Bool :=
  match iterMax arr with
  | some m => decide (m ≤ x)
  | none => true

/-- Source `helper.rs` `lt_seg`: `x` strictly less than every element. -/
def lt_seg [LinearOrder α] (x : α) (arr : List α) : Bool :=
  match iterMin arr with
  | some m => decide (x < m)
  | none => true

/-- Source `helper.rs` `le_seg`: `x` less than or equal to every element. -/
def le_seg [LinearOrder α] (x : α) (arr : List α) : Bool :=
  match iterMin arr with
  | some m => decide (x ≤ m)
  | none => true

/-- Source `helper.rs` `gt_segs`: all of `arr1` strictly greater than all of
`arr2`, implemented as the single comparison `min(arr1) > max(arr2)`. -/
def gt_segs [LinearOrder α] (arr1 arr2 : List α) : Bool :=
  match iterMin arr1, iterMax arr2 with
  | some a, some b => decide (b < a)
  | _, _ => true

/-- Source `helper.rs` `ge_segs`: implemented as `min(arr1) ≥ max(arr2)`. -/
def ge_segs [LinearOrder α] (arr1 arr2 : List α) : Bool :=
  match iterMin arr1, iterMax arr2 with
  | some a, some b => decide (b ≤ a)
  | _, _ => true

/-- Source `helper.rs` `lt_segs`: implemented as `max(arr1) < min(arr2)`. -/
def lt_segs [LinearOrder α] (arr1 arr2 : List α) : Bool :=
  match iterMax arr1, iterMin arr2 with
  | some a, some b => decide (a < b)
  | _, _ => true

/-- Source `helper.rs` `le_segs`: implemented as `max(arr1) ≤ min(arr2)`. -/
def le_segs [LinearOrder α] (arr1 arr2 : List α) : Bool :=
  match iterMax arr1, iterMin arr2 with
  | some a, some b => decide (a ≤ b)
  | _, _ => true

/-- Comparison on `Int` used to instantiate witness theorems. -/
def intLe : Int → Int → Bool := fun a b => decide (a ≤ b)

/-- Rust `arr[l..r].clone_from_slice(&res)` (merge sort's write-back): panics
unless the range is valid and the lengths agree. -/
def writeBack (arr : List α) (l r : Nat) (res : List α) : Option (List α) :=
  if l ≤ r ∧ r ≤ arr.length ∧ res.length = r - l then
    some (arr.take l ++ res ++ arr.drop r)
  else none

/-! ### bubble_sort.rs -/

/-- Inner pass of bubble sort: the body of `for i in 1..n`, comparing and
swapping adjacent elements and recording whether any swap happened. -/
def bubbleInner (le : α → α → Bool) (arr : List α) (i n : Nat) (flag : Bool) :
    Option (List α × Bool) :=
  if h : i < n then
    match arr[i-1]?, arr[i]? with
    | some a, some b =>
      if !(le a b) then
        match swapCk arr (i-1) i with
        | some arr2 => bubbleInner le arr2 (i+1) n true
        | none => none
      else bubbleInner le arr (i+1) n flag
    | _, _ => none
  else some (arr, flag)
termination_by n - i

/-- Outer loop of bubble sort: `for cnt in 1..=n`, breaking as soon as a pass
performs no swap. -/
def bubbleOuter (le : α → α → Bool) (arr : List α) (cnt n : Nat) :
    Option (List α) :=
  if h : cnt ≤ n then
    match bubbleInner le arr 1 n false with
    | some (arr2, flag) =>
      if !flag then some arr2 else bubbleOuter le arr2 (cnt+1) n
    | none => none
  else some arr
termination_by n + 1 - cnt

/-- Source `bubble_sort.rs` `sort`. -/
def bubble_sort (le : α → α → Bool) (arr : List α) : Option (List α) :=
  bubbleOuter le arr 1 arr.length

/-- Structural description of one bubble pass over a list: keep an ordered
adjacent pair, swap an out-of-order one (carrying the larger element right),
and report whether any swap happened. -/
def bpass (le : α → α → Bool) : List α → List α × Bool
  | [] => ([], false)
  | [a] => ([a], false)
  | a :: b :: t =>
    if le a b then
      ((bpass le (b :: t)).1.cons a, (bpass le (b :: t)).2)
    else
      ((bpass le (a :: t)).1.cons b, true)

/-- Iterated bubble passes. -/
def bpassN (le : α → α → Bool) : Nat → List α → List α
  | 0, l => l
  | k+1, l => bpassN le k (bpass le l).1

/-! ### selection_sort.rs -/

/-- Inner scan of selection sort: `for j in (i+1)..n`, tracking the index `k`
of a minimal element found so far. -/
def selMin (le : α → α → Bool) (arr : List α) (j n k : Nat) : Option Nat :=
  if h : j < n then
    match arr[j]?, arr[k]? with
    | some aj, some ak =>
      if !(le ak aj) then selMin le arr (j+1) n j else selMin le arr (j+1) n k
    | _, _ => none
  else some k
termination_by n - j

/-- Outer loop of selection sort: `for i in 0..n`, swapping a minimal element
of the suffix into position `i`. -/
def selOuter (le : α → α → Bool) (arr : List α) (i n : Nat) : Option (List α) :=
  if h : i < n then
    match selMin le arr (i+1) n i with
    | some k =>
      match swapCk arr i k with
      | some arr2 => selOuter le arr2 (i+1) n
      | none => none
    | none => none
  else some arr
termination_by n - i

/-- Source `selection_sort.rs` `sort`. -/
def selection_sort (le : α → α → Bool) (arr : List α) : Option (List α) :=
  selOuter le arr 0 arr.length

/-! ### insertion_sort.rs -/

/-- Shift loop of insertion sort: `while j > 0 && arr[j-1] > key`, copying
`arr[j-1]` into `arr[j]` and decrementing `j`; returns the final array and the
resting index `j`. -/
def insShift (le : α → α → Bool) (arr : List α) (key : α) (j : Nat) :
    Option (List α × Nat) :=
  if h : 0 < j then
    match arr[j-1]? with
    | some p =>
      if !(le p key) then
        match setCk arr j p with
        | some arr2 => insShift le arr2 key (j-1)
        | none => none
      else some (arr, j)
    | none => none
  else some (arr, j)
termination_by j

/-- Outer loop of insertion sort: `for i in 1..n`, shifting `arr[i]` left past
all strictly greater predecessors. -/
def insOuter (le : α → α → Bool) (arr : List α) (i n : Nat) : Option (List α) :=
  if h : i < n then
    match arr[i]? with
    | some key =>
      match insShift le arr key i with
      | some (arr2, j) =>
        match setCk arr2 j key with
        | some arr3 => insOuter le arr3 (i+1) n
        | none => none
      | none => none
    | none => none
  else some arr
termination_by n - i

/-- Source `insertion_sort.rs` `sort`. -/
def insertion_sort (le : α → α → Bool) (arr : List α) : Option (List α) :=
  insOuter le arr 1 arr.length

/-! ### shell_sort_a003462.rs -/

/-- Gap growth of Shell sort: `while k < n / 3 { k = 3 * k + 1 }`. -/
def shellGrow (n k : Nat) : Nat :=
  if h : k < n / 3 then shellGrow n (3 * k + 1) else k
termination_by n / 3 - k

/-- Strided shift loop of Shell sort: `while j >= k && arr[j-k] > tmp`.  The
gap `k` is positive whenever this runs (the outer loop guard is `k >= 1`). -/
def gapShift (le : α → α → Bool) (k : Nat) (hk : 0 < k) (arr : List α)
    (tmp : α) (j : Nat) : Option (List α × Nat) :=
  if h : k ≤ j then
    match arr[j-k]? with
    | some p =>
      if !(le p tmp) then
        match setCk arr j p with
        | some arr2 => gapShift le k hk arr2 tmp (j-k)
        | none => none
      else some (arr, j)
    | none => none
  else some (arr, j)
termination_by j

/-- Insertion pass of Shell sort at gap `k`: `for i in k..n`. -/
def gapPass (le : α → α → Bool) (k : Nat) (hk : 0 < k) (arr : List α)
    (i n : Nat) : Option (List α) :=
  if h : i < n then
    match arr[i]? with
    | some tmp =>
      match gapShift le k hk arr tmp i with
      | some (arr2, j) =>
        match setCk arr2 j tmp with
        | some arr3 => gapPass le k hk arr3 (i+1) n
        | none => none
      | none => none
    | none => none
  else some arr
termination_by n - i

/-- Outer gap loop of Shell sort: `while k >= 1`, running a pass at gap `k`
and then dividing `k` by `3`. -/
def shellLoop (le : α → α → Bool) (arr : List α) (k n : Nat) : Option (List α) :=
  if h : 1 ≤ k then
    match gapPass le k h arr k n with
    | some arr2 => shellLoop le arr2 (k / 3) n
    | none => none
  else some arr
termination_by k

/-- Source `shell_sort_a003462.rs` `sort`. -/
def shell_sort (le : α → α → Bool) (arr : List α) : Option (List α) :=
  shellLoop le arr (shellGrow arr.length 1) arr.length

/-- Total wrapper for a Shell pass at gap `k` (identity at the impossible
gap `0`), used to state which gaps the sort actually runs. -/
def gapPassTot (le : α → α → Bool) (k : Nat) (arr : List α) (n : Nat) :
    Option (List α) :=
  if h : 0 < k then gapPass le k h arr k n else some arr

/-- Descending gap sequence consumed by the outer loop, starting from `k`. -/
def gapSeqFrom (k : Nat) : List Nat :=
  if h : 1 ≤ k then k :: gapSeqFrom (k / 3) else []
termination_by k

/-- The gap sequence Shell sort uses on an input of length `n`: grow by
`k ← 3k+1` while `k < n/3`, then descend by integer division by `3`. -/
def gapSeq (n : Nat) : List Nat :=
  gapSeqFrom (shellGrow n 1)

/-- Run one Shell pass for each gap in the given list. -/
def runPasses (le : α → α → Bool) (gaps : List Nat) (arr : List α) (n : Nat) :
    Option (List α) :=
  match gaps with
  | [] => some arr
  | k :: rest =>
    match gapPassTot le k arr n with
    | some arr2 => runPasses le rest arr2 n
    | none => none

/-- Gap values reachable by the growth recurrence `k ← 3k + 1` from `1`:
the value after `j` growth steps. -/
def gapVal : Nat → Nat
  | 0 => 1
  | j+1 => 3 * gapVal j + 1

/-! ### heap_sort.rs -/

/-- Source `heap_sort.rs` `is_heap`: for every `i` in `1..len`,
`arr[(i-1)/2] ≥ arr[i]` (no child strictly exceeds its parent). -/
def is_heap [Inhabited α] (le : α → α → Bool) (l : List α) : Bool :=
  (List.range' 1 (l.length - 1)).all fun i =>
    le (l.getD i default) (l.getD ((i-1)/2) default)

/-- Child selection step of `sift_down`: the child at `2p+1`, replaced by the
one at `2p+2` when that exists within `[0, e]` and is strictly larger.  The
returned index carries the bounds needed for termination. -/
def pickChild (le : α → α → Bool) (arr : List α) (parent e : Nat)
    (h1 : 2*parent+1 ≤ e) : Option {c : Nat // parent < c ∧ c ≤ e} :=
  if h2 : 2*parent+1+1 ≤ e then
    match arr[2*parent+1]?, arr[2*parent+1+1]? with
    | some c1, some c2 =>
      if !(le c2 c1) then some ⟨2*parent+1+1, by omega⟩
      else some ⟨2*parent+1, by omega⟩
    | _, _ => none
  else some ⟨2*parent+1, by omega⟩

/-- Source `heap_sort.rs` `sift_down`: restore the max-heap shape of the
prefix `[0, e]` downward from `parent`, swapping with the larger child while
that child is strictly larger and stopping as soon as the parent is `≥` it. -/
def sift_down (le : α → α → Bool) (arr : List α) (parent e : Nat) :
    Option (List α) :=
  if h1 : 2*parent+1 ≤ e then
    match pickChild le arr parent e h1 with
    | some c =>
      match arr[parent]?, arr[c.1]? with
      | some pv, some cv =>
        if le cv pv then some arr
        else
          match swapCk arr parent c.1 with
          | some arr2 => sift_down le arr2 c.1 e
          | none => none
      | _, _ => none
    | none => none
  else some arr
termination_by e + 1 - parent
decreasing_by
  have := c.2
  omega

/-- Heapify loop of heap sort: `for i in (0..n/2).rev()`; `cnt` counts the
remaining iterations, so the body sifts down from `i = cnt - 1`. -/
def heapifyLoop (le : α → α → Bool) (arr : List α) (cnt n : Nat) :
    Option (List α) :=
  match cnt with
  | 0 => some arr
  | c+1 =>
    match sift_down le arr c (n-1) with
    | some arr2 => heapifyLoop le arr2 c n
    | none => none

/-- Extraction loop of heap sort: `for i in (1..n).rev()`, swapping the root
with position `i` and re-sifting the shrunken heap `[0, i-1]`. -/
def extractLoop (le : α → α → Bool) (arr : List α) (i : Nat) : Option (List α) :=
  if h : 1 ≤ i then
    match swapCk arr 0 i with
    | some arr2 =>
      match sift_down le arr2 0 (i-1) with
      | some arr3 => extractLoop le arr3 (i-1)
      | none => none
    | none => none
  else some arr
termination_by i

/-- Source `heap_sort.rs` `sort`. -/
def heap_sort (le : α → α → Bool) (arr : List α) : Option (List α) :=
  match heapifyLoop le arr (arr.length / 2) arr.length with
  | some arr2 => extractLoop le arr2 (arr.length - 1)
  | none => none

/-! ### merge_sort.rs -/

/-- Source `merge_sort.rs` `merge` loop: merge `a` and `b` into `result`,
writing the smaller front at index `i + j`; a tie (`b[j] < a[i]` false) takes
from `a`. -/
def mergeLoop (le : α → α → Bool) (a b : List α) (i j : Nat)
    (result : List α) : Option (List α) :=
  if hcond : i < a.length ∨ j < b.length then
    if hi : i = a.length then
      match hb : b[j]? with
      | some y =>
        match setCk result (i+j) y with
        | some r2 => mergeLoop le a b i (j+1) r2
        | none => none
      | none => none
    else if hj : j = b.length then
      match ha : a[i]? with
      | some x =>
        match setCk result (i+j) x with
        | some r2 => mergeLoop le a b (i+1) j r2
        | none => none
      | none => none
    else
      match ha : a[i]?, hb : b[j]? with
      | some x, some y =>
        if !(le x y) then
          match setCk result (i+j) y with
          | some r2 => mergeLoop le a b i (j+1) r2
          | none => none
        else
          match setCk result (i+j) x with
          | some r2 => mergeLoop le a b (i+1) j r2
          | none => none
      | _, _ => none
  else some result
termination_by (a.length - i) + (b.length - j)
decreasing_by
  all_goals
    simp only [List.getElem?_eq_some_iff] at *
  all_goals
    casesm* Exists _
  all_goals
    rcases hcond with hc | hc
  all_goals omega

/-- Source `merge_sort.rs` `mergesort`: sort `arr[l, r)` recursively; the two
sorted halves are merged through a scratch copy of the range (`to_vec`) and
written back (`clone_from_slice`). -/
def mergesort (le : α → α → Bool) (arr : List α) (l r : Nat) :
    Option (List α) :=
  if h : r - l ≤ 1 then some arr
  else
    match mergesort le arr l (l + (r - l) / 2) with
    | some arr1 =>
      match mergesort le arr1 (l + (r - l) / 2) r with
      | some arr2 =>
        match sliceCk arr2 l r with
        | some result =>
          match sliceCk arr2 l (l + (r - l) / 2),
                sliceCk arr2 (l + (r - l) / 2) r with
          | some aseg, some bseg =>
            match mergeLoop le aseg bseg 0 0 result with
            | some result2 => writeBack arr2 l r result2
            | none => none
          | _, _ => none
        | none => none
      | none => none
    | none => none
termination_by r - l

/-- Source `merge_sort.rs` `sort`. -/
def merge_sort (le : α → α → Bool) (arr : List α) : Option (List α) :=
  mergesort le arr 0 arr.length

/-- Structural merge sort splitting at the floor midpoint, the split used by
`mergesort` (`mid = l + (r - l) / 2`). -/
def msortL (le : α → α → Bool) (l : List α) : List α :=
  if h : l.length ≤ 1 then l
  else
    List.merge (msortL le (l.take (l.length / 2)))
      (msortL le (l.drop (l.length / 2))) le
termination_by l.length
decreasing_by
  · simp only [List.length_take]
    omega
  · simp only [List.length_drop]
    omega

/-! ### quick_sort.rs -/

/-- Partition loop of quicksort: cursor `left` starts at `1`, cursor `right`
at the length; an element `≤ pivot` advances `left`, otherwise it is swapped
with the element just before `right` and `right` retreats; stops when
`left == right`. -/
def partLoop (le : α → α → Bool) (pivot : α) (arr : List α)
    (left right : Nat) : Option (List α × Nat) :=
  if h : left < right then
    match arr[left]? with
    | some v =>
      if le v pivot then partLoop le pivot arr (left+1) right
      else
        match swapCk arr left (right-1) with
        | some arr2 => partLoop le pivot arr2 left (right-1)
        | none => none
    | none => none
  else some (arr, left)
termination_by right - left

/-- Source `quick_sort.rs` `partition`: read the pivot at `pi`, swap it to
position `0`, run the two-cursor loop from `(1, len)`, then swap the pivot
into position `left - 1` and return that split index. -/
def partition (le : α → α → Bool) (arr : List α) (pi : Nat) :
    Option (List α × Nat) :=
  match arr[pi]? with
  | some pivot =>
    match swapCk arr 0 pi with
    | some arr1 =>
      match partLoop le pivot arr1 1 arr1.length with
      | some (arr2, left) =>
        match swapCk arr2 0 (left - 1) with
        | some arr3 => some (arr3, left - 1)
        | none => none
      | none => none
    | none => none
  | none => none

/-- Source `quick_sort.rs` `sort`, recursion depth bounded by fuel: return
unchanged below length `2`, otherwise partition around the midpoint pivot and
recurse on the sub-slices `[0, mid)` and `(mid, len)`, excluding the pivot.
`quick_sort` supplies fuel `arr.length`, which suffices because every
recursive call drops at least the pivot. -/
def quickSortFuel (le : α → α → Bool) : Nat → List α → Option (List α)
  | 0, arr => if arr.length ≤ 1 then some arr else none
  | fuel+1, arr =>
    if arr.length ≤ 1 then some arr
    else
      match partition le arr (arr.length / 2) with
      | some (arr1, mid) =>
        match sliceCk arr1 0 mid, sliceCk arr1 (mid+1) arr1.length,
              arr1[mid]? with
        | some lseg, some rseg, some pv =>
          match quickSortFuel le fuel lseg, quickSortFuel le fuel rseg with
          | some ls, some rs => some (ls ++ pv :: rs)
          | _, _ => none
        | _, _, _ => none
      | none => none

/-- Source `quick_sort.rs` `sort`. -/
def quick_sort (le : α → α → Bool) (arr : List α) : Option (List α) :=
  quickSortFuel le arr.length arr

/-! ### relations used in statements -/

/-- Propositional form of the boolean comparison. -/
def leR (le : α → α → Bool) : α → α → Prop := fun a b => le a b = true

/-- Comparison on index-tagged elements that ignores the tag, used to state
stability: Rust `Ord` on the payload only. -/
def pairLe (le : α → α → Bool) : Nat × α → Nat × α → Bool :=
  fun p q => le p.2 q.2

/-- Stability relation on index-tagged elements: whenever two elements compare
equal both ways, their tags appear in increasing order. -/
def stP (le : α → α → Bool) : Nat × α → Nat × α → Prop :=
  fun p q => le p.2 q.2 = true → le q.2 p.2 = true → p.1 < q.1

/-- Heap constraints over the prefix `[0, e]`, restricted to children whose
parent index is at least `r`. -/
def heapD (le : α → α → Bool) (l : List α) (e r : Nat) : Prop :=
  ∀ i c p, 1 ≤ i → i ≤ e → r ≤ (i-1)/2 → l[i]? = some c →
    l[(i-1)/2]? = some p → le c p = true

/-- Membership of `t` in the binary-heap subtree rooted at `r` (following
parent links `(t-1)/2`). -/
def inSub (r : Nat) : Nat → Bool
  | t =>
    if t = r then true
    else if h : r < t ∧ 0 < t then inSub r ((t-1)/2) else false
termination_by t => t
decreasing_by omega

theorem intLe_total : ∀ a b : Int, intLe a b = true ∨ intLe b a = true := by
  intro a b
  simp only [intLe, decide_eq_true_eq]
  exact le_total a b

theorem intLe_trans : ∀ a b c : Int,
    intLe a b = true → intLe b c = true → intLe a c = true := by
  intro a b c hab hbc
  simp only [intLe, decide_eq_true_eq] at *
  exact le_trans hab hbc

theorem intLe_antisymm : ∀ a b : Int, intLe a b = true → intLe b a = true → a = b := by
  intro a b hab hba
  simp only [intLe, decide_eq_true_eq] at *
  exact le_antisymm hab hba

/-! ### infrastructure: checked operations, swaps, sortedness bridges -/

theorem setCk_eq_some_iff {l l2 : List α} {i : Nat} {v : α} :
    setCk l i v = some l2 ↔ i < l.length ∧ l2 = l.set i v := by
  unfold setCk
  split <;> simp_all [eq_comm]

theorem set_splice (l : List α) (i : Nat) (v : α) (h : i < l.length) :
    l.set i v = l.take i ++ v :: l.drop (i+1) := by
  induction l generalizing i with
  | nil => simp at h
  | cons a t ih =>
    cases i with
    | zero => simp
    | succ i =>
      simp only [List.set_cons_succ, List.take_succ_cons, List.drop_succ_cons,
        List.cons_append, List.cons.injEq, true_and]
      exact ih i (by simpa using h)

theorem set_self_eq (l : List α) (i : Nat) (h : i < l.length) :
    l.set i l[i] = l := by
  induction l generalizing i with
  | nil => simp at h
  | cons a t ih =>
    cases i with
    | zero => simp
    | succ i =>
      simp only [List.getElem_cons_succ, List.set_cons_succ, List.cons.injEq, true_and]
      exact ih i (by simpa using h)

theorem splice_self (l : List α) (i : Nat) (h : i < l.length) :
    l = l.take i ++ l[i] :: l.drop (i+1) := by
  conv_lhs => rw [← set_self_eq l i h]
  exact set_splice l i _ h

theorem sliceL_here (l : List α) (i j : Nat) :
    sliceL l i j = (l.drop i).take (j - i) := rfl

theorem getElem_idx_congr {l : List α} {i j : Nat} (hij : i = j)
    (hi : i < l.length) (hj : j < l.length) : l[i] = l[j] := by
  subst hij
  rfl

theorem perm_swap_heads (v w : α) (T D : List α) :
    List.Perm (v :: (T ++ w :: D)) (w :: (T ++ v :: D)) :=
  ((List.Perm.cons v List.perm_middle).trans (List.Perm.swap w v _)).trans
    (List.Perm.cons w List.perm_middle.symm)

theorem swap_perm (l : List α) : ∀ (i j : Nat) (a b : α),
    l[i]? = some a → l[j]? = some b → List.Perm ((l.set i b).set j a) l := by
  induction l with
  | nil => intro i j a b ha _; simp at ha
  | cons x t ih =>
    intro i j a b ha hb
    cases i with
    | zero =>
      cases j with
      | zero =>
        simp only [List.getElem?_cons_zero, Option.some.injEq] at ha hb
        subst ha; subst hb
        simp
      | succ m =>
        simp only [List.getElem?_cons_zero, Option.some.injEq] at ha
        simp only [List.getElem?_cons_succ] at hb
        rcases List.getElem?_eq_some_iff.mp hb with ⟨hm, hbv⟩
        simp only [List.set_cons_zero, List.set_cons_succ]
        rw [set_splice t m a hm]
        conv_rhs => rw [splice_self t m hm]
        rw [← ha, ← hbv]
        exact perm_swap_heads _ _ _ _
    | succ n =>
      cases j with
      | zero =>
        simp only [List.getElem?_cons_zero, Option.some.injEq] at hb
        simp only [List.getElem?_cons_succ] at ha
        rcases List.getElem?_eq_some_iff.mp ha with ⟨hn, hav⟩
        simp only [List.set_cons_succ, List.set_cons_zero]
        rw [set_splice t n b hn]
        conv_rhs => rw [splice_self t n hn]
        rw [← hb, ← hav]
        exact perm_swap_heads _ _ _ _
      | succ m =>
        simp only [List.getElem?_cons_succ] at ha hb
        simp only [List.set_cons_succ]
        exact List.Perm.cons x (ih n m a b ha hb)

theorem swapCk_some_inv {l l2 : List α} {i j : Nat} (h : swapCk l i j = some l2) :
    ∃ a b, l[i]? = some a ∧ l[j]? = some b ∧ l2 = (l.set i b).set j a := by
  unfold swapCk at h
  rcases hgi : l[i]? with _ | a
  · rw [hgi] at h; cases h
  · rcases hgj : l[j]? with _ | b
    · rw [hgi, hgj] at h; cases h
    · rw [hgi, hgj] at h
      simp only [Option.some.injEq] at h
      exact ⟨a, b, rfl, rfl, h.symm⟩

theorem swapCk_some {l : List α} {i j : Nat} (hi : i < l.length) (hj : j < l.length) :
    swapCk l i j = some ((l.set i l[j]).set j l[i]) := by
  simp [swapCk, List.getElem?_eq_getElem, hi, hj]

theorem swapCk_isSome {l : List α} {i j : Nat} (hi : i < l.length) (hj : j < l.length) :
    ∃ l2, swapCk l i j = some l2 :=
  ⟨_, swapCk_some hi hj⟩

theorem swapCk_bounds {l l2 : List α} {i j : Nat} (h : swapCk l i j = some l2) :
    i < l.length ∧ j < l.length := by
  rcases swapCk_some_inv h with ⟨a, b, ha, hb, -⟩
  rcases List.getElem?_eq_some_iff.mp ha with ⟨hi, -⟩
  rcases List.getElem?_eq_some_iff.mp hb with ⟨hj, -⟩
  exact ⟨hi, hj⟩

theorem swapCk_length {l l2 : List α} {i j : Nat} (h : swapCk l i j = some l2) :
    l2.length = l.length := by
  rcases swapCk_some_inv h with ⟨a, b, -, -, rfl⟩
  simp

theorem swapCk_perm {l l2 : List α} {i j : Nat} (h : swapCk l i j = some l2) :
    List.Perm l2 l := by
  rcases swapCk_some_inv h with ⟨a, b, ha, hb, rfl⟩
  exact swap_perm l i j a b ha hb

theorem swapCk_getElem? {l l2 : List α} {i j : Nat} (h : swapCk l i j = some l2) :
    l2[i]? = l[j]? ∧ l2[j]? = l[i]? ∧ ∀ p, p ≠ i → p ≠ j → l2[p]? = l[p]? := by
  rcases swapCk_some_inv h with ⟨a, b, ha, hb, rfl⟩
  rcases List.getElem?_eq_some_iff.mp ha with ⟨hi, ha2⟩
  rcases List.getElem?_eq_some_iff.mp hb with ⟨hj, hb2⟩
  refine ⟨?_, ?_, ?_⟩
  · by_cases hij : i = j
    · subst hij
      rw [List.set_set, List.getElem?_set_self hi, hb, ← ha2, hb2]
    · rw [List.getElem?_set_ne (Ne.symm hij), List.getElem?_set_self hi, hb]
  · rw [List.getElem?_set_self (by simpa using hj), ha]
  · intro p hpi hpj
    rw [List.getElem?_set_ne (Ne.symm hpj), List.getElem?_set_ne (Ne.symm hpi)]

theorem swapCk_self {l : List α} {i : Nat} (hi : i < l.length) :
    swapCk l i i = some l := by
  rw [swapCk_some hi hi, List.set_set, set_self_eq l i hi]

/-- Propositional sortedness used throughout the proofs. -/
theorem is_sorted_iff_chain (le : α → α → Bool) (l : List α) :
    is_sorted le l = true ↔ List.Chain' (leR le) l := by
  induction l with
  | nil => simp [is_sorted]
  | cons a t ih =>
    cases t with
    | nil => simp [is_sorted, leR]
    | cons b t2 =>
      rw [is_sorted, Bool.and_eq_true, ih, List.chain'_cons]
      exact and_congr_left fun _ => Iff.rfl

theorem is_sorted_iff_pairwise (le : α → α → Bool)
    (htrans : ∀ a b c, le a b = true → le b c = true → le a c = true)
    (l : List α) : is_sorted le l = true ↔ l.Pairwise (leR le) := by
  haveI : IsTrans α (leR le) := ⟨fun a b c => htrans a b c⟩
  rw [is_sorted_iff_chain le l]
  exact List.chain'_iff_pairwise

theorem is_sorted_iff_adjacent (le : α → α → Bool) (l : List α) (d : α) :
    is_sorted le l = true ↔
      ∀ i, 1 ≤ i → i < l.length → le (l.getD (i-1) d) (l.getD i d) = true := by
  rw [is_sorted_iff_chain le l, List.chain'_iff_get]
  constructor
  · intro h i h1 h2
    have hstep := h (i-1) (by omega)
    simp only [List.get_eq_getElem] at hstep
    have hidx : i - 1 + 1 = i := by omega
    have hval : l[i-1+1] = l[i] := getElem_idx_congr hidx (by omega) h2
    rw [hval] at hstep
    rw [List.getD_eq_getElem?_getD, List.getD_eq_getElem?_getD,
      List.getElem?_eq_getElem (by omega : i - 1 < l.length),
      List.getElem?_eq_getElem h2]
    exact hstep
  · intro h i hi
    have := h (i+1) (by omega) (by omega)
    simp only [Nat.add_sub_cancel] at this
    rw [List.getD_eq_getElem?_getD, List.getD_eq_getElem?_getD,
      List.getElem?_eq_getElem (by omega : i < l.length),
      List.getElem?_eq_getElem (by omega : i + 1 < l.length)] at this
    simpa [leR, List.get_eq_getElem] using this

theorem pairwise_append_is_sorted (le : α → α → Bool)
    (htrans : ∀ a b c, le a b = true → le b c = true → le a c = true)
    {A B : List α} (hA : A.Pairwise (leR le)) (hB : B.Pairwise (leR le))
    (hAB : ∀ x ∈ A, ∀ y ∈ B, le x y = true) :
    (A ++ B).Pairwise (leR le) :=
  List.pairwise_append.mpr ⟨hA, hB, hAB⟩

/- Specification of the fold underlying `iterMax` / `iterMin`. -/

theorem foldMax_spec [LinearOrder α] :
    ∀ (t : List α) (x : α),
      (t.foldl (fun m y => if m ≤ y then y else m) x) ∈ x :: t ∧
      x ≤ t.foldl (fun m y => if m ≤ y then y else m) x ∧
      ∀ y ∈ t, y ≤ t.foldl (fun m y => if m ≤ y then y else m) x := by
  intro t
  induction t with
  | nil => intro x; simp
  | cons y t ih =>
    intro x
    simp only [List.foldl_cons]
    by_cases hxy : x ≤ y
    · simp only [if_pos hxy]
      rcases ih y with ⟨hmem, hle, hub⟩
      refine ⟨?_, le_trans hxy hle, ?_⟩
      · rcases List.mem_cons.mp hmem with h | h
        · exact List.mem_cons.mpr (Or.inr (List.mem_cons.mpr (Or.inl h)))
        · exact List.mem_cons.mpr (Or.inr (List.mem_cons.mpr (Or.inr h)))
      · intro z hz
        rcases List.mem_cons.mp hz with rfl | hz
        · exact hle
        · exact hub z hz
    · simp only [if_neg hxy]
      rcases ih x with ⟨hmem, hle, hub⟩
      refine ⟨?_, hle, ?_⟩
      · rcases List.mem_cons.mp hmem with h | h
        · exact List.mem_cons.mpr (Or.inl h)
        · exact List.mem_cons.mpr (Or.inr (List.mem_cons.mpr (Or.inr h)))
      · intro z hz
        rcases List.mem_cons.mp hz with rfl | hz
        · exact le_trans (le_of_not_le hxy) hle
        · exact hub z hz

theorem foldMin_spec [LinearOrder α] :
    ∀ (t : List α) (x : α),
      (t.foldl (fun m y => if y < m then y else m) x) ∈ x :: t ∧
      t.foldl (fun m y => if y < m then y else m) x ≤ x ∧
      ∀ y ∈ t, t.foldl (fun m y => if y < m then y else m) x ≤ y := by
  intro t
  induction t with
  | nil => intro x; simp
  | cons y t ih =>
    intro x
    simp only [List.foldl_cons]
    by_cases hxy : y < x
    · simp only [if_pos hxy]
      rcases ih y with ⟨hmem, hle, hub⟩
      refine ⟨?_, le_trans hle (le_of_lt hxy), ?_⟩
      · rcases List.mem_cons.mp hmem with h | h
        · exact List.mem_cons.mpr (Or.inr (List.mem_cons.mpr (Or.inl h)))
        · exact List.mem_cons.mpr (Or.inr (List.mem_cons.mpr (Or.inr h)))
      · intro z hz
        rcases List.mem_cons.mp hz with rfl | hz
        · exact hle
        · exact hub z hz
    · simp only [if_neg hxy]
      rcases ih x with ⟨hmem, hle, hub⟩
      refine ⟨?_, hle, ?_⟩
      · rcases List.mem_cons.mp hmem with h | h
        · exact List.mem_cons.mpr (Or.inl h)
        · exact List.mem_cons.mpr (Or.inr (List.mem_cons.mpr (Or.inr h)))
      · intro z hz
        rcases List.mem_cons.mp hz with rfl | hz
        · exact le_trans hle (le_of_not_lt hxy)
        · exact hub z hz

theorem iterMax_spec [LinearOrder α] (l : List α) (m : α) (h : iterMax l = some m) :
    m ∈ l ∧ ∀ y ∈ l, y ≤ m := by
  cases l with
  | nil => simp [iterMax] at h
  | cons x t =>
    simp only [iterMax, Option.some.injEq] at h
    subst h
    rcases foldMax_spec t x with ⟨hmem, hle, hub⟩
    refine ⟨hmem, ?_⟩
    intro y hy
    rcases List.mem_cons.mp hy with rfl | hy
    · exact hle
    · exact hub y hy

theorem iterMin_spec [LinearOrder α] (l : List α) (m : α) (h : iterMin l = some m) :
    m ∈ l ∧ ∀ y ∈ l, m ≤ y := by
  cases l with
  | nil => simp [iterMin] at h
  | cons x t =>
    simp only [iterMin, Option.some.injEq] at h
    subst h
    rcases foldMin_spec t x with ⟨hmem, hle, hub⟩
    refine ⟨hmem, ?_⟩
    intro y hy
    rcases List.mem_cons.mp hy with rfl | hy
    · exact hle
    · exact hub y hy

theorem iterMax_ne_nil [LinearOrder α] (l : List α) (h : l ≠ []) :
    ∃ m, iterMax l = some m := by
  cases l with
  | nil => exact absurd rfl h
  | cons x t => exact ⟨_, rfl⟩

theorem iterMin_ne_nil [LinearOrder α] (l : List α) (h : l ≠ []) :
    ∃ m, iterMin l = some m := by
  cases l with
  | nil => exact absurd rfl h
  | cons x t => exact ⟨_, rfl⟩

theorem gt_segs_iff [LinearOrder α] (a b : List α) :
    gt_segs a b = true ↔ ∀ x ∈ a, ∀ y ∈ b, y < x := by
  unfold gt_segs
  rcases ha : iterMin a with _ | ma
  · cases a with
    | nil => simp
    | cons z t => rcases iterMin_ne_nil (z :: t) (by simp) with ⟨m, hm⟩; rw [hm] at ha; cases ha
  · rcases hb : iterMax b with _ | mb
    · cases b with
      | nil => simp
      | cons z t => rcases iterMax_ne_nil (z :: t) (by simp) with ⟨m, hm⟩; rw [hm] at hb; cases hb
    · rcases iterMin_spec a ma ha with ⟨hma, hmina⟩
      rcases iterMax_spec b mb hb with ⟨hmb, hmaxb⟩
      simp only [decide_eq_true_eq]
      constructor
      · intro h x hx y hy
        exact lt_of_le_of_lt (hmaxb y hy) (lt_of_lt_of_le h (hmina x hx))
      · intro h
        exact h ma hma mb hmb

theorem ge_segs_iff [LinearOrder α] (a b : List α) :
    ge_segs a b = true ↔ ∀ x ∈ a, ∀ y ∈ b, y ≤ x := by
  unfold ge_segs
  rcases ha : iterMin a with _ | ma
  · cases a with
    | nil => simp
    | cons z t => rcases iterMin_ne_nil (z :: t) (by simp) with ⟨m, hm⟩; rw [hm] at ha; cases ha
  · rcases hb : iterMax b with _ | mb
    · cases b with
      | nil => simp
      | cons z t => rcases iterMax_ne_nil (z :: t) (by simp) with ⟨m, hm⟩; rw [hm] at hb; cases hb
    · rcases iterMin_spec a ma ha with ⟨hma, hmina⟩
      rcases iterMax_spec b mb hb with ⟨hmb, hmaxb⟩
      simp only [decide_eq_true_eq]
      constructor
      · intro h x hx y hy
        exact le_trans (hmaxb y hy) (le_trans h (hmina x hx))
      · intro h
        exact h ma hma mb hmb

theorem lt_segs_iff [LinearOrder α] (a b : List α) :
    lt_segs a b = true ↔ ∀ x ∈ a, ∀ y ∈ b, x < y := by
  unfold lt_segs
  rcases ha : iterMax a with _ | ma
  · cases a with
    | nil => simp
    | cons z t => rcases iterMax_ne_nil (z :: t) (by simp) with ⟨m, hm⟩; rw [hm] at ha; cases ha
  · rcases hb : iterMin b with _ | mb
    · cases b with
      | nil => simp
      | cons z t => rcases iterMin_ne_nil (z :: t) (by simp) with ⟨m, hm⟩; rw [hm] at hb; cases hb
    · rcases iterMax_spec a ma ha with ⟨hma, hmaxa⟩
      rcases iterMin_spec b mb hb with ⟨hmb, hminb⟩
      simp only [decide_eq_true_eq]
      constructor
      · intro h x hx y hy
        exact lt_of_le_of_lt (hmaxa x hx) (lt_of_lt_of_le h (hminb y hy))
      · intro h
        exact h ma hma mb hmb

theorem le_segs_iff [LinearOrder α] (a b : List α) :
    le_segs a b = true ↔ ∀ x ∈ a, ∀ y ∈ b, x ≤ y := by
  unfold le_segs
  rcases ha : iterMax a with _ | ma
  · cases a with
    | nil => simp
    | cons z t => rcases iterMax_ne_nil (z :: t) (by simp) with ⟨m, hm⟩; rw [hm] at ha; cases ha
  · rcases hb : iterMin b with _ | mb
    · cases b with
      | nil => simp
      | cons z t => rcases iterMin_ne_nil (z :: t) (by simp) with ⟨m, hm⟩; rw [hm] at hb; cases hb
    · rcases iterMax_spec a ma ha with ⟨hma, hmaxa⟩
      rcases iterMin_spec b mb hb with ⟨hmb, hminb⟩
      simp only [decide_eq_true_eq]
      constructor
      · intro h x hx y hy
        exact le_trans (hmaxa x hx) (le_trans h (hminb y hy))
      · intro h
        exact h ma hma mb hmb

/-- Claim C7: each pairwise segment predicate of `helper.rs` equals its
universally quantified reference definition (`gt_segs a b` iff every element
of `a` is strictly greater than every element of `b`, and likewise for
`ge_segs`, `lt_segs`, `le_segs`), each is vacuously true when either slice is
empty, and the single min/max comparison performed by the implementation is
equivalent to the all-pairs statement.  The predicates are pure functions of
their list arguments, so they mutate and reorder nothing. -/
theorem C7_segment_predicates [LinearOrder α] :
    (∀ a b : List α, gt_segs a b = true ↔ ∀ x ∈ a, ∀ y ∈ b, y < x) ∧
    (∀ a b : List α, ge_segs a b = true ↔ ∀ x ∈ a, ∀ y ∈ b, y ≤ x) ∧
    (∀ a b : List α, lt_segs a b = true ↔ ∀ x ∈ a, ∀ y ∈ b, x < y) ∧
    (∀ a b : List α, le_segs a b = true ↔ ∀ x ∈ a, ∀ y ∈ b, x ≤ y) ∧
    (∀ a : List α,
      (gt_segs a [] = true ∧ gt_segs ([] : List α) a = true) ∧
      (ge_segs a [] = true ∧ ge_segs ([] : List α) a = true) ∧
      (lt_segs a [] = true ∧ lt_segs ([] : List α) a = true) ∧
      (le_segs a [] = true ∧ le_segs ([] : List α) a = true)) := by
  refine ⟨gt_segs_iff, ge_segs_iff, lt_segs_iff, le_segs_iff, ?_⟩
  intro a
  refine ⟨⟨?_, ?_⟩, ⟨?_, ?_⟩, ⟨?_, ?_⟩, ⟨?_, ?_⟩⟩ <;>
    simp [gt_segs_iff, ge_segs_iff, lt_segs_iff, le_segs_iff]

/-! ### bubble sort: proofs -/

theorem bpass_short (le : α → α → Bool) (l : List α) (h : l.length ≤ 1) :
    bpass le l = (l, false) := by
  match l with
  | [] => simp [bpass]
  | [a] => simp [bpass]
  | a :: b :: t => simp at h

theorem bpass_perm (le : α → α → Bool) :
    ∀ (n : Nat) (l : List α), l.length ≤ n → List.Perm (bpass le l).1 l := by
  intro n
  induction n with
  | zero =>
    intro l h
    have : l = [] := List.length_eq_zero.mp (Nat.le_zero.mp h)
    subst this
    simp [bpass]
  | succ n ih =>
    intro l h
    match l with
    | [] => simp [bpass]
    | [a] => simp [bpass]
    | a :: b :: t =>
      rw [bpass]
      by_cases hab : le a b = true
      · rw [if_pos hab]
        exact List.Perm.cons a (ih (b :: t) (by simp at h ⊢; omega))
      · rw [if_neg hab]
        exact (List.Perm.cons b (ih (a :: t) (by simp at h ⊢; omega))).trans
          (List.Perm.swap a b t)

theorem bpass_flag_false (le : α → α → Bool) :
    ∀ (n : Nat) (l : List α), l.length ≤ n → (bpass le l).2 = false →
      bpass le l = (l, false) ∧ is_sorted le l = true := by
  intro n
  induction n with
  | zero =>
    intro l h _
    have : l = [] := List.length_eq_zero.mp (Nat.le_zero.mp h)
    subst this
    exact ⟨by simp [bpass], rfl⟩
  | succ n ih =>
    intro l h hf
    match l with
    | [] => exact ⟨by simp [bpass], rfl⟩
    | [a] => exact ⟨by simp [bpass], rfl⟩
    | a :: b :: t =>
      rw [bpass] at hf ⊢
      by_cases hab : le a b = true
      · rw [if_pos hab] at hf ⊢
        rcases ih (b :: t) (by simp at h ⊢; omega) hf with ⟨heq, hs⟩
        rw [heq]
        exact ⟨rfl, by simp [is_sorted, hab, hs]⟩
      · rw [if_neg hab] at hf
        simp at hf

theorem bpass_of_sorted (le : α → α → Bool) :
    ∀ (n : Nat) (l : List α), l.length ≤ n → is_sorted le l = true →
      bpass le l = (l, false) := by
  intro n
  induction n with
  | zero =>
    intro l h _
    have : l = [] := List.length_eq_zero.mp (Nat.le_zero.mp h)
    subst this
    simp [bpass]
  | succ n ih =>
    intro l h hs
    match l with
    | [] => simp [bpass]
    | [a] => simp [bpass]
    | a :: b :: t =>
      have hs2 : le a b = true ∧ is_sorted le (b :: t) = true := by
        simpa [is_sorted] using hs
      rw [bpass, if_pos hs2.1, ih (b :: t) (by simp at h ⊢; omega) hs2.2]

theorem bpass_append (le : α → α → Bool) :
    ∀ (n : Nat) (xs ys : List α), xs.length ≤ n → xs ≠ [] →
      (∀ x ∈ xs, ∀ y ∈ ys, le x y = true) → is_sorted le ys = true →
      bpass le (xs ++ ys) = ((bpass le xs).1 ++ ys, (bpass le xs).2) := by
  intro n
  induction n with
  | zero =>
    intro xs ys h hne _ _
    exact absurd (List.length_eq_zero.mp (Nat.le_zero.mp h)) hne
  | succ n ih =>
    intro xs ys h hne hcross hys
    match xs with
    | [] => exact absurd rfl hne
    | [a] =>
      match ys with
      | [] => simp [bpass]
      | y :: t =>
        have hay : le a y = true := hcross a (by simp) y (by simp)
        have hby := bpass_of_sorted le (y :: t).length (y :: t) (le_refl _) hys
        show bpass le (a :: y :: t) = _
        conv_lhs => rw [bpass]
        rw [if_pos hay, hby]
        simp [bpass]
    | a :: b :: t2 =>
      show bpass le (a :: b :: (t2 ++ ys)) = _
      rw [bpass]
      by_cases hab : le a b = true
      · rw [if_pos hab]
        have ihb := ih (b :: t2) ys (by simp at h ⊢; omega) (by simp)
          (fun x hx y hy => hcross x (List.mem_cons_of_mem a hx) y hy) hys
        rw [show b :: (t2 ++ ys) = (b :: t2) ++ ys from rfl, ihb]
        rw [bpass, if_pos hab]
        simp
      · rw [if_neg hab]
        have iha := ih (a :: t2) ys (by simp at h ⊢; omega) (by simp)
          (fun x hx y hy => by
            rcases List.mem_cons.mp hx with rfl | hx2
            · exact hcross x (by simp) y hy
            · exact hcross x (by simp [hx2]) y hy) hys
        rw [show a :: (t2 ++ ys) = (a :: t2) ++ ys from rfl, iha]
        rw [bpass, if_neg hab]
        simp

theorem bpass_last_max (le : α → α → Bool)
    (htot : ∀ a b, le a b = true ∨ le b a = true)
    (htrans : ∀ a b c, le a b = true → le b c = true → le a c = true) :
    ∀ (n : Nat) (xs : List α), xs.length ≤ n → xs ≠ [] →
      ∃ zs z, (bpass le xs).1 = zs ++ [z] ∧ (∀ w ∈ zs, le w z = true) := by
  intro n
  induction n with
  | zero =>
    intro xs h hne
    exact absurd (List.length_eq_zero.mp (Nat.le_zero.mp h)) hne
  | succ n ih =>
    intro xs h hne
    match xs with
    | [] => exact absurd rfl hne
    | [a] => exact ⟨[], a, by simp [bpass], by simp⟩
    | a :: b :: t =>
      by_cases hab : le a b = true
      · rcases ih (b :: t) (by simp at h ⊢; omega) (by simp) with ⟨zs, z, hz, hw⟩
        refine ⟨a :: zs, z, ?_, ?_⟩
        · rw [bpass, if_pos hab]
          simp [hz]
        · intro w hw2
          rcases List.mem_cons.mp hw2 with rfl | hw3
          · have hbmem : b ∈ zs ++ [z] := by
              rw [← hz]
              exact (bpass_perm le (b :: t).length (b :: t) (le_refl _)).mem_iff.mpr
                (by simp)
            rcases List.mem_append.mp hbmem with hb1 | hb2
            · exact htrans _ _ _ hab (hw b hb1)
            · simp at hb2
              exact hb2 ▸ hab
          · exact hw w hw3
      · have hba : le b a = true := (htot a b).resolve_left hab
        rcases ih (a :: t) (by simp at h ⊢; omega) (by simp) with ⟨zs, z, hz, hw⟩
        refine ⟨b :: zs, z, ?_, ?_⟩
        · rw [bpass, if_neg hab]
          simp [hz]
        · intro w hw2
          rcases List.mem_cons.mp hw2 with rfl | hw3
          · have hamem : a ∈ zs ++ [z] := by
              rw [← hz]
              exact (bpass_perm le (a :: t).length (a :: t) (le_refl _)).mem_iff.mpr
                (by simp)
            rcases List.mem_append.mp hamem with ha1 | ha2
            · exact htrans _ _ _ hba (hw a ha1)
            · simp at ha2
              exact ha2 ▸ hba
          · exact hw w hw3

theorem bpass_stable (le : α → α → Bool) :
    ∀ (n : Nat) (l : List (Nat × α)), l.length ≤ n → l.Pairwise (stP le) →
      ((bpass (pairLe le) l).1).Pairwise (stP le) := by
  intro n
  induction n with
  | zero =>
    intro l h _
    have : l = [] := List.length_eq_zero.mp (Nat.le_zero.mp h)
    subst this
    simp [bpass]
  | succ n ih =>
    intro l h hp
    match l with
    | [] => simpa [bpass] using hp
    | [a] => simpa [bpass] using hp
    | a :: b :: t =>
      rcases List.pairwise_cons.mp hp with ⟨ha, hbt⟩
      by_cases hab : pairLe le a b = true
      · rw [bpass, if_pos hab]
        refine List.pairwise_cons.mpr ⟨?_, ih (b :: t) (by simp at h ⊢; omega) hbt⟩
        intro q hq
        exact ha q ((bpass_perm (pairLe le) (b :: t).length (b :: t)
          (le_refl _)).mem_iff.mp hq)
      · rw [bpass, if_neg hab]
        have hpat : (a :: t).Pairwise (stP le) :=
          List.pairwise_cons.mpr
            ⟨fun q hq => ha q (List.mem_cons_of_mem b hq),
             (List.pairwise_cons.mp hbt).2⟩
        refine List.pairwise_cons.mpr ⟨?_, ih (a :: t) (by simp at h ⊢; omega) hpat⟩
        intro q hq
        have hq2 : q ∈ a :: t :=
          (bpass_perm (pairLe le) (a :: t).length (a :: t) (le_refl _)).mem_iff.mp hq
        rcases List.mem_cons.mp hq2 with rfl | hq3
        · intro _ h2
          exact absurd h2 hab
        · exact (List.pairwise_cons.mp hbt).1 q hq3

theorem bpassN_perm (le : α → α → Bool) :
    ∀ (k : Nat) (l : List α), List.Perm (bpassN le k l) l := by
  intro k
  induction k with
  | zero => intro l; exact List.Perm.refl l
  | succ k ih =>
    intro l
    exact (ih (bpass le l).1).trans (bpass_perm le l.length l (le_refl _))

theorem bpassN_stable (le : α → α → Bool) :
    ∀ (k : Nat) (l : List (Nat × α)), l.Pairwise (stP le) →
      (bpassN (pairLe le) k l).Pairwise (stP le) := by
  intro k
  induction k with
  | zero => intro l hp; exact hp
  | succ k ih =>
    intro l hp
    exact ih _ (bpass_stable le l.length l (le_refl _) hp)

theorem bubbleInner_eq (le : α → α → Bool) :
    ∀ (d : Nat) (arr : List α) (i : Nat) (flag : Bool), 1 ≤ i →
      arr.length - i + 1 ≤ d →
      bubbleInner le arr i arr.length flag =
        some (arr.take (i-1) ++ (bpass le (arr.drop (i-1))).1,
              flag || (bpass le (arr.drop (i-1))).2) := by
  intro d
  induction d with
  | zero => intro arr i flag h1 h2; omega
  | succ d ih =>
    intro arr i flag h1 h2
    rw [bubbleInner]
    by_cases hin : i < arr.length
    · rw [dif_pos hin]
      have hi1 : i - 1 < arr.length := by omega
      have hidx : i - 1 + 1 = i := by omega
      have hsplit1 : arr.drop (i-1) = arr[i-1] :: arr.drop i := by
        rw [← List.getElem_cons_drop arr (i-1) hi1, hidx]
      have hsplit2 : arr.drop i = arr[i] :: arr.drop (i+1) :=
        (List.getElem_cons_drop arr i hin).symm
      have htake : arr.take i = arr.take (i-1) ++ [arr[i-1]] := by
        conv_lhs => rw [← hidx]
        rw [List.take_succ, List.getElem?_eq_getElem hi1]
        rfl
      rw [List.getElem?_eq_getElem hi1, List.getElem?_eq_getElem hin]
      dsimp only
      by_cases hab : le arr[i-1] arr[i] = true
      · rw [if_neg (by simp [hab])]
        have ihr := ih arr (i+1) flag (by omega) (by omega)
        rw [ihr]
        have hb1 : bpass le (arr.drop (i-1)) =
            ((bpass le (arr.drop i)).1.cons arr[i-1], (bpass le (arr.drop i)).2) := by
          rw [hsplit1]
          conv_lhs => rw [hsplit2]
          rw [bpass, if_pos hab]
          rw [← hsplit2]
        simp only [Nat.add_sub_cancel]
        rw [hb1, htake, List.append_assoc]
        simp
      · have hba : (!le arr[i-1] arr[i]) = true := by simp [hab]
        rw [if_pos hba]
        rw [swapCk_some hi1 hin]
        dsimp only
        set arr2 := (arr.set (i-1) arr[i]).set i arr[i-1] with harr2
        have hlen2 : arr2.length = arr.length := by simp [harr2]
        have ihr := ih arr2 (i+1) true (by omega) (by omega)
        rw [hlen2] at ihr
        rw [ihr]
        have hdrop2 : arr2.drop i = arr[i-1] :: arr.drop (i+1) := by
          rw [harr2, List.drop_set, if_neg (by omega)]
          have : (arr.set (i-1) arr[i]).drop i = arr.drop i := by
            rw [List.drop_set, if_pos (by omega)]
          rw [this, Nat.sub_self, hsplit2]
          rfl
        have htake2 : arr2.take i = arr.take (i-1) ++ [arr[i]] := by
          rw [harr2, List.set_take]
          rw [List.set_eq_of_length_le (by simp only [List.length_take]; omega)]
          rw [List.set_take, htake]
          rw [List.set_append_right _ _ (by simp only [List.length_take]; omega)]
          have : i - 1 - (arr.take (i-1)).length = 0 := by
            simp only [List.length_take]
            omega
          rw [this]
          rfl
        have hb1 : bpass le (arr.drop (i-1)) =
            ((bpass le (arr[i-1] :: arr.drop (i+1))).1.cons arr[i], true) := by
          rw [hsplit1]
          conv_lhs => rw [hsplit2]
          rw [bpass, if_neg hab]
        simp only [Nat.add_sub_cancel]
        rw [hb1, hdrop2, htake2]
        simp [List.append_assoc]
    · rw [dif_neg hin]
      have hdrop : (arr.drop (i-1)).length ≤ 1 := by
        simp only [List.length_drop]
        omega
      rw [bpass_short le _ hdrop]
      simp [List.take_append_drop]

theorem bpass_tail_invariant (le : α → α → Bool)
    (htot : ∀ a b, le a b = true ∨ le b a = true)
    (htrans : ∀ a b c, le a b = true → le b c = true → le a c = true)
    (arr : List α) (m : Nat)
    (hs : (arr.drop (arr.length - m)).Pairwise (leR le))
    (hc : ∀ x ∈ arr.take (arr.length - m), ∀ y ∈ arr.drop (arr.length - m),
      le x y = true) :
    ((bpass le arr).1.drop (arr.length - (m+1))).Pairwise (leR le) ∧
    (∀ x ∈ (bpass le arr).1.take (arr.length - (m+1)),
      ∀ y ∈ (bpass le arr).1.drop (arr.length - (m+1)), le x y = true) := by
  by_cases hnm : arr.length ≤ m
  · have h0 : arr.length - m = 0 := by omega
    rw [h0, List.drop_zero] at hs
    have hsorted : is_sorted le arr = true :=
      (is_sorted_iff_pairwise le htrans arr).mpr hs
    rw [bpass_of_sorted le arr.length arr (le_refl _) hsorted]
    have h1 : arr.length - (m+1) = 0 := by omega
    rw [h1]
    simp only [List.drop_zero, List.take_zero]
    exact ⟨hs, by intro x hx; simp at hx⟩
  · push_neg at hnm
    have harr : arr.take (arr.length - m) ++ arr.drop (arr.length - m) = arr :=
      List.take_append_drop _ arr
    have hxs_len : (arr.take (arr.length - m)).length = arr.length - m := by
      simp only [List.length_take]
      omega
    have hxs_ne : arr.take (arr.length - m) ≠ [] := by
      intro hcon
      have hlen0 := congrArg List.length hcon
      rw [hxs_len] at hlen0
      simp only [List.length_nil] at hlen0
      omega
    have hys_sorted : is_sorted le (arr.drop (arr.length - m)) = true :=
      (is_sorted_iff_pairwise le htrans _).mpr hs
    have hdec := bpass_append le (arr.take (arr.length - m)).length
      (arr.take (arr.length - m)) (arr.drop (arr.length - m)) (le_refl _)
      hxs_ne hc hys_sorted
    rw [harr] at hdec
    rcases bpass_last_max le htot htrans (arr.take (arr.length - m)).length
      (arr.take (arr.length - m)) (le_refl _) hxs_ne with ⟨zs, z, hz, hw⟩
    have hperm_xs : List.Perm (zs ++ [z]) (arr.take (arr.length - m)) := by
      rw [← hz]
      exact bpass_perm le _ _ (le_refl _)
    have hzs_len : zs.length = arr.length - (m+1) := by
      have := hperm_xs.length_eq
      simp only [List.length_append, List.length_singleton] at this
      omega
    have hmem_xs : ∀ w, w ∈ zs ++ [z] → w ∈ arr.take (arr.length - m) :=
      fun w hw2 => hperm_xs.mem_iff.mp hw2
    rw [hdec, hz]
    have hshape : (zs ++ [z]) ++ arr.drop (arr.length - m) =
        zs ++ z :: arr.drop (arr.length - m) := by
      simp [List.append_assoc]
    rw [hshape]
    have hdropL : (zs ++ z :: arr.drop (arr.length - m)).drop (arr.length - (m+1)) =
        z :: arr.drop (arr.length - m) := by
      rw [← hzs_len]
      exact List.drop_left zs _
    have htakeL : (zs ++ z :: arr.drop (arr.length - m)).take (arr.length - (m+1)) =
        zs := by
      rw [← hzs_len]
      exact List.take_left zs _
    rw [hdropL, htakeL]
    constructor
    · refine List.pairwise_cons.mpr ⟨?_, hs⟩
      intro y hy
      exact hc z (hmem_xs z (by simp)) y hy
    · intro x hx y hy
      rcases List.mem_cons.mp hy with rfl | hy2
      · exact hw x hx
      · exact hc x (hmem_xs x (List.mem_append_left _ hx)) y hy2

theorem bubbleOuter_spec (le : α → α → Bool)
    (htot : ∀ a b, le a b = true ∨ le b a = true)
    (htrans : ∀ a b c, le a b = true → le b c = true → le a c = true) :
    ∀ (d cnt : Nat) (arr : List α), 1 ≤ cnt → arr.length + 2 - cnt ≤ d →
      ((arr.drop (arr.length - (cnt - 1))).Pairwise (leR le)) →
      (∀ x ∈ arr.take (arr.length - (cnt - 1)),
        ∀ y ∈ arr.drop (arr.length - (cnt - 1)), le x y = true) →
      ∃ out k, bubbleOuter le arr cnt arr.length = some out ∧
        out = bpassN le k arr ∧ is_sorted le out = true := by
  intro d
  induction d with
  | zero =>
    intro cnt arr h1 h2 hs hc
    have hcn : ¬ (cnt ≤ arr.length) := by omega
    rw [bubbleOuter, dif_neg hcn]
    have h0 : arr.length - (cnt - 1) = 0 := by omega
    rw [h0, List.drop_zero] at hs
    exact ⟨arr, 0, rfl, rfl, (is_sorted_iff_pairwise le htrans arr).mpr hs⟩
  | succ d ih =>
    intro cnt arr h1 h2 hs hc
    rw [bubbleOuter]
    by_cases hcn : cnt ≤ arr.length
    · rw [dif_pos hcn]
      have hpass := bubbleInner_eq le (arr.length + 1) arr 1 false (le_refl _)
        (by omega)
      simp only [Nat.sub_self, List.take_zero, List.drop_zero,
        List.nil_append, Bool.false_or] at hpass
      rw [hpass]
      by_cases hflag : (bpass le arr).2 = false
      · rw [hflag]
        have hsorted := (bpass_flag_false le arr.length arr (le_refl _) hflag).2
        have heq := (bpass_flag_false le arr.length arr (le_refl _) hflag).1
        refine ⟨arr, 0, ?_, rfl, hsorted⟩
        simp [heq]
      · have hflag2 : (bpass le arr).2 = true := by
          cases h : (bpass le arr).2
          · exact absurd h hflag
          · rfl
        rw [hflag2]
        dsimp only
        set arr2 := (bpass le arr).1 with harr2
        have hlen2 : arr2.length = arr.length :=
          (bpass_perm le arr.length arr (le_refl _)).length_eq
        have hinv := bpass_tail_invariant le htot htrans arr (cnt - 1) hs hc
        have hcnt1 : cnt - 1 + 1 = cnt := by omega
        rw [hcnt1] at hinv
        have hinv1 : (arr2.drop (arr2.length - (cnt + 1 - 1))).Pairwise (leR le) := by
          rw [hlen2]
          simpa using hinv.1
        have hinv2 : ∀ x ∈ arr2.take (arr2.length - (cnt + 1 - 1)),
            ∀ y ∈ arr2.drop (arr2.length - (cnt + 1 - 1)), le x y = true := by
          rw [hlen2]
          simpa using hinv.2
        rcases ih (cnt + 1) arr2 (by omega) (by omega) hinv1 hinv2 with
          ⟨out, k, hout, hk, hsout⟩
        rw [hlen2] at hout
        refine ⟨out, k + 1, ?_, ?_, hsout⟩
        · simp [hout]
        · rw [hk]
          clear hout hk
          induction k with
          | zero => rfl
          | succ k ihk => rw [bpassN, bpassN, ← harr2]; rfl
    · rw [dif_neg hcn]
      have h0 : arr.length - (cnt - 1) = 0 := by omega
      rw [h0, List.drop_zero] at hs
      exact ⟨arr, 0, rfl, rfl, (is_sorted_iff_pairwise le htrans arr).mpr hs⟩

theorem bubble_sort_spec (le : α → α → Bool)
    (htot : ∀ a b, le a b = true ∨ le b a = true)
    (htrans : ∀ a b c, le a b = true → le b c = true → le a c = true)
    (arr : List α) :
    ∃ out k, bubble_sort le arr = some out ∧ out = bpassN le k arr ∧
      List.Perm out arr ∧ is_sorted le out = true := by
  have h := bubbleOuter_spec le htot htrans (arr.length + 1) 1 arr (le_refl _)
    (by omega) (by simp) (by simp)
  rcases h with ⟨out, k, hout, hk, hsout⟩
  exact ⟨out, k, hout, hk, hk ▸ bpassN_perm le k arr, hsout⟩

/-! ### insertion sort: proofs -/

theorem take_set_of_le (l : List α) (m n : Nat) (a : α) (h : n ≤ m) :
    (l.set m a).take n = l.take n := by
  rw [List.set_take]
  exact List.set_eq_of_length_le (by simp only [List.length_take]; omega)

theorem getD_eq_getElem (l : List α) (p : Nat) (d : α) (h : p < l.length) :
    l.getD p d = l[p] := by
  simp [List.getD_eq_getElem?_getD, List.getElem?_eq_getElem h]

theorem getD_set_ne (l : List α) (m p : Nat) (a d : α) (h : p ≠ m) :
    (l.set m a).getD p d = l.getD p d := by
  simp [List.getD_eq_getElem?_getD, List.getElem?_set_ne (Ne.symm h)]

theorem sliceL_set_of_le (l : List α) (m p q : Nat) (a : α) (h : q ≤ m) :
    sliceL (l.set m a) p q = sliceL l p q := by
  by_cases hpm : m < p
  · rw [sliceL_here, sliceL_here, List.drop_set, if_pos hpm]
  · rw [sliceL_here, sliceL_here, List.drop_set, if_neg hpm]
    exact take_set_of_le _ _ _ _ (by omega)

theorem drop_set_self (l : List α) (m : Nat) (a : α) (h : m < l.length) :
    (l.set m a).drop m = a :: l.drop (m+1) := by
  rw [List.drop_set, if_neg (by omega), Nat.sub_self]
  rw [← List.getElem_cons_drop l m h]
  rfl

theorem sliceL_snoc (l : List α) (p q : Nat) (h1 : p ≤ q) (h2 : q < l.length) :
    sliceL l p (q+1) = sliceL l p q ++ [l[q]] := by
  rw [sliceL_here, sliceL_here]
  have hq : q + 1 - p = (q - p) + 1 := by omega
  rw [hq, List.take_succ]
  congr 1
  rw [List.getElem?_drop]
  have hpq : p + (q - p) = q := by omega
  rw [hpq, List.getElem?_eq_getElem h2]
  rfl

theorem insShift_spec (le : α → α → Bool) (d : α) :
    ∀ (j : Nat) (arr : List α) (key : α), j < arr.length →
      ∃ arr2 j2, insShift le arr key j = some (arr2, j2) ∧ j2 ≤ j ∧
        arr2 = arr.take (j2+1) ++ (sliceL arr j2 j ++ arr.drop (j+1)) ∧
        (j2 = 0 ∨ le (arr.getD (j2-1) d) key = true) ∧
        (∀ p, j2 ≤ p → p < j → le (arr.getD p d) key = false) := by
  intro j
  induction j with
  | zero =>
    intro arr key hj
    rw [insShift, dif_neg (by omega)]
    refine ⟨arr, 0, rfl, le_refl _, ?_, Or.inl rfl, by omega⟩
    have h0 : sliceL arr 0 0 = [] := by simp [sliceL_here]
    rw [h0, List.nil_append, List.take_append_drop]
  | succ j ih =>
    intro arr key hj
    have hj1 : j < arr.length := by omega
    have hidx : j + 1 - 1 = j := by omega
    have hg : arr[j+1-1]? = some arr[j] := by
      rw [hidx]
      exact List.getElem?_eq_getElem hj1
    rw [insShift, dif_pos (by omega : 0 < j + 1)]
    simp only [hg]
    by_cases hle : le arr[j] key = true
    · rw [if_neg (by simp [hle])]
      refine ⟨arr, j+1, rfl, le_refl _, ?_, ?_, by omega⟩
      · have : sliceL arr (j+1) (j+1) = [] := by
          simp [sliceL_here]
        rw [this, List.nil_append, List.take_append_drop]
      · right
        rw [hidx, getD_eq_getElem arr j d hj1]
        exact hle
    · rw [if_pos (by simp [hle])]
      have hset : setCk arr (j+1) arr[j] = some (arr.set (j+1) arr[j]) :=
        setCk_eq_some_iff.mpr ⟨hj, rfl⟩
      simp only [hset, hidx]
      rcases ih (arr.set (j+1) arr[j]) key (by simpa using hj1) with
        ⟨arr2, j2, hrec, hj2, hshape, hstop, hgt⟩
      refine ⟨arr2, j2, hrec, by omega, ?_, ?_, ?_⟩
      · rw [hshape]
        have ht : (arr.set (j+1) arr[j]).take (j2+1) = arr.take (j2+1) :=
          take_set_of_le _ _ _ _ (by omega)
        have hsl : sliceL (arr.set (j+1) arr[j]) j2 j = sliceL arr j2 j :=
          sliceL_set_of_le _ _ _ _ _ (by omega)
        have hdr : (arr.set (j+1) arr[j]).drop (j+1) =
            arr[j] :: arr.drop (j+2) := by
          rw [drop_set_self _ _ _ (by omega)]
        have hsnoc : sliceL arr j2 (j+1) = sliceL arr j2 j ++ [arr[j]] :=
          sliceL_snoc arr j2 j hj2 hj1
        rw [ht, hsl, hdr, hsnoc]
        simp [List.append_assoc]
      · rcases hstop with h0 | hs
        · exact Or.inl h0
        · right
          rw [getD_set_ne _ _ _ _ _ (by omega)] at hs
          exact hs
      · intro p hp1 hp2
        by_cases hpj : p = j
        · subst hpj
          rw [getD_eq_getElem arr p d hj1]
          cases h : le arr[p] key
          · rfl
          · exact absurd h hle
        · have := hgt p hp1 (by omega)
          rw [getD_set_ne _ _ _ _ _ (by omega)] at this
          exact this

theorem take_succ_getElem (l : List α) (n : Nat) (h : n < l.length) :
    l.take (n+1) = l.take n ++ [l[n]] := by
  induction l generalizing n with
  | nil => simp at h
  | cons a t ih =>
    cases n with
    | zero => simp
    | succ n =>
      simp only [List.take_succ_cons, List.getElem_cons_succ, List.cons_append,
        List.cons.injEq, true_and]
      exact ih n (by simpa using h)

theorem sliceL_length (arr : List α) (p q : Nat) :
    (sliceL arr p q).length = min (q - p) (arr.length - p) := by
  simp [sliceL_here]

theorem mem_sliceL {arr : List α} {p q : Nat} {x : α}
    (hx : x ∈ sliceL arr p q) :
    ∃ t, p ≤ t ∧ t < q ∧ t < arr.length ∧ arr[t]? = some x := by
  rcases List.mem_iff_getElem.mp hx with ⟨n, hn, hval⟩
  have hlen := sliceL_length arr p q
  rw [hlen] at hn
  refine ⟨p + n, by omega, by omega, by omega, ?_⟩
  have h1 : (sliceL arr p q)[n]? = some x := by
    rw [List.getElem?_eq_getElem (by rw [hlen]; omega)]
    exact congrArg some hval
  rw [sliceL_here] at h1
  rw [List.getElem?_take_of_lt (by omega)] at h1
  rw [List.getElem?_drop] at h1
  exact h1

theorem mem_take_index {arr : List α} {i : Nat} {x : α}
    (hx : x ∈ arr.take i) :
    ∃ t, t < i ∧ t < arr.length ∧ arr[t]? = some x := by
  rcases List.mem_iff_getElem.mp hx with ⟨n, hn, hval⟩
  simp only [List.length_take] at hn
  refine ⟨n, by omega, by omega, ?_⟩
  rw [List.getElem?_eq_getElem (by omega)]
  refine congrArg some ?_
  rw [← hval]
  simp [List.getElem_take]

theorem pairwise_take_index {le : α → α → Bool} {arr : List α} {i : Nat}
    (hs : (arr.take i).Pairwise (leR le)) :
    ∀ p q, p < arr.length → q < arr.length → p < q → q < i →
      le (arr.getD p x0) (arr.getD q x0) = true := by
  rw [List.pairwise_iff_getElem] at hs
  intro p q hp hq hpq hqi
  have h1 : p < (arr.take i).length := by
    simp only [List.length_take]
    omega
  have h2 : q < (arr.take i).length := by
    simp only [List.length_take]
    omega
  have hres := hs p q h1 h2 hpq
  rw [getD_eq_getElem arr p x0 hp, getD_eq_getElem arr q x0 hq]
  simpa [leR, List.getElem_take] using hres

theorem pairwise_middle_jump {β : Type*} {P : β → β → Prop} (A B C : List β)
    (key : β) (h : (A ++ (B ++ key :: C)).Pairwise P) (hB : ∀ b ∈ B, P key b) :
    (A ++ key :: (B ++ C)).Pairwise P := by
  rw [List.pairwise_append] at h
  rcases h with ⟨hA, hBC, hcross⟩
  rw [List.pairwise_append] at hBC
  rcases hBC with ⟨hPB, hKC, hcross2⟩
  rcases List.pairwise_cons.mp hKC with ⟨hKey, hC⟩
  rw [List.pairwise_append]
  refine ⟨hA, ?_, ?_⟩
  · rw [List.pairwise_cons]
    constructor
    · intro b hb
      rcases List.mem_append.mp hb with hb1 | hb2
      · exact hB b hb1
      · exact hKey b hb2
    · rw [List.pairwise_append]
      exact ⟨hPB, hC, fun b hb c hc => hcross2 b hb c (List.mem_cons_of_mem _ hc)⟩
  · intro a ha y hy
    rcases List.mem_cons.mp hy with rfl | hy2
    · exact hcross a ha y (List.mem_append_right _ (List.mem_cons_self _ _))
    · rcases List.mem_append.mp hy2 with hy3 | hy3
      · exact hcross a ha y (List.mem_append_left _ hy3)
      · exact hcross a ha y
          (List.mem_append_right _ (List.mem_cons_of_mem _ hy3))

theorem ins_net (le : α → α → Bool)
    (htot : ∀ a b, le a b = true ∨ le b a = true)
    (htrans : ∀ a b c, le a b = true → le b c = true → le a c = true)
    (arr : List α) (i : Nat) (hi : i < arr.length)
    (hsort : (arr.take i).Pairwise (leR le)) :
    ∃ arr2 j2 out, insShift le arr arr[i] i = some (arr2, j2) ∧
      setCk arr2 j2 arr[i] = some out ∧
      out = arr.take j2 ++ arr[i] :: (sliceL arr j2 i ++ arr.drop (i+1)) ∧
      out.length = arr.length ∧
      List.Perm out arr ∧
      (out.take (i+1)).Pairwise (leR le) ∧
      out.drop (i+1) = arr.drop (i+1) ∧
      (∀ (P : α → α → Prop), (∀ a b, le b a = false → P a b) →
        arr.Pairwise P → out.Pairwise P) := by
  rcases insShift_spec le arr[i] i arr arr[i] hi with
    ⟨arr2, j2, hshift, hj2i, hshape, hstop, hgt⟩
  have hlen2 : arr2.length = arr.length := by
    rw [hshape]
    simp only [List.length_append, List.length_take, List.length_cons,
      sliceL_length, List.length_drop]
    omega
  have hj2len : j2 < arr2.length := by omega
  have hset : setCk arr2 j2 arr[i] = some (arr2.set j2 arr[i]) :=
    setCk_eq_some_iff.mpr ⟨hj2len, rfl⟩
  have htake_len : (arr.take (j2+1)).length = j2 + 1 := by
    simp only [List.length_take]
    omega
  have htake_succ : arr.take (j2+1) = arr.take j2 ++ [arr[j2]] :=
    take_succ_getElem arr j2 (by omega)
  have hout_eq : arr2.set j2 arr[i] =
      arr.take j2 ++ arr[i] :: (sliceL arr j2 i ++ arr.drop (i+1)) := by
    rw [hshape, List.set_append_left _ _ (by rw [htake_len]; omega)]
    rw [htake_succ, List.set_append_right _ _ (by simp only [List.length_take]; omega)]
    have h0 : j2 - (arr.take j2).length = 0 := by
      simp only [List.length_take]
      omega
    rw [h0]
    simp [List.append_assoc]
  set out := arr2.set j2 arr[i] with hout_def
  have harr_slice : arr.take i = arr.take j2 ++ sliceL arr j2 i := by
    conv_lhs => rw [← List.take_append_drop j2 (arr.take i)]
    congr 1
    · rw [List.take_take]
      congr 1
      omega
    · rw [List.drop_take, sliceL_here]
  have harr_dec : arr = arr.take j2 ++ (sliceL arr j2 i ++ arr[i] :: arr.drop (i+1)) := by
    conv_lhs => rw [← List.take_append_drop i arr]
    rw [harr_slice, ← List.getElem_cons_drop arr i hi]
    simp [List.append_assoc]
  have hperm : List.Perm out arr := by
    rw [hout_eq]
    conv_rhs => rw [harr_dec]
    exact List.Perm.append_left _ List.perm_middle.symm
  have hout_len : out.length = arr.length := by
    rw [hout_def]
    simp only [List.length_set]
    exact hlen2
  have hAB_len : (arr.take j2 ++ arr[i] :: sliceL arr j2 i).length = i + 1 := by
    simp only [List.length_append, List.length_take, List.length_cons, sliceL_length]
    omega
  have hout_shape2 : out = (arr.take j2 ++ arr[i] :: sliceL arr j2 i) ++ arr.drop (i+1) := by
    rw [hout_eq]
    simp [List.append_assoc]
  have htake_out : out.take (i+1) = arr.take j2 ++ arr[i] :: sliceL arr j2 i := by
    rw [hout_shape2, List.take_left' hAB_len]
  have hdrop_out : out.drop (i+1) = arr.drop (i+1) := by
    rw [hout_shape2, List.drop_left' hAB_len]
  have hgt2 : ∀ y ∈ sliceL arr j2 i, le arr[i] y = true := by
    intro y hy
    rcases mem_sliceL hy with ⟨t, ht1, ht2, ht3, ht4⟩
    have hyv : y = arr[t] := by
      rw [List.getElem?_eq_getElem ht3] at ht4
      exact (Option.some.injEq _ _).mp ht4.symm
    have := hgt t ht1 ht2
    rw [getD_eq_getElem arr t _ ht3] at this
    rcases htot arr[i] arr[t] with h | h
    · rw [hyv]; exact h
    · rw [h] at this; cases this
  have hA_key : ∀ x ∈ arr.take j2, le x arr[i] = true := by
    intro x hx
    rcases mem_take_index hx with ⟨t, ht1, ht2, ht3⟩
    have hxv : x = arr[t] := by
      rw [List.getElem?_eq_getElem ht2] at ht3
      exact (Option.some.injEq _ _).mp ht3.symm
    rcases hstop with h0 | hstop2
    · omega
    · rw [getD_eq_getElem arr (j2-1) _ (by omega)] at hstop2
      by_cases htj : t = j2 - 1
      · have hcongr : arr[t] = arr[j2-1] := getElem_idx_congr htj ht2 (by omega)
        rw [hxv, hcongr]
        exact hstop2
      · have hlt : le (arr.getD t arr[i]) (arr.getD (j2-1) arr[i]) = true :=
          pairwise_take_index hsort t (j2-1) ht2 (by omega) (by omega) (by omega)
        rw [getD_eq_getElem arr t _ ht2, getD_eq_getElem arr (j2-1) _ (by omega)] at hlt
        rw [hxv]
        exact htrans _ _ _ hlt hstop2
  have hsorted_out : (out.take (i+1)).Pairwise (leR le) := by
    rw [htake_out, List.pairwise_append]
    refine ⟨?_, ?_, ?_⟩
    · have hsub : arr.take j2 = (arr.take i).take j2 := by
        rw [List.take_take]
        congr 1
        omega
      rw [hsub]
      exact hsort.sublist (List.take_sublist _ _)
    · rw [List.pairwise_cons]
      refine ⟨hgt2, ?_⟩
      have hsub : sliceL arr j2 i = (arr.take i).drop j2 := by
        rw [List.drop_take, sliceL_here]
      rw [hsub]
      exact hsort.sublist (List.drop_sublist _ _)
    · intro x hx y hy
      rcases List.mem_cons.mp hy with rfl | hy2
      · exact hA_key x hx
      · have hcross : ∀ a ∈ arr.take j2, ∀ b ∈ sliceL arr j2 i, leR le a b := by
          have := hsort
          rw [harr_slice, List.pairwise_append] at this
          exact this.2.2
        exact hcross x hx y hy2
  refine ⟨arr2, j2, out, hshift, hset, hout_eq, hout_len, hperm, hsorted_out,
    hdrop_out, ?_⟩
  intro P hP hpw
  rw [hout_eq]
  have hpw2 : (arr.take j2 ++ (sliceL arr j2 i ++ arr[i] :: arr.drop (i+1))).Pairwise P := by
    rw [← harr_dec]
    exact hpw
  refine pairwise_middle_jump _ _ _ _ hpw2 ?_
  intro b hb
  rcases mem_sliceL hb with ⟨t, ht1, ht2, ht3, ht4⟩
  have hbv : b = arr[t] := by
    rw [List.getElem?_eq_getElem ht3] at ht4
    exact (Option.some.injEq _ _).mp ht4.symm
  have := hgt t ht1 ht2
  rw [getD_eq_getElem arr t _ ht3] at this
  refine hP _ _ ?_
  rw [hbv]
  exact this

theorem insOuter_spec (le : α → α → Bool)
    (htot : ∀ a b, le a b = true ∨ le b a = true)
    (htrans : ∀ a b c, le a b = true → le b c = true → le a c = true) :
    ∀ (d i : Nat) (arr : List α), arr.length - i ≤ d →
      (arr.take i).Pairwise (leR le) →
      ∃ out, insOuter le arr i arr.length = some out ∧ List.Perm out arr ∧
        out.Pairwise (leR le) ∧
        (∀ (P : α → α → Prop), (∀ a b, le b a = false → P a b) →
          arr.Pairwise P → out.Pairwise P) := by
  intro d
  induction d with
  | zero =>
    intro i arr h hs
    have hin : ¬ (i < arr.length) := by omega
    rw [insOuter, dif_neg hin]
    rw [List.take_of_length_le (by omega)] at hs
    exact ⟨arr, rfl, List.Perm.refl _, hs, fun P _ hp => hp⟩
  | succ d ih =>
    intro i arr h hs
    by_cases hin : i < arr.length
    · rw [insOuter, dif_pos hin]
      rcases ins_net le htot htrans arr i hin hs with
        ⟨arr2, j2, mid, hshift, hset, hmid_eq, hmid_len, hmid_perm, hmid_sorted,
          hmid_drop, hmid_st⟩
      rw [List.getElem?_eq_getElem hin]
      simp only [hshift, hset]
      have hlen_eq : arr.length = mid.length := hmid_len.symm
      rw [hlen_eq]
      rcases ih (i+1) mid (by omega) hmid_sorted with
        ⟨out, hout, hperm, hsout, hstab⟩
      refine ⟨out, hout, hperm.trans hmid_perm, hsout, ?_⟩
      intro P hP hp
      exact hstab P hP (hmid_st P hP hp)
    · rw [insOuter, dif_neg hin]
      rw [List.take_of_length_le (by omega)] at hs
      exact ⟨arr, rfl, List.Perm.refl _, hs, fun P _ hp => hp⟩

theorem insertion_sort_spec (le : α → α → Bool)
    (htot : ∀ a b, le a b = true ∨ le b a = true)
    (htrans : ∀ a b c, le a b = true → le b c = true → le a c = true)
    (arr : List α) :
    ∃ out, insertion_sort le arr = some out ∧ List.Perm out arr ∧
      out.Pairwise (leR le) ∧
      (∀ (P : α → α → Prop), (∀ a b, le b a = false → P a b) →
        arr.Pairwise P → out.Pairwise P) := by
  have h1 : (arr.take 1).Pairwise (leR le) := by
    cases arr <;> simp
  exact insOuter_spec le htot htrans arr.length 1 arr (by omega) h1

/-! ### Shell sort: proofs -/

theorem gapShift_spec (le : α → α → Bool) (k : Nat) (hk : 0 < k) :
    ∀ (j : Nat) (arr : List α) (tmp : α), j < arr.length →
      ∃ arr2 j2, gapShift le k hk arr tmp j = some (arr2, j2) ∧ j2 ≤ j ∧
        arr2.length = arr.length ∧ j2 < arr2.length ∧
        List.Perm (arr2.set j2 tmp) (arr.set j tmp) := by
  intro j
  induction j using Nat.strong_induction_on with
  | _ j ih =>
    intro arr tmp hj
    rw [gapShift]
    by_cases hkj : k ≤ j
    · rw [dif_pos hkj]
      have hjk : j - k < arr.length := by omega
      have hg : arr[j-k]? = some arr[j-k] := List.getElem?_eq_getElem hjk
      simp only [hg]
      by_cases hle : le arr[j-k] tmp = true
      · rw [if_neg (by simp [hle])]
        exact ⟨arr, j, rfl, le_refl _, rfl, hj, List.Perm.refl _⟩
      · rw [if_pos (by simp [hle])]
        have hset : setCk arr j arr[j-k] = some (arr.set j arr[j-k]) :=
          setCk_eq_some_iff.mpr ⟨hj, rfl⟩
        simp only [hset]
        rcases ih (j-k) (by omega) (arr.set j arr[j-k]) tmp (by simpa using hjk)
          with ⟨arr2, j2, hrec, hj2, hlen, hj2len, hperm⟩
        refine ⟨arr2, j2, hrec, by omega, by rw [hlen]; simp, by omega, ?_⟩
        refine hperm.trans ?_
        have h1 : arr.set j arr[j-k] = (arr.set j tmp).set j arr[j-k] := by
          rw [List.set_set]
        have ha : (arr.set j tmp)[j]? = some tmp := List.getElem?_set_self hj
        have hb : (arr.set j tmp)[j-k]? = some arr[j-k] := by
          rw [List.getElem?_set_ne (by omega : j ≠ j - k)]
          exact hg
        have hsw := swap_perm (arr.set j tmp) j (j-k) tmp arr[j-k] ha hb
        rw [← h1] at hsw
        exact hsw
    · rw [dif_neg hkj]
      exact ⟨arr, j, rfl, le_refl _, rfl, hj, List.Perm.refl _⟩

theorem gapPass_spec (le : α → α → Bool) (k : Nat) (hk : 0 < k) :
    ∀ (d i : Nat) (arr : List α), arr.length - i ≤ d →
      ∃ out, gapPass le k hk arr i arr.length = some out ∧ List.Perm out arr := by
  intro d
  induction d with
  | zero =>
    intro i arr h
    rw [gapPass, dif_neg (by omega : ¬ i < arr.length)]
    exact ⟨arr, rfl, List.Perm.refl _⟩
  | succ d ih =>
    intro i arr h
    by_cases hin : i < arr.length
    · rw [gapPass, dif_pos hin]
      have hg : arr[i]? = some arr[i] := List.getElem?_eq_getElem hin
      simp only [hg]
      rcases gapShift_spec le k hk i arr arr[i] hin with
        ⟨arr2, j2, hrec, hj2, hlen, hj2len, hperm⟩
      simp only [hrec]
      have hset : setCk arr2 j2 arr[i] = some (arr2.set j2 arr[i]) :=
        setCk_eq_some_iff.mpr ⟨hj2len, rfl⟩
      simp only [hset]
      have hmidlen : (arr2.set j2 arr[i]).length = arr.length := by
        simp [hlen]
      have hmidperm : List.Perm (arr2.set j2 arr[i]) arr := by
        refine hperm.trans ?_
        rw [set_self_eq arr i hin]
      rw [show arr.length = (arr2.set j2 arr[i]).length from hmidlen.symm]
      rcases ih (i+1) (arr2.set j2 arr[i]) (by omega) with ⟨out, hout, hperm2⟩
      exact ⟨out, hout, hperm2.trans hmidperm⟩
    · rw [gapPass, dif_neg hin]
      exact ⟨arr, rfl, List.Perm.refl _⟩

theorem gapShift_one_eq (le : α → α → Bool) (hk : 0 < 1) :
    ∀ (j : Nat) (arr : List α) (tmp : α),
      gapShift le 1 hk arr tmp j = insShift le arr tmp j := by
  intro j
  induction j using Nat.strong_induction_on with
  | _ j ih =>
    intro arr tmp
    rw [gapShift, insShift]
    by_cases h : 1 ≤ j
    · rw [dif_pos h, dif_pos (show 0 < j from h)]
      cases hg : arr[j-1]? with
      | none => rfl
      | some p =>
        by_cases hle : le p tmp = true
        · simp [hle]
        · have hle2 : le p tmp = false := by
            cases hv : le p tmp
            · rfl
            · exact absurd hv hle
          cases hs : setCk arr j p with
          | none => simp [hle2, hs]
          | some arr2 =>
            simp only [hle2, hs, Bool.not_false, if_true]
            exact ih (j-1) (by omega) arr2 tmp
    · rw [dif_neg h, dif_neg (show ¬ 0 < j from h)]

theorem gapPass_one_eq (le : α → α → Bool) (hk : 0 < 1) :
    ∀ (d i n : Nat) (arr : List α), n - i ≤ d →
      gapPass le 1 hk arr i n = insOuter le arr i n := by
  intro d
  induction d with
  | zero =>
    intro i n arr h
    rw [gapPass, insOuter, dif_neg (by omega : ¬ i < n), dif_neg (by omega : ¬ i < n)]
  | succ d ih =>
    intro i n arr h
    rw [gapPass, insOuter]
    by_cases hin : i < n
    · rw [dif_pos hin, dif_pos hin]
      cases hg : arr[i]? with
      | none => rfl
      | some tmp =>
        have hgs := gapShift_one_eq le hk i arr tmp
        cases hsh : insShift le arr tmp i with
        | none => simp [hgs, hsh]
        | some pr =>
          obtain ⟨arr2, j2⟩ := pr
          cases hst : setCk arr2 j2 tmp with
          | none => simp [hgs, hsh, hst]
          | some arr3 =>
            simp only [hgs, hsh, hst]
            exact ih (i+1) n arr3 (by omega)
    · rw [dif_neg hin, dif_neg hin]

theorem shellGrow_gapVal (n : Nat) : ∀ (d j : Nat), n / 3 - gapVal j ≤ d →
    ∃ j2, shellGrow n (gapVal j) = gapVal j2 := by
  intro d
  induction d with
  | zero =>
    intro j h
    rw [shellGrow, dif_neg (by omega : ¬ gapVal j < n / 3)]
    exact ⟨j, rfl⟩
  | succ d ih =>
    intro j h
    by_cases hlt : gapVal j < n / 3
    · rw [shellGrow, dif_pos hlt]
      have hsucc : 3 * gapVal j + 1 = gapVal (j+1) := rfl
      rw [hsucc]
      refine ih (j+1) ?_
      have : gapVal (j+1) = 3 * gapVal j + 1 := rfl
      omega
    · rw [shellGrow, dif_neg hlt]
      exact ⟨j, rfl⟩

theorem shellLoop_spec (le : α → α → Bool)
    (htot : ∀ a b, le a b = true ∨ le b a = true)
    (htrans : ∀ a b c, le a b = true → le b c = true → le a c = true) :
    ∀ (j : Nat) (arr : List α),
      ∃ out, shellLoop le arr (gapVal j) arr.length = some out ∧
        List.Perm out arr ∧ out.Pairwise (leR le) := by
  intro j
  induction j with
  | zero =>
    intro arr
    simp only [gapVal]
    rw [shellLoop, dif_pos (Nat.le_refl 1)]
    rw [gapPass_one_eq le (Nat.le_refl 1) (arr.length + 1) 1 arr.length arr (by omega)]
    rcases insOuter_spec le htot htrans arr.length 1 arr (by omega)
      (by cases arr <;> simp) with ⟨out, hout, hperm, hsort, -⟩
    simp only [hout]
    rw [shellLoop, dif_neg (by omega : ¬ 1 ≤ 1 / 3)]
    exact ⟨out, rfl, hperm, hsort⟩
  | succ j ihj =>
    intro arr
    have hpos : 1 ≤ gapVal (j+1) := by
      have : gapVal (j+1) = 3 * gapVal j + 1 := rfl
      omega
    rw [shellLoop, dif_pos hpos]
    rcases gapPass_spec le (gapVal (j+1)) (by omega) (arr.length + 1)
      (gapVal (j+1)) arr (by omega) with ⟨out1, hout1, hperm1⟩
    simp only [hout1]
    have hdiv : gapVal (j+1) / 3 = gapVal j := by
      have h1 : gapVal (j+1) = 3 * gapVal j + 1 := rfl
      omega
    rw [hdiv]
    have hlen : out1.length = arr.length := hperm1.length_eq
    rw [← hlen]
    rcases ihj out1 with ⟨out, hout, hperm2, hsort⟩
    exact ⟨out, hout, hperm2.trans hperm1, hsort⟩

theorem shell_sort_spec (le : α → α → Bool)
    (htot : ∀ a b, le a b = true ∨ le b a = true)
    (htrans : ∀ a b c, le a b = true → le b c = true → le a c = true)
    (arr : List α) :
    ∃ out, shell_sort le arr = some out ∧ List.Perm out arr ∧
      out.Pairwise (leR le) := by
  rcases shellGrow_gapVal arr.length (arr.length / 3) 0 (by
    have : gapVal 0 = 1 := rfl
    omega) with ⟨j2, hgrow⟩
  have hgrow2 : shellGrow arr.length 1 = gapVal j2 := hgrow
  rw [shell_sort, hgrow2]
  exact shellLoop_spec le htot htrans j2 arr

/-! ### selection sort: proofs -/

theorem take_eq_of_getElem? {l l2 : List α} (m : Nat)
    (h : ∀ p, p < m → l2[p]? = l[p]?) (hlen : l2.length = l.length) :
    l2.take m = l.take m := by
  apply List.ext_getElem?
  intro p
  by_cases hp : p < m
  · rw [List.getElem?_take_of_lt hp, List.getElem?_take_of_lt hp]
    exact h p hp
  · rw [List.getElem?_eq_none (by simp only [List.length_take]; omega),
      List.getElem?_eq_none (by simp only [List.length_take]; omega)]

theorem drop_eq_of_getElem? {l l2 : List α} (m : Nat)
    (h : ∀ p, m ≤ p → l2[p]? = l[p]?) (hlen : l2.length = l.length) :
    l2.drop m = l.drop m := by
  apply List.ext_getElem?
  intro p
  rw [List.getElem?_drop, List.getElem?_drop]
  exact h (m + p) (by omega)

theorem mem_drop_index {l : List α} {m : Nat} {x : α} (hx : x ∈ l.drop m) :
    ∃ t, m ≤ t ∧ t < l.length ∧ l[t]? = some x := by
  rcases List.mem_iff_getElem.mp hx with ⟨n, hn, hval⟩
  simp only [List.length_drop] at hn
  refine ⟨m + n, by omega, by omega, ?_⟩
  rw [← List.getElem?_drop]
  rw [List.getElem?_eq_getElem (by simp only [List.length_drop]; omega)]
  exact congrArg some hval

theorem index_mem_drop {l : List α} {m t : Nat} (h1 : m ≤ t) (h2 : t < l.length) :
    l[t] ∈ l.drop m := by
  rw [List.mem_iff_getElem?]
  refine ⟨t - m, ?_⟩
  rw [List.getElem?_drop]
  have : m + (t - m) = t := by omega
  rw [this]
  exact List.getElem?_eq_getElem h2

theorem index_mem_take {l : List α} {m t : Nat} (h1 : t < m) (h2 : t < l.length) :
    l[t] ∈ l.take m := by
  rw [List.mem_iff_getElem?]
  refine ⟨t, ?_⟩
  rw [List.getElem?_take_of_lt h1]
  exact List.getElem?_eq_getElem h2

theorem getElem?_some_value {l : List α} {t : Nat} {x : α} (h : l[t]? = some x)
    (ht : t < l.length) : l[t] = x := by
  rw [List.getElem?_eq_getElem ht] at h
  exact (Option.some.injEq _ _).mp h

theorem selMin_spec (le : α → α → Bool)
    (htot : ∀ a b, le a b = true ∨ le b a = true)
    (htrans : ∀ a b c, le a b = true → le b c = true → le a c = true)
    (d : α) :
    ∀ (fuel j k : Nat) (arr : List α), arr.length - j ≤ fuel →
      k < arr.length →
      ∃ k2, selMin le arr j arr.length k = some k2 ∧ k2 < arr.length ∧
        (k2 = k ∨ j ≤ k2) ∧
        le (arr.getD k2 d) (arr.getD k d) = true ∧
        (∀ q, j ≤ q → q < arr.length → le (arr.getD k2 d) (arr.getD q d) = true) := by
  intro fuel
  induction fuel with
  | zero =>
    intro j k arr hf hk
    rw [selMin, dif_neg (by omega : ¬ j < arr.length)]
    exact ⟨k, rfl, hk, Or.inl rfl, (htot _ _).elim id id, fun q hq1 hq2 => by omega⟩
  | succ fuel ih =>
    intro j k arr hf hk
    by_cases hj : j < arr.length
    · rw [selMin, dif_pos hj]
      have hgj : arr[j]? = some arr[j] := List.getElem?_eq_getElem hj
      have hgk : arr[k]? = some arr[k] := List.getElem?_eq_getElem hk
      simp only [hgj, hgk]
      by_cases hcmp : le arr[k] arr[j] = true
      · rw [if_neg (by simp [hcmp])]
        rcases ih (j+1) k arr (by omega) hk with ⟨k2, hrec, hk2, hor, hmin, hall⟩
        refine ⟨k2, hrec, hk2, ?_, hmin, ?_⟩
        · rcases hor with h | h
          · exact Or.inl h
          · exact Or.inr (by omega)
        · intro q hq1 hq2
          by_cases hqj : q = j
          · subst hqj
            refine htrans _ _ _ hmin ?_
            rw [getD_eq_getElem arr k d hk, getD_eq_getElem arr q d hj]
            exact hcmp
          · exact hall q (by omega) hq2
      · rw [if_pos (by simp [hcmp])]
        rcases ih (j+1) j arr (by omega) hj with ⟨k2, hrec, hk2, hor, hmin, hall⟩
        have hjk : le arr[j] arr[k] = true := by
          rcases htot arr[k] arr[j] with h | h
          · exact absurd h hcmp
          · exact h
        refine ⟨k2, hrec, hk2, ?_, ?_, ?_⟩
        · rcases hor with h | h
          · exact Or.inr (by omega)
          · exact Or.inr (by omega)
        · refine htrans _ _ _ hmin ?_
          rw [getD_eq_getElem arr j d hj, getD_eq_getElem arr k d hk]
          exact hjk
        · intro q hq1 hq2
          by_cases hqj : q = j
          · subst hqj
            exact hmin
          · exact hall q (by omega) hq2
    · rw [selMin, dif_neg hj]
      exact ⟨k, rfl, hk, Or.inl rfl, (htot _ _).elim id id, fun q hq1 hq2 => by omega⟩

theorem selOuter_spec (le : α → α → Bool)
    (htot : ∀ a b, le a b = true ∨ le b a = true)
    (htrans : ∀ a b c, le a b = true → le b c = true → le a c = true) :
    ∀ (fuel i : Nat) (arr : List α), arr.length - i ≤ fuel →
      (arr.take i).Pairwise (leR le) →
      (∀ x ∈ arr.take i, ∀ y ∈ arr.drop i, le x y = true) →
      ∃ out, selOuter le arr i arr.length = some out ∧ List.Perm out arr ∧
        out.Pairwise (leR le) := by
  intro fuel
  induction fuel with
  | zero =>
    intro i arr hf hs hc
    rw [selOuter, dif_neg (by omega : ¬ i < arr.length)]
    rw [List.take_of_length_le (by omega)] at hs
    exact ⟨arr, rfl, List.Perm.refl _, hs⟩
  | succ fuel ih =>
    intro i arr hf hs hc
    by_cases hi : i < arr.length
    · rw [selOuter, dif_pos hi]
      rcases selMin_spec le htot htrans arr[i] (arr.length) (i+1) i arr
        (by omega) hi with ⟨k2, hrec, hk2, hor, hmin, hall⟩
      have hik2 : i ≤ k2 := by
        rcases hor with h | h
        · omega
        · omega
      have hallk : ∀ q, i ≤ q → q < arr.length →
          le (arr.getD k2 arr[i]) (arr.getD q arr[i]) = true := by
        intro q hq1 hq2
        by_cases hqi : q = i
        · subst hqi
          exact hmin
        · exact hall q (by omega) hq2
      simp only [hrec]
      rcases swapCk_isSome hi hk2 with ⟨arr2, hswap⟩
      simp only [hswap]
      have hlen2 : arr2.length = arr.length := swapCk_length hswap
      have hperm2 : List.Perm arr2 arr := swapCk_perm hswap
      rcases swapCk_getElem? hswap with ⟨hswi, hswk, hswo⟩
      have htake_pre : arr2.take i = arr.take i :=
        take_eq_of_getElem? i (fun p hp => hswo p (by omega) (by omega)) hlen2
      have harr2i : arr2[i]? = some arr[k2] := by
        rw [hswi]
        exact List.getElem?_eq_getElem hk2
      have hk2d : arr.getD k2 arr[i] = arr[k2] := getD_eq_getElem arr k2 _ hk2
      -- the element now at position i is a minimum of the old suffix
      have htakes : arr2.take (i+1) = arr.take i ++ [arr[k2]] := by
        have h1 : arr2.take (i+1) = arr2.take i ++ [arr2[i]] :=
          take_succ_getElem arr2 i (by omega)
        rw [h1, htake_pre]
        congr 1
        have := getElem?_some_value harr2i (by omega)
        rw [this]
      have hs2 : (arr2.take (i+1)).Pairwise (leR le) := by
        rw [htakes, List.pairwise_append]
        refine ⟨hs, by simp, ?_⟩
        intro x hx y hy
        simp only [List.mem_singleton] at hy
        subst hy
        exact hc x hx arr[k2] (index_mem_drop hik2 hk2)
      have hc2 : ∀ x ∈ arr2.take (i+1), ∀ y ∈ arr2.drop (i+1), le x y = true := by
        intro x hx y hy
        rcases mem_drop_index hy with ⟨q, hq1, hq2, hq3⟩
        have hq2' : q < arr.length := by omega
        have hyval : ∀ z, arr2[q]? = some z → z = arr[q] ∨ (q = k2 ∧ z = arr[i]) := by
          intro z hz
          by_cases hqk : q = k2
          · subst hqk
            rw [hswk, List.getElem?_eq_getElem hi] at hz
            right
            exact ⟨rfl, ((Option.some.injEq _ _).mp hz).symm⟩
          · rw [hswo q (by omega) hqk, List.getElem?_eq_getElem hq2'] at hz
            left
            exact ((Option.some.injEq _ _).mp hz).symm
        have hley : le arr[k2] y = true := by
          rcases hyval y hq3 with hy1 | ⟨hqk, hy2⟩
          · have := hallk q (by omega) hq2'
            rw [hk2d, getD_eq_getElem arr q _ hq2'] at this
            rw [hy1]
            exact this
          · have := hmin
            rw [hk2d, getD_eq_getElem arr i _ hi] at this
            rw [hy2]
            exact this
        rw [htakes] at hx
        rcases List.mem_append.mp hx with hx1 | hx2
        · -- x in the sorted prefix
          rcases hyval y hq3 with hy1 | ⟨hqk, hy2⟩
          · refine hc x hx1 ?_ ?_
            rw [hy1]
            exact index_mem_drop (by omega) hq2'
          · refine hc x hx1 ?_ ?_
            rw [hy2]
            exact index_mem_drop (by omega) hi
        · simp only [List.mem_singleton] at hx2
          subst hx2
          exact hley
      have hlen_eq : arr.length = arr2.length := hlen2.symm
      rw [hlen_eq]
      rcases ih (i+1) arr2 (by omega) hs2 hc2 with ⟨out, hout, hperm, hsort⟩
      exact ⟨out, hout, hperm.trans hperm2, hsort⟩
    · rw [selOuter, dif_neg hi]
      rw [List.take_of_length_le (by omega)] at hs
      exact ⟨arr, rfl, List.Perm.refl _, hs⟩

theorem selection_sort_spec (le : α → α → Bool)
    (htot : ∀ a b, le a b = true ∨ le b a = true)
    (htrans : ∀ a b c, le a b = true → le b c = true → le a c = true)
    (arr : List α) :
    ∃ out, selection_sort le arr = some out ∧ List.Perm out arr ∧
      out.Pairwise (leR le) := by
  exact selOuter_spec le htot htrans arr.length 0 arr (by omega) (by simp)
    (by simp)

/-! ### merge_sort.rs: proofs -/

theorem splice_slice (arr : List α) (l r : Nat) (hlr : l ≤ r)
    (hr : r ≤ arr.length) :
    arr.take l ++ sliceL arr l r ++ arr.drop r = arr := by
  have h1 : arr.drop r = (arr.drop l).drop (r - l) := by
    rw [List.drop_drop]
    congr 1
    omega
  rw [List.append_assoc, sliceL, h1, List.take_append_drop,
    List.take_append_drop]

theorem msortL_short (le : α → α → Bool) (l : List α) (h : l.length ≤ 1) :
    msortL le l = l := by
  rw [msortL]
  exact dif_pos h

theorem msortL_step (le : α → α → Bool) (l : List α) (h : ¬ l.length ≤ 1) :
    msortL le l =
      List.merge (msortL le (l.take (l.length / 2)))
        (msortL le (l.drop (l.length / 2))) le := by
  conv_lhs => rw [msortL]
  rw [dif_neg h]

theorem msortL_perm_fuel (le : α → α → Bool) :
    ∀ (n : Nat) (l : List α), l.length ≤ n → List.Perm (msortL le l) l := by
  intro n
  induction n with
  | zero =>
    intro l hl
    rw [msortL_short le l (by omega)]
  | succ n ih =>
    intro l hl
    by_cases h : l.length ≤ 1
    · rw [msortL_short le l h]
    · rw [msortL_step le l h]
      have h1 := ih (l.take (l.length / 2))
        (by simp only [List.length_take]; omega)
      have h2 := ih (l.drop (l.length / 2))
        (by simp only [List.length_drop]; omega)
      refine (List.merge_perm_append le).trans ?_
      have h3 := h1.append h2
      rw [List.take_append_drop] at h3
      exact h3

theorem msortL_perm (le : α → α → Bool) (l : List α) :
    List.Perm (msortL le l) l :=
  msortL_perm_fuel le l.length l (Nat.le_refl _)

theorem msortL_length (le : α → α → Bool) (l : List α) :
    (msortL le l).length = l.length :=
  (msortL_perm le l).length_eq

theorem msortL_sorted_fuel (le : α → α → Bool)
    (htot : ∀ a b, le a b = true ∨ le b a = true)
    (htrans : ∀ a b c, le a b = true → le b c = true → le a c = true) :
    ∀ (n : Nat) (l : List α), l.length ≤ n →
      (msortL le l).Pairwise (leR le) := by
  have htot2 : ∀ a b : α, (le a b || le b a) = true := by
    intro a b
    rcases htot a b with h | h <;> simp [h]
  intro n
  induction n with
  | zero =>
    intro l hl
    rw [msortL_short le l (by omega)]
    have hnil : l = [] := List.length_eq_zero.mp (by omega)
    subst hnil
    exact List.Pairwise.nil
  | succ n ih =>
    intro l hl
    by_cases h : l.length ≤ 1
    · rw [msortL_short le l h]
      rcases l with _ | ⟨a, t⟩
      · exact List.Pairwise.nil
      · rcases t with _ | ⟨b, t2⟩
        · exact List.pairwise_singleton _ a
        · simp at h
    · rw [msortL_step le l h]
      exact List.sorted_merge htrans htot2 _ _
        (ih _ (by simp only [List.length_take]; omega))
        (ih _ (by simp only [List.length_drop]; omega))

theorem merge_nil_right (le : α → α → Bool) (l : List α) :
    List.merge l [] le = l := by
  cases l <;> simp [List.merge]

theorem merge_pairwise_gen (le : α → α → Bool)
    (htrans : ∀ a b c, le a b = true → le b c = true → le a c = true)
    (P : α → α → Prop) (hP : ∀ a b, le b a = false → P a b) :
    ∀ (n : Nat) (A B : List α), A.length + B.length ≤ n →
      A.Pairwise (leR le) → A.Pairwise P → B.Pairwise P →
      (∀ p ∈ A, ∀ q ∈ B, P p q) →
      (List.merge A B le).Pairwise P := by
  intro n
  induction n with
  | zero =>
    intro A B hn hAs hA hB hcross
    have hA0 : A = [] := List.length_eq_zero.mp (by omega)
    have hB0 : B = [] := List.length_eq_zero.mp (by omega)
    subst hA0; subst hB0
    simp
  | succ n ih =>
    intro A B hn hAs hA hB hcross
    rcases A with _ | ⟨x, xs⟩
    · simpa using hB
    rcases B with _ | ⟨y, ys⟩
    · simpa [merge_nil_right] using hA
    rcases List.pairwise_cons.mp hAs with ⟨hxle, hAs2⟩
    rcases List.pairwise_cons.mp hA with ⟨hxP, hA2⟩
    rcases List.pairwise_cons.mp hB with ⟨hyP, hB2⟩
    cases hxy : le x y with
    | false =>
      rw [List.cons_merge_cons_neg le xs ys (by simp [hxy])]
      refine List.pairwise_cons.mpr ⟨?_, ?_⟩
      · intro z hz
        rw [List.mem_merge] at hz
        rcases hz with hz | hz
        · refine hP y z ?_
          cases hzy : le z y with
          | false => rfl
          | true =>
            exfalso
            rcases List.mem_cons.mp hz with rfl | hz2
            · exact absurd hzy (by simp [hxy])
            · have hxz : le x z = true := hxle z hz2
              have hxy2 : le x y = true := htrans x z y hxz hzy
              exact absurd hxy2 (by simp [hxy])
        · exact hyP z hz
      · refine ih (x :: xs) ys (by simp at hn ⊢; omega) hAs hA hB2 ?_
        intro p hp q hq
        exact hcross p hp q (List.mem_cons_of_mem y hq)
    | true =>
      rw [List.cons_merge_cons_pos le xs ys hxy]
      refine List.pairwise_cons.mpr ⟨?_, ?_⟩
      · intro z hz
        rw [List.mem_merge] at hz
        rcases hz with hz | hz
        · exact hxP z hz
        · exact hcross x (List.mem_cons_self x xs) z hz
      · refine ih xs (y :: ys) (by simp at hn ⊢; omega) hAs2 hA2 hB ?_
        intro p hp q hq
        exact hcross p (List.mem_cons_of_mem x hp) q hq

theorem msortL_pairwise (le : α → α → Bool)
    (htot : ∀ a b, le a b = true ∨ le b a = true)
    (htrans : ∀ a b c, le a b = true → le b c = true → le a c = true)
    (P : α → α → Prop) (hP : ∀ a b, le b a = false → P a b) :
    ∀ (n : Nat) (l : List α), l.length ≤ n → l.Pairwise P →
      (msortL le l).Pairwise P := by
  intro n
  induction n with
  | zero =>
    intro l hl hPl
    rw [msortL_short le l (by omega)]
    exact hPl
  | succ n ih =>
    intro l hl hPl
    by_cases h : l.length ≤ 1
    · rw [msortL_short le l h]
      exact hPl
    · rw [msortL_step le l h]
      have h2 : (l.take (l.length / 2) ++ l.drop (l.length / 2)).Pairwise P := by
        rw [List.take_append_drop]
        exact hPl
      rw [List.pairwise_append] at h2
      rcases h2 with ⟨hT, hD, hcross⟩
      refine merge_pairwise_gen le htrans P hP
        ((msortL le (l.take (l.length / 2))).length +
          (msortL le (l.drop (l.length / 2))).length) _ _ (Nat.le_refl _)
        (msortL_sorted_fuel le htot htrans _ _ (Nat.le_refl _)) ?_ ?_ ?_
      · exact ih _ (by simp only [List.length_take]; omega) hT
      · exact ih _ (by simp only [List.length_drop]; omega) hD
      · intro p hp q hq
        exact hcross p ((msortL_perm le _).mem_iff.mp hp)
          q ((msortL_perm le _).mem_iff.mp hq)

theorem drop_set_lower (l : List α) (m n : Nat) (a : α) (h : m < n) :
    (l.set m a).drop n = l.drop n := by
  rw [List.drop_set, if_pos h]

theorem take_set_snoc (l : List α) (m : Nat) (v : α) (h : m < l.length) :
    (l.set m v).take (m + 1) = l.take m ++ [v] := by
  rw [take_succ_getElem _ _ (by simp [h]),
    take_set_of_le _ _ _ _ (Nat.le_refl m)]
  congr 1
  simp

/-- The merge loop writes exactly `List.merge` of the remaining suffixes of
`a` and `b` into positions `[i+j, |a|+|b|)` of the result buffer, succeeding
whenever the buffer is large enough. -/
theorem mergeLoop_spec (le : α → α → Bool) :
    ∀ (fuel : Nat) (a b res : List α) (i j : Nat),
      (a.length - i) + (b.length - j) ≤ fuel →
      i ≤ a.length → j ≤ b.length → a.length + b.length ≤ res.length →
      mergeLoop le a b i j res =
        some (res.take (i + j) ++ List.merge (a.drop i) (b.drop j) le ++
          res.drop (a.length + b.length)) := by
  intro fuel
  induction fuel with
  | zero =>
    intro a b res i j hfuel hi hj hres
    rw [mergeLoop, dif_neg (by omega)]
    have hia : i = a.length := by omega
    have hjb : j = b.length := by omega
    subst hia; subst hjb
    simp
  | succ fuel ih =>
    intro a b res i j hfuel hi hj hres
    rw [mergeLoop]
    by_cases hcond : i < a.length ∨ j < b.length
    case neg =>
      rw [dif_neg hcond]
      have hia : i = a.length := by omega
      have hjb : j = b.length := by omega
      subst hia; subst hjb
      simp
    case pos =>
    rw [dif_pos hcond]
    by_cases hieq : i = a.length
    · rw [dif_pos hieq]
      have hjlt : j < b.length := by omega
      have hbg : b[j]? = some b[j] := List.getElem?_eq_getElem hjlt
      split
      rotate_left
      · rename_i hy
        rw [hbg] at hy
        simp at hy
      rename_i y hy
      obtain rfl : y = b[j] := by
        rw [hbg] at hy
        exact (Option.some.inj hy).symm
      have hset : setCk res (i + j) b[j] = some (res.set (i + j) b[j]) := by
        rw [setCk, if_pos (by omega)]
      simp only [hset]
      rw [ih a b (res.set (i + j) b[j]) i (j + 1) (by omega) hi (by omega)
        (by simpa using hres)]
      congr 1
      have hD : (res.set (i + j) b[j]).drop (a.length + b.length) =
          res.drop (a.length + b.length) :=
        drop_set_lower res (i + j) (a.length + b.length) _ (by omega)
      have hT : (res.set (i + j) b[j]).take (i + (j + 1)) =
          res.take (i + j) ++ [b[j]] := by
        have h1 : i + (j + 1) = (i + j) + 1 := by omega
        rw [h1]
        exact take_set_snoc res (i + j) _ (by omega)
      have hDA : a.drop i = [] := by
        rw [hieq, List.drop_length]
      have hDB : b.drop j = b[j] :: b.drop (j + 1) :=
        (List.getElem_cons_drop b j hjlt).symm
      rw [hT, hD, hDA, hDB]
      simp
    · rw [dif_neg hieq]
      by_cases hjeq : j = b.length
      · rw [dif_pos hjeq]
        have hilt : i < a.length := by omega
        have hag : a[i]? = some a[i] := List.getElem?_eq_getElem hilt
        split
        rotate_left
        · rename_i hx
          rw [hag] at hx
          simp at hx
        rename_i x hx
        obtain rfl : x = a[i] := by
          rw [hag] at hx
          exact (Option.some.inj hx).symm
        have hset : setCk res (i + j) a[i] = some (res.set (i + j) a[i]) := by
          rw [setCk, if_pos (by omega)]
        simp only [hset]
        rw [ih a b (res.set (i + j) a[i]) (i + 1) j (by omega) (by omega) hj
          (by simpa using hres)]
        congr 1
        have hD : (res.set (i + j) a[i]).drop (a.length + b.length) =
            res.drop (a.length + b.length) :=
          drop_set_lower res (i + j) (a.length + b.length) _ (by omega)
        have hT : (res.set (i + j) a[i]).take (i + 1 + j) =
            res.take (i + j) ++ [a[i]] := by
          have h1 : i + 1 + j = (i + j) + 1 := by omega
          rw [h1]
          exact take_set_snoc res (i + j) _ (by omega)
        have hDB : b.drop j = [] := by
          rw [hjeq, List.drop_length]
        have hDA : a.drop i = a[i] :: a.drop (i + 1) :=
          (List.getElem_cons_drop a i hilt).symm
        rw [hT, hD, hDB, hDA]
        simp only [merge_nil_right]
        simp
      · rw [dif_neg hjeq]
        have hilt : i < a.length := by omega
        have hjlt : j < b.length := by omega
        have hag : a[i]? = some a[i] := List.getElem?_eq_getElem hilt
        have hbg : b[j]? = some b[j] := List.getElem?_eq_getElem hjlt
        have hDA : a.drop i = a[i] :: a.drop (i + 1) :=
          (List.getElem_cons_drop a i hilt).symm
        have hDB : b.drop j = b[j] :: b.drop (j + 1) :=
          (List.getElem_cons_drop b j hjlt).symm
        split
        rotate_left
        · rename_i hcontra
          exact (hcontra a[i] b[j] hag hbg).elim
        rename_i x y hx hy
        obtain rfl : x = a[i] := by
          rw [hag] at hx
          exact (Option.some.inj hx).symm
        obtain rfl : y = b[j] := by
          rw [hbg] at hy
          exact (Option.some.inj hy).symm
        cases hxy : le a[i] b[j] with
        | false =>
          rw [if_pos (by simp [hxy])]
          have hset : setCk res (i + j) b[j] =
              some (res.set (i + j) b[j]) := by
            rw [setCk, if_pos (by omega)]
          simp only [hset]
          rw [ih a b (res.set (i + j) b[j]) i (j + 1) (by omega) hi (by omega)
            (by simpa using hres)]
          congr 1
          have hD : (res.set (i + j) b[j]).drop (a.length + b.length) =
              res.drop (a.length + b.length) :=
            drop_set_lower res (i + j) (a.length + b.length) _ (by omega)
          have hT : (res.set (i + j) b[j]).take (i + (j + 1)) =
              res.take (i + j) ++ [b[j]] := by
            have h1 : i + (j + 1) = (i + j) + 1 := by omega
            rw [h1]
            exact take_set_snoc res (i + j) _ (by omega)
          have hmg : List.merge (a[i] :: a.drop (i + 1))
              (b[j] :: b.drop (j + 1)) le =
              b[j] :: List.merge (a[i] :: a.drop (i + 1)) (b.drop (j + 1)) le :=
            List.cons_merge_cons_neg le _ _ (by simp [hxy])
          rw [hT, hD, hDA, hDB, hmg]
          simp
        | true =>
          rw [if_neg (by simp [hxy])]
          have hset : setCk res (i + j) a[i] =
              some (res.set (i + j) a[i]) := by
            rw [setCk, if_pos (by omega)]
          simp only [hset]
          rw [ih a b (res.set (i + j) a[i]) (i + 1) j (by omega) (by omega) hj
            (by simpa using hres)]
          congr 1
          have hD : (res.set (i + j) a[i]).drop (a.length + b.length) =
              res.drop (a.length + b.length) :=
            drop_set_lower res (i + j) (a.length + b.length) _ (by omega)
          have hT : (res.set (i + j) a[i]).take (i + 1 + j) =
              res.take (i + j) ++ [a[i]] := by
            have h1 : i + 1 + j = (i + j) + 1 := by omega
            rw [h1]
            exact take_set_snoc res (i + j) _ (by omega)
          have hmg : List.merge (a[i] :: a.drop (i + 1))
              (b[j] :: b.drop (j + 1)) le =
              a[i] :: List.merge (a.drop (i + 1)) (b[j] :: b.drop (j + 1)) le :=
            List.cons_merge_cons_pos le _ _ hxy
          rw [hT, hD, hDA, hDB, hmg]
          simp

theorem mergesort_short (le : α → α → Bool) (arr : List α) (l r : Nat)
    (hlr : l ≤ r) (hr : r ≤ arr.length) (h : r - l ≤ 1) :
    mergesort le arr l r =
      some (arr.take l ++ msortL le (sliceL arr l r) ++ arr.drop r) := by
  rw [mergesort, dif_pos h,
    msortL_short le _ (by rw [sliceL_length]; omega),
    splice_slice arr l r hlr hr]

/-- `mergesort le arr l r` succeeds and replaces the range `[l, r)` with its
`msortL`-sorted contents, leaving the prefix and suffix untouched. -/
theorem mergesort_spec (le : α → α → Bool) :
    ∀ (fuel : Nat) (arr : List α) (l r : Nat),
      r - l ≤ fuel → l ≤ r → r ≤ arr.length →
      mergesort le arr l r =
        some (arr.take l ++ msortL le (sliceL arr l r) ++ arr.drop r) := by
  intro fuel
  induction fuel with
  | zero =>
    intro arr l r hfuel hlr hr
    exact mergesort_short le arr l r hlr hr (by omega)
  | succ fuel ih =>
    intro arr l r hfuel hlr hr
    by_cases h : r - l ≤ 1
    · exact mergesort_short le arr l r hlr hr h
    · rw [mergesort, dif_neg h]
      set m := l + (r - l) / 2 with hm
      have hm1 : l < m := by omega
      have hm2 : m < r := by omega
      have hrec1 := ih arr l m (by omega) (by omega) (by omega)
      simp only [hrec1]
      have hE : (arr.take l).length = l := by
        rw [List.length_take]
        omega
      have hA : (msortL le (sliceL arr l m)).length = m - l := by
        rw [msortL_length, sliceL_length]
        omega
      have hB : (msortL le (sliceL arr m r)).length = r - m := by
        rw [msortL_length, sliceL_length]
        omega
      have hlen1 : (arr.take l ++ msortL le (sliceL arr l m) ++
          arr.drop m).length = arr.length := by
        simp only [List.length_append, List.length_drop, hE, hA]
        omega
      have htake1 : (arr.take l ++ msortL le (sliceL arr l m) ++
          arr.drop m).take m = arr.take l ++ msortL le (sliceL arr l m) :=
        List.take_left' (by rw [List.length_append, hE, hA]; omega)
      have hdrop1 : (arr.take l ++ msortL le (sliceL arr l m) ++
          arr.drop m).drop m = arr.drop m :=
        List.drop_left' (by rw [List.length_append, hE, hA]; omega)
      have hrec2 := ih (arr.take l ++ msortL le (sliceL arr l m) ++
        arr.drop m) m r (by omega) (by omega) (by rw [hlen1]; omega)
      have hsl2 : sliceL (arr.take l ++ msortL le (sliceL arr l m) ++
          arr.drop m) m r = sliceL arr m r := by
        conv_lhs => rw [sliceL]
        rw [hdrop1, sliceL]
      have hdropr1 : (arr.take l ++ msortL le (sliceL arr l m) ++
          arr.drop m).drop r = arr.drop r := by
        have e1 : (arr.take l ++ msortL le (sliceL arr l m) ++
            arr.drop m).drop r = ((arr.take l ++ msortL le (sliceL arr l m) ++
            arr.drop m).drop m).drop (r - m) := by
          rw [List.drop_drop]
          congr 1
          omega
        have e2 : arr.drop r = (arr.drop m).drop (r - m) := by
          rw [List.drop_drop]
          congr 1
          omega
        rw [e1, e2, hdrop1]
      rw [htake1, hsl2, hdropr1] at hrec2
      simp only [hrec2]
      have hassoc : ((arr.take l ++ msortL le (sliceL arr l m)) ++
          msortL le (sliceL arr m r)) ++ arr.drop r =
          arr.take l ++ (msortL le (sliceL arr l m) ++
            (msortL le (sliceL arr m r) ++ arr.drop r)) := by
        simp [List.append_assoc]
      have hlen2 : (((arr.take l ++ msortL le (sliceL arr l m)) ++
          msortL le (sliceL arr m r)) ++ arr.drop r).length = arr.length := by
        simp only [List.length_append, List.length_drop, hE, hA, hB]
        omega
      have hdropl2 : (((arr.take l ++ msortL le (sliceL arr l m)) ++
          msortL le (sliceL arr m r)) ++ arr.drop r).drop l =
          msortL le (sliceL arr l m) ++
            (msortL le (sliceL arr m r) ++ arr.drop r) := by
        rw [hassoc]
        exact List.drop_left' hE
      have hdropm2 : (((arr.take l ++ msortL le (sliceL arr l m)) ++
          msortL le (sliceL arr m r)) ++ arr.drop r).drop m =
          msortL le (sliceL arr m r) ++ arr.drop r := by
        have e3 : (((arr.take l ++ msortL le (sliceL arr l m)) ++
            msortL le (sliceL arr m r)) ++ arr.drop r) =
            (arr.take l ++ msortL le (sliceL arr l m)) ++
              (msortL le (sliceL arr m r) ++ arr.drop r) := by
          simp [List.append_assoc]
        rw [e3]
        exact List.drop_left' (by rw [List.length_append, hE, hA]; omega)
      have hsliceA : sliceCk (((arr.take l ++ msortL le (sliceL arr l m)) ++
          msortL le (sliceL arr m r)) ++ arr.drop r) l m =
          some (msortL le (sliceL arr l m)) := by
        rw [sliceCk, if_pos ⟨by omega, by rw [hlen2]; omega⟩]
        congr 1
        rw [hdropl2]
        exact List.take_left' hA
      have hsliceB : sliceCk (((arr.take l ++ msortL le (sliceL arr l m)) ++
          msortL le (sliceL arr m r)) ++ arr.drop r) m r =
          some (msortL le (sliceL arr m r)) := by
        rw [sliceCk, if_pos ⟨by omega, by rw [hlen2]; omega⟩]
        congr 1
        rw [hdropm2]
        exact List.take_left' hB
      have hsliceR : sliceCk (((arr.take l ++ msortL le (sliceL arr l m)) ++
          msortL le (sliceL arr m r)) ++ arr.drop r) l r =
          some (msortL le (sliceL arr l m) ++ msortL le (sliceL arr m r)) := by
        rw [sliceCk, if_pos ⟨by omega, by rw [hlen2]; omega⟩]
        congr 1
        rw [hdropl2]
        have e4 : r - l = (msortL le (sliceL arr l m)).length + (r - m) := by
          rw [hA]
          omega
        rw [e4, List.take_append]
        congr 1
        exact List.take_left' hB
      simp only [hsliceR, hsliceA, hsliceB]
      have hml := mergeLoop_spec le
        ((msortL le (sliceL arr l m)).length +
          (msortL le (sliceL arr m r)).length)
        (msortL le (sliceL arr l m)) (msortL le (sliceL arr m r))
        (msortL le (sliceL arr l m) ++ msortL le (sliceL arr m r)) 0 0
        (by omega) (by omega) (by omega) (by rw [List.length_append])
      simp only [Nat.add_zero, List.drop_zero, List.take_zero,
        List.nil_append] at hml
      have hdropAB : (msortL le (sliceL arr l m) ++
          msortL le (sliceL arr m r)).drop
          ((msortL le (sliceL arr l m)).length +
            (msortL le (sliceL arr m r)).length) = [] :=
        List.drop_of_length_le (by rw [List.length_append])
      rw [hdropAB, List.append_nil] at hml
      simp only [hml]
      rw [writeBack, if_pos ⟨by omega, ⟨by rw [hlen2]; omega,
        by rw [List.length_merge, hA, hB]; omega⟩⟩]
      have htakel2 : (((arr.take l ++ msortL le (sliceL arr l m)) ++
          msortL le (sliceL arr m r)) ++ arr.drop r).take l = arr.take l := by
        rw [hassoc]
        exact List.take_left' hE
      have hdropr2 : (((arr.take l ++ msortL le (sliceL arr l m)) ++
          msortL le (sliceL arr m r)) ++ arr.drop r).drop r = arr.drop r :=
        List.drop_left' (by
          rw [List.length_append, List.length_append, hE, hA, hB]
          omega)
      have hslen : ¬ (sliceL arr l r).length ≤ 1 := by
        rw [sliceL_length]
        omega
      have hsplit_t : (sliceL arr l r).take ((sliceL arr l r).length / 2) =
          sliceL arr l m := by
        rw [sliceL_length]
        simp only [sliceL]
        rw [List.take_take]
        congr 1
        omega
      have hsplit_d : (sliceL arr l r).drop ((sliceL arr l r).length / 2) =
          sliceL arr m r := by
        rw [sliceL_length]
        simp only [sliceL]
        rw [List.drop_take, List.drop_drop]
        congr 1
        · omega
        · congr 1
          omega
      have hmsort : msortL le (sliceL arr l r) =
          List.merge (msortL le (sliceL arr l m))
            (msortL le (sliceL arr m r)) le := by
        rw [msortL_step le _ hslen, hsplit_t, hsplit_d]
      rw [htakel2, hdropr2, hmsort]

theorem merge_sort_eq_msortL (le : α → α → Bool) (arr : List α) :
    merge_sort le arr = some (msortL le arr) := by
  rw [merge_sort, mergesort_spec le arr.length arr 0 arr.length
    (by omega) (by omega) (Nat.le_refl _)]
  simp [sliceL]

theorem merge_sort_spec (le : α → α → Bool)
    (htot : ∀ a b, le a b = true ∨ le b a = true)
    (htrans : ∀ a b c, le a b = true → le b c = true → le a c = true)
    (arr : List α) :
    ∃ out, merge_sort le arr = some out ∧ List.Perm out arr ∧
      out.Pairwise (leR le) ∧
      (∀ (P : α → α → Prop), (∀ a b, le b a = false → P a b) →
        arr.Pairwise P → out.Pairwise P) :=
  ⟨msortL le arr, merge_sort_eq_msortL le arr, msortL_perm le arr,
    msortL_sorted_fuel le htot htrans arr.length arr (Nat.le_refl _),
    fun P hP hp => msortL_pairwise le htot htrans P hP arr.length arr
      (Nat.le_refl _) hp⟩

/-! ### quick_sort.rs: proofs -/

/-- The partition loop: elements strictly before the final cursor compare
`≤ pivot`, elements from it on compare `> pivot`; position `0` and the
multiset of elements are preserved, and the loop never fails. -/
theorem partLoop_spec (le : α → α → Bool) (pivot : α) :
    ∀ (fuel : Nat) (arr : List α) (left right : Nat),
      right - left ≤ fuel →
      1 ≤ left → left ≤ right → right ≤ arr.length →
      (∀ t x, 1 ≤ t → t < left → arr[t]? = some x → le x pivot = true) →
      (∀ t x, right ≤ t → t < arr.length → arr[t]? = some x →
        le x pivot = false) →
      ∃ arr2 left2, partLoop le pivot arr left right = some (arr2, left2) ∧
        left ≤ left2 ∧ left2 ≤ right ∧
        arr2.length = arr.length ∧ List.Perm arr2 arr ∧
        arr2[0]? = arr[0]? ∧
        (∀ t x, 1 ≤ t → t < left2 → arr2[t]? = some x → le x pivot = true) ∧
        (∀ t x, left2 ≤ t → t < arr.length → arr2[t]? = some x →
          le x pivot = false) := by
  intro fuel
  induction fuel with
  | zero =>
    intro arr left right hfuel h1 hlr hr hbef haft
    rw [partLoop, dif_neg (by omega)]
    have hlr2 : left = right := by omega
    exact ⟨arr, left, rfl, Nat.le_refl _, by omega, rfl, List.Perm.refl _,
      rfl, hbef, fun t x ht htl => haft t x (by omega) htl⟩
  | succ fuel ih =>
    intro arr left right hfuel h1 hlr hr hbef haft
    by_cases hlt : left < right
    · rw [partLoop, dif_pos hlt]
      have hll : left < arr.length := by omega
      have hv : arr[left]? = some arr[left] := List.getElem?_eq_getElem hll
      simp only [hv]
      cases hC : le arr[left] pivot with
      | true =>
        rw [if_pos rfl]
        have hbef2 : ∀ t x, 1 ≤ t → t < left + 1 → arr[t]? = some x →
            le x pivot = true := by
          intro t x ht htl hget
          by_cases hteq : t = left
          · subst hteq
            rw [hv] at hget
            rw [← Option.some.inj hget]
            exact hC
          · exact hbef t x ht (by omega) hget
        rcases ih arr (left + 1) right (by omega) (by omega) (by omega) hr
          hbef2 haft with ⟨arr2, left2, hloop, hle1, hle2, hlen, hperm,
            h0, hb2, ha2⟩
        exact ⟨arr2, left2, hloop, by omega, hle2, hlen, hperm, h0, hb2, ha2⟩
      | false =>
        rw [if_neg (by simp [hC])]
        have hr1 : right - 1 < arr.length := by omega
        have hsw := swapCk_some hll hr1
        simp only [hsw]
        rcases swapCk_getElem? hsw with ⟨hgi, hgj, hgo⟩
        have hlen1 : ((arr.set left arr[right-1]).set (right-1)
            arr[left]).length = arr.length := by simp
        have hbef2 : ∀ t x, 1 ≤ t → t < left →
            ((arr.set left arr[right-1]).set (right-1) arr[left])[t]? =
              some x → le x pivot = true := by
          intro t x ht htl hget
          rw [hgo t (by omega) (by omega)] at hget
          exact hbef t x ht htl hget
        have haft2 : ∀ t x, right - 1 ≤ t →
            t < ((arr.set left arr[right-1]).set (right-1)
              arr[left]).length →
            ((arr.set left arr[right-1]).set (right-1) arr[left])[t]? =
              some x → le x pivot = false := by
          intro t x ht htl hget
          rw [hlen1] at htl
          by_cases hteq : t = right - 1
          · subst hteq
            rw [hgj, hv] at hget
            rw [← Option.some.inj hget]
            exact hC
          · rw [hgo t (by omega) hteq] at hget
            exact haft t x (by omega) htl hget
        rcases ih ((arr.set left arr[right-1]).set (right-1) arr[left])
          left (right - 1) (by omega) h1 (by omega)
          (by rw [hlen1]; omega) hbef2
          haft2 with ⟨arr2, left2, hloop, hle1, hle2, hlen, hperm,
            h0, hb2, ha2⟩
        refine ⟨arr2, left2, hloop, hle1, by omega,
          by rw [hlen, hlen1], hperm.trans (swapCk_perm hsw), ?_, hb2, ?_⟩
        · rw [h0, hgo 0 (by omega) (by omega)]
        · intro t x ht htl hget
          exact ha2 t x ht (by rw [hlen1]; exact htl) hget
    · rw [partLoop, dif_neg hlt]
      have hlr2 : left = right := by omega
      exact ⟨arr, left, rfl, Nat.le_refl _, by omega, rfl, List.Perm.refl _,
        rfl, hbef, fun t x ht htl => haft t x (by omega) htl⟩

/-- `partition` on a valid pivot index: succeeds, returns a split strictly
inside the array, preserves the multiset, puts the pivot value at the split,
with everything before it `≤` the pivot and everything from it on `≥` the
pivot. -/
theorem partition_spec (le : α → α → Bool)
    (htot : ∀ a b, le a b = true ∨ le b a = true)
    (arr : List α) (pi : Nat) (hpi : pi < arr.length) :
    ∃ arr3 split pivot, partition le arr pi = some (arr3, split) ∧
      arr[pi]? = some pivot ∧
      split < arr.length ∧ arr3.length = arr.length ∧ List.Perm arr3 arr ∧
      arr3[split]? = some pivot ∧
      (∀ t x, t < split → arr3[t]? = some x → le x pivot = true) ∧
      (∀ t x, split ≤ t → t < arr.length → arr3[t]? = some x →
        le pivot x = true) := by
  have h0 : 0 < arr.length := by omega
  have hpg : arr[pi]? = some arr[pi] := List.getElem?_eq_getElem hpi
  have hself : le arr[pi] arr[pi] = true := by
    rcases htot arr[pi] arr[pi] with h | h <;> exact h
  rw [partition]
  simp only [hpg]
  have hsw1 := swapCk_some h0 hpi
  simp only [hsw1]
  have hlen1 : ((arr.set 0 arr[pi]).set pi arr[0]).length = arr.length := by
    simp
  rcases swapCk_getElem? hsw1 with ⟨hg0, hgpi, hgo⟩
  rcases partLoop_spec le arr[pi]
    ((arr.set 0 arr[pi]).set pi arr[0]).length
    ((arr.set 0 arr[pi]).set pi arr[0]) 1
    ((arr.set 0 arr[pi]).set pi arr[0]).length
    (by omega) (by omega) (by rw [hlen1]; omega) (Nat.le_refl _)
    (fun t x ht htl hget => absurd htl (by omega))
    (fun t x ht htl hget => absurd htl (by omega)) with
    ⟨arr2, left2, hloop, hL1, hL2, hlen2, hperm2, h02, hbefP, haftP⟩
  simp only [hloop]
  rw [hlen1] at hlen2
  have hlt0 : 0 < arr2.length := by omega
  have hltm : left2 - 1 < arr2.length := by
    rw [hlen1] at hL2
    omega
  have hsw2 := swapCk_some hlt0 hltm
  simp only [hsw2]
  rcases swapCk_getElem? hsw2 with ⟨hg0b, hgmb, hgob⟩
  have hmid : ((arr2.set 0 arr2[left2-1]).set (left2-1)
      arr2[0])[left2-1]? = some arr[pi] := by
    rw [hgmb, h02, hg0, hpg]
  refine ⟨_, left2 - 1, arr[pi], rfl, rfl, ?_, by simp [hlen2], ?_,
    hmid, ?_, ?_⟩
  · rw [hlen1] at hL2
    omega
  · exact (swapCk_perm hsw2).trans (hperm2.trans (swapCk_perm hsw1))
  · intro t x htl hget
    by_cases ht0 : t = 0
    · subst ht0
      rw [hg0b] at hget
      exact hbefP (left2 - 1) x (by omega) (by omega) hget
    · rw [hgob t ht0 (by omega)] at hget
      exact hbefP t x (by omega) (by omega) hget
  · intro t x ht htl hget
    by_cases hteq : t = left2 - 1
    · subst hteq
      rw [hmid] at hget
      rw [← Option.some.inj hget]
      exact hself
    · have ht2 : left2 ≤ t := by omega
      have ht0 : t ≠ 0 := by omega
      rw [hgob t ht0 hteq] at hget
      have hfalse : le x arr[pi] = false :=
        haftP t x ht2 (by rw [hlen1]; omega) hget
      rcases htot x arr[pi] with h | h
      · rw [h] at hfalse
        exact absurd hfalse (by simp)
      · exact h

/-- `partition` succeeds exactly when the annotated-weaker precondition is
strengthened to `pi < arr.len()`; at `pi = arr.len()` the first access
`arr[pi]` already fails. -/
theorem partition_isSome_iff (le : α → α → Bool) (arr : List α) (pi : Nat) :
    (partition le arr pi).isSome = true ↔ pi < arr.length := by
  constructor
  · intro h
    by_contra hge
    rw [partition, List.getElem?_eq_none (by omega)] at h
    simp at h
  · intro hpi
    have h0 : 0 < arr.length := by omega
    have hpg : arr[pi]? = some arr[pi] := List.getElem?_eq_getElem hpi
    rw [partition]
    simp only [hpg]
    have hsw1 := swapCk_some h0 hpi
    simp only [hsw1]
    have hlen1 : ((arr.set 0 arr[pi]).set pi arr[0]).length = arr.length := by
      simp
    rcases partLoop_spec le arr[pi]
      ((arr.set 0 arr[pi]).set pi arr[0]).length
      ((arr.set 0 arr[pi]).set pi arr[0]) 1
      ((arr.set 0 arr[pi]).set pi arr[0]).length
      (by omega) (by omega) (by rw [hlen1]; omega) (Nat.le_refl _)
      (fun t x ht htl hget => absurd htl (by omega))
      (fun t x ht htl hget => absurd htl (by omega)) with
      ⟨arr2, left2, hloop, hL1, hL2, hlen2, _, _, _, _⟩
    simp only [hloop]
    have hlt0 : 0 < arr2.length := by rw [hlen2, hlen1]; omega
    have hltm : left2 - 1 < arr2.length := by
      rw [hlen1] at hL2
      rw [hlen2, hlen1]
      omega
    rw [swapCk_some hlt0 hltm]
    rfl

/-- Fueled quicksort: with fuel at least the length, it succeeds and returns
a sorted permutation. -/
theorem quickSortFuel_spec (le : α → α → Bool)
    (htot : ∀ a b, le a b = true ∨ le b a = true)
    (htrans : ∀ a b c, le a b = true → le b c = true → le a c = true) :
    ∀ (fuel : Nat) (arr : List α), arr.length ≤ fuel →
      ∃ out, quickSortFuel le fuel arr = some out ∧ List.Perm out arr ∧
        out.Pairwise (leR le) := by
  intro fuel
  induction fuel with
  | zero =>
    intro arr hl
    have hnil : arr = [] := List.length_eq_zero.mp (by omega)
    subst hnil
    exact ⟨[], by simp [quickSortFuel], List.Perm.refl _, List.Pairwise.nil⟩
  | succ fuel ih =>
    intro arr hl
    by_cases hshort : arr.length ≤ 1
    · refine ⟨arr, by rw [quickSortFuel, if_pos hshort], List.Perm.refl _, ?_⟩
      rcases arr with _ | ⟨a, t⟩
      · exact List.Pairwise.nil
      · rcases t with _ | ⟨b, t2⟩
        · exact List.pairwise_singleton _ a
        · simp at hshort
    · rw [quickSortFuel, if_neg hshort]
      have hpi : arr.length / 2 < arr.length := by omega
      rcases partition_spec le htot arr (arr.length / 2) hpi with
        ⟨arr1, split, pivot, hpart, hpg, hsplt, hlen1, hperm1, hsp,
          hbef, haft⟩
      simp only [hpart]
      have hsA : sliceCk arr1 0 split = some (arr1.take split) := by
        rw [sliceCk, if_pos ⟨by omega, by omega⟩]
        simp [sliceL_here]
      have hsB : sliceCk arr1 (split+1) arr1.length =
          some (arr1.drop (split+1)) := by
        rw [sliceCk, if_pos ⟨by omega, Nat.le_refl _⟩]
        congr 1
        apply List.take_of_length_le
        rw [List.length_drop]
      simp only [hsA, hsB, hsp]
      rcases ih (arr1.take split)
        (by rw [List.length_take]; omega) with ⟨ls, hlsr, hpermL, hsortL⟩
      rcases ih (arr1.drop (split+1))
        (by rw [List.length_drop]; omega) with ⟨rs, hrsr, hpermR, hsortR⟩
      simp only [hlsr, hrsr]
      refine ⟨ls ++ pivot :: rs, rfl, ?_, ?_⟩
      · have hpv : arr1[split] = pivot := getElem?_some_value hsp (by omega)
        have hid : arr1.take split ++ pivot :: arr1.drop (split+1) = arr1 := by
          rw [← hpv, List.getElem_cons_drop, List.take_append_drop]
        have hP1 : List.Perm (ls ++ pivot :: rs) arr1 := by
          rw [← hid]
          exact hpermL.append (List.Perm.cons pivot hpermR)
        exact hP1.trans hperm1
      · rw [List.pairwise_append]
        refine ⟨hsortL, ?_, ?_⟩
        · rw [List.pairwise_cons]
          refine ⟨?_, hsortR⟩
          intro z hz
          have hz2 : z ∈ arr1.drop (split+1) := hpermR.subset hz
          rcases mem_drop_index hz2 with ⟨t, ht1, ht2, htg⟩
          exact haft t z (by omega) (by omega) htg
        · intro a ha b hb
          have ha2 : a ∈ arr1.take split := hpermL.subset ha
          rcases mem_take_index ha2 with ⟨t, ht1, ht2, htg⟩
          have hla : le a pivot = true := hbef t a ht1 htg
          rcases List.mem_cons.mp hb with rfl | hb2
          · exact hla
          · have hb3 : b ∈ arr1.drop (split+1) := hpermR.subset hb2
            rcases mem_drop_index hb3 with ⟨u, hu1, hu2, hug⟩
            have hlb : le pivot b = true :=
              haft u b (by omega) (by omega) hug
            exact htrans a pivot b hla hlb

theorem quick_sort_spec (le : α → α → Bool)
    (htot : ∀ a b, le a b = true ∨ le b a = true)
    (htrans : ∀ a b c, le a b = true → le b c = true → le a c = true)
    (arr : List α) :
    ∃ out, quick_sort le arr = some out ∧ List.Perm out arr ∧
      out.Pairwise (leR le) := by
  rw [quick_sort]
  exact quickSortFuel_spec le htot htrans arr.length arr (Nat.le_refl _)

/-! ### heap_sort.rs: proofs -/

theorem inSub_self (r : Nat) : inSub r r = true := by
  rw [inSub]
  simp

theorem inSub_step (r t : Nat) (h1 : r < t) :
    inSub r t = inSub r ((t-1)/2) := by
  conv_lhs => rw [inSub]
  rw [if_neg (by omega), dif_pos ⟨h1, by omega⟩]

theorem inSub_not_lt (r t : Nat) (h : t < r) : inSub r t = false := by
  rw [inSub, if_neg (by omega), dif_neg (by omega)]

theorem inSub_lower (r : Nat) : ∀ t, inSub r t = true → t = r ∨ 2*r+1 ≤ t := by
  intro t
  induction t using Nat.strong_induction_on with
  | _ t ih =>
    intro h
    by_cases htr : t = r
    · exact Or.inl htr
    · have hrt : r < t := by
        by_contra hge
        rw [inSub_not_lt r t (by omega)] at h
        exact absurd h (by simp)
      rw [inSub_step r t hrt] at h
      rcases ih ((t-1)/2) (by omega) h with h2 | h2
      · right
        omega
      · right
        omega

theorem inSub_trans (r c : Nat) (h1 : inSub r c = true) :
    ∀ t, inSub c t = true → inSub r t = true := by
  intro t
  induction t using Nat.strong_induction_on with
  | _ t ih =>
    intro h
    by_cases htc : t = c
    · subst htc
      exact h1
    · have hct : c < t := by
        by_contra hge
        rw [inSub_not_lt c t (by omega)] at h
        exact absurd h (by simp)
      rw [inSub_step c t hct] at h
      have hp := ih ((t-1)/2) (by omega) h
      have hrc : c = r ∨ 2*r+1 ≤ c := inSub_lower r c h1
      have hrt : r < t := by omega
      rw [inSub_step r t hrt]
      exact hp

theorem inSub_zero (t : Nat) : inSub 0 t = true := by
  induction t using Nat.strong_induction_on with
  | _ t ih =>
    by_cases ht : t = 0
    · subst ht
      exact inSub_self 0
    · rw [inSub_step 0 t (by omega)]
      exact ih ((t-1)/2) (by omega)

theorem inSub_child (r c : Nat) (h1 : r < c) (h2 : (c-1)/2 = r) :
    inSub r c = true := by
  rw [inSub_step r c h1, h2]
  exact inSub_self r

/-- In a heap prefix, every element is at most the root. -/
theorem heap_root_max (le : α → α → Bool)
    (htot : ∀ a b, le a b = true ∨ le b a = true)
    (htrans : ∀ a b c, le a b = true → le b c = true → le a c = true)
    (l : List α) (e : Nat) (hheap : heapD le l e 0) (he : e < l.length) :
    ∀ t c rv, t ≤ e → l[t]? = some c → l[0]? = some rv →
      le c rv = true := by
  intro t
  induction t using Nat.strong_induction_on with
  | _ t ih =>
    intro c rv hte hgc hgr
    by_cases ht0 : t = 0
    · subst ht0
      rw [hgr] at hgc
      rw [Option.some.inj hgc]
      rcases htot c c with h | h <;> exact h
    · have hp : (t-1)/2 < l.length := by omega
      have hgp : l[(t-1)/2]? = some l[(t-1)/2] := List.getElem?_eq_getElem hp
      have h1 : le c l[(t-1)/2] = true :=
        hheap t c _ (by omega) hte (by omega) hgc hgp
      have h2 : le l[(t-1)/2] rv = true :=
        ih ((t-1)/2) (by omega) _ rv (by omega) hgp hgr
      exact htrans _ _ _ h1 h2

/-- In a heap whose parent constraints hold from `c` on, every element of the
subtree rooted at `c` is at most the value at `c`. -/
theorem heap_sub_bound (le : α → α → Bool)
    (htot : ∀ a b, le a b = true ∨ le b a = true)
    (htrans : ∀ a b c, le a b = true → le b c = true → le a c = true)
    (arr : List α) (e c : Nat) (cv : α) (hgc : arr[c]? = some cv)
    (pre : ∀ i x p, 1 ≤ i → i ≤ e → c ≤ (i-1)/2 → arr[i]? = some x →
      arr[(i-1)/2]? = some p → le x p = true)
    (he : e < arr.length) :
    ∀ t, inSub c t = true → t ≤ e → ∀ v, arr[t]? = some v →
      le v cv = true := by
  intro t
  induction t using Nat.strong_induction_on with
  | _ t ih =>
    intro hsub hte v hgv
    by_cases htc : t = c
    · subst htc
      rw [hgc] at hgv
      rw [Option.some.inj hgv]
      rcases htot v v with h | h <;> exact h
    · have hct : c < t := by
        by_contra hge
        rw [inSub_not_lt c t (by omega)] at hsub
        exact absurd hsub (by simp)
      rw [inSub_step c t hct] at hsub
      have hple : c ≤ (t-1)/2 := by
        rcases inSub_lower c ((t-1)/2) hsub with h | h <;> omega
      have hp : (t-1)/2 < arr.length := by omega
      have hgp : arr[(t-1)/2]? = some arr[(t-1)/2] :=
        List.getElem?_eq_getElem hp
      have h1 : le v arr[(t-1)/2] = true :=
        pre t v _ (by omega) hte hple hgv hgp
      have h2 : le arr[(t-1)/2] cv = true :=
        ih ((t-1)/2) (by omega) hsub (by omega) _ hgp
      exact htrans _ _ _ h1 h2

/-- `pickChild` returns a child of the parent bounding both present children
from above. -/
theorem pickChild_spec (le : α → α → Bool)
    (htot : ∀ a b, le a b = true ∨ le b a = true)
    (arr : List α) (parent e : Nat) (h1 : 2*parent+1 ≤ e)
    (he : e < arr.length) :
    ∃ c, pickChild le arr parent e h1 = some c ∧
      (c.1 = 2*parent+1 ∨ c.1 = 2*parent+2) ∧
      (∀ i x cv, (i = 2*parent+1 ∨ (i = 2*parent+2 ∧ i ≤ e)) →
        arr[i]? = some x → arr[c.1]? = some cv → le x cv = true) := by
  have hrefl : ∀ a : α, le a a = true := by
    intro a
    rcases htot a a with h | h <;> exact h
  have hg1 : arr[2*parent+1]? = some arr[2*parent+1] :=
    List.getElem?_eq_getElem (by omega)
  rw [pickChild]
  by_cases h2 : 2*parent+1+1 ≤ e
  · rw [dif_pos h2]
    have hg2 : arr[2*parent+1+1]? = some arr[2*parent+1+1] :=
      List.getElem?_eq_getElem (by omega)
    simp only [hg1, hg2]
    cases hC : le arr[2*parent+1+1] arr[2*parent+1] with
    | false =>
      rw [if_pos (by simp [hC])]
      refine ⟨⟨2*parent+1+1, by omega⟩, rfl, by right; rfl, ?_⟩
      intro i x cv hi hgx hgcv
      have hcv : cv = arr[2*parent+1+1] := by
        rw [hg2] at hgcv
        exact (Option.some.inj hgcv).symm
      subst hcv
      rcases hi with rfl | ⟨rfl, _⟩
      · have hx : x = arr[2*parent+1] := by
          rw [hg1] at hgx
          exact (Option.some.inj hgx).symm
        subst hx
        rcases htot arr[2*parent+1] arr[2*parent+1+1] with h | h
        · exact h
        · rw [h] at hC
          exact absurd hC (by simp)
      · have hx : x = arr[2*parent+1+1] := by
          have : (2*parent+2) = 2*parent+1+1 := by omega
          rw [this, hg2] at hgx
          exact (Option.some.inj hgx).symm
        subst hx
        exact hrefl _
    | true =>
      rw [if_neg (by simp [hC])]
      refine ⟨⟨2*parent+1, by omega⟩, rfl, by left; rfl, ?_⟩
      intro i x cv hi hgx hgcv
      have hcv : cv = arr[2*parent+1] := by
        rw [hg1] at hgcv
        exact (Option.some.inj hgcv).symm
      subst hcv
      rcases hi with rfl | ⟨rfl, _⟩
      · have hx : x = arr[2*parent+1] := by
          rw [hg1] at hgx
          exact (Option.some.inj hgx).symm
        subst hx
        exact hrefl _
      · have hx : x = arr[2*parent+1+1] := by
          have : (2*parent+2) = 2*parent+1+1 := by omega
          rw [this, hg2] at hgx
          exact (Option.some.inj hgx).symm
        subst hx
        exact hC
  · rw [dif_neg h2]
    refine ⟨⟨2*parent+1, by omega⟩, rfl, by left; rfl, ?_⟩
    intro i x cv hi hgx hgcv
    have hcv : cv = arr[2*parent+1] := by
      rw [hg1] at hgcv
      exact (Option.some.inj hgcv).symm
    subst hcv
    rcases hi with rfl | ⟨rfl, hile⟩
    · have hx : x = arr[2*parent+1] := by
        rw [hg1] at hgx
        exact (Option.some.inj hgx).symm
      subst hx
      exact hrefl _
    · omega

set_option maxHeartbeats 1600000 in
/-- `sift_down` succeeds, permutes the array, touches only the subtree of the
start node inside `[0, e]`, restores the heap constraints for all parents
from the start node on, and never increases the subtree's value bound. -/
theorem sift_down_spec (le : α → α → Bool)
    (htot : ∀ a b, le a b = true ∨ le b a = true)
    (htrans : ∀ a b c, le a b = true → le b c = true → le a c = true) :
    ∀ (fuel r e : Nat) (arr : List α),
      e + 1 - r ≤ fuel →
      e < arr.length →
      heapD le arr e (r+1) →
      ∃ arr2, sift_down le arr r e = some arr2 ∧
        arr2.length = arr.length ∧ List.Perm arr2 arr ∧
        (∀ t, inSub r t = false → arr2[t]? = arr[t]?) ∧
        (∀ t, e < t → arr2[t]? = arr[t]?) ∧
        heapD le arr2 e r ∧
        (∀ b, (∀ t v, inSub r t = true → t ≤ e → arr[t]? = some v →
            le v b = true) →
          ∀ t v, inSub r t = true → t ≤ e → arr2[t]? = some v →
            le v b = true) := by
  have hbfalse : ∀ b2 : Bool, ¬ b2 = true → b2 = false := by
    intro b2 h
    cases b2
    · rfl
    · exact absurd rfl h
  intro fuel
  induction fuel with
  | zero =>
    intro r e arr hfuel he pre
    rw [sift_down, dif_neg (by omega)]
    refine ⟨arr, rfl, rfl, List.Perm.refl _, fun t _ => rfl, fun t _ => rfl,
      ?_, fun b hb => hb⟩
    intro i x p hi1 hie hrp hgx hgp
    exact absurd hrp (by omega)
  | succ fuel ih =>
    intro r e arr hfuel he pre
    rw [sift_down]
    by_cases h1 : 2*r+1 ≤ e
    case neg =>
      rw [dif_neg h1]
      refine ⟨arr, rfl, rfl, List.Perm.refl _, fun t _ => rfl, fun t _ => rfl,
        ?_, fun b hb => hb⟩
      intro i x p hi1 hie hrp hgx hgp
      by_cases hpr : (i-1)/2 = r
      · exact absurd hpr (by omega)
      · exact pre i x p hi1 hie (by omega) hgx hgp
    case pos =>
    rw [dif_pos h1]
    rcases pickChild_spec le htot arr r e h1 he with ⟨c, hpc, hcc, hbound⟩
    have hc1 : r < c.1 := c.2.1
    have hc2 : c.1 ≤ e := c.2.2
    have hcb : c.1 ≤ 2*r+2 := by rcases hcc with h | h <;> omega
    have hgr : arr[r]? = some arr[r] := List.getElem?_eq_getElem (by omega)
    have hgc : arr[c.1]? = some arr[c.1] :=
      List.getElem?_eq_getElem (by omega)
    simp only [hpc, hgr, hgc]
    cases hC : le arr[c.1] arr[r] with
    | true =>
      rw [if_pos rfl]
      refine ⟨arr, rfl, rfl, List.Perm.refl _, fun t _ => rfl, fun t _ => rfl,
        ?_, fun b hb => hb⟩
      intro i x p hi1 hie hrp hgx hgp
      by_cases hpr : (i-1)/2 = r
      · have hp : p = arr[r] := by
          rw [hpr, hgr] at hgp
          exact (Option.some.inj hgp).symm
        subst hp
        have hxc : le x arr[c.1] = true := by
          refine hbound i x arr[c.1] ?_ hgx hgc
          rcases hcc with h | h <;> omega
        exact htrans _ _ _ hxc hC
      · exact pre i x p hi1 hie (by omega) hgx hgp
    | false =>
      rw [if_neg (by simp)]
      have hsw := swapCk_some (show r < arr.length by omega)
        (show c.1 < arr.length by omega)
      simp only [hsw]
      rcases swapCk_getElem? hsw with ⟨hSr, hSc, hSo⟩
      have hnotsub : ∀ j, j ≠ c.1 → j < 2*c.1+1 → inSub c.1 j = false := by
        intro j hj1 hj2
        cases hs : inSub c.1 j
        · rfl
        · rcases inSub_lower c.1 j hs with h | h <;> omega
      have hlenS : ((arr.set r arr[c.1]).set c.1 arr[r]).length =
          arr.length := by simp
      have hpre2 : heapD le ((arr.set r arr[c.1]).set c.1 arr[r]) e
          (c.1+1) := by
        intro i x p hi1 hie hcp hgx hgp
        rw [hSo i (by omega) (by omega)] at hgx
        rw [hSo _ (by omega) (by omega)] at hgp
        exact pre i x p hi1 hie (by omega) hgx hgp
      rcases ih c.1 e ((arr.set r arr[c.1]).set c.1 arr[r]) (by omega)
        (by rw [hlenS]; omega) hpre2 with
        ⟨arr3, hrec, hlen3, hperm3, hframe3, hframeE3, hheap3, hbound3⟩
      have hsubRc : inSub r c.1 = true := by
        refine inSub_child r c.1 hc1 ?_
        rcases hcc with h | h <;> omega
      have hr3 : arr3[r]? = some arr[c.1] := by
        rw [hframe3 r (inSub_not_lt c.1 r hc1), hSr, hgc]
      have hSbound : ∀ t v, inSub c.1 t = true → t ≤ e →
          ((arr.set r arr[c.1]).set c.1 arr[r])[t]? = some v →
          le v arr[c.1] = true := by
        intro t v hs ht hg
        by_cases htc : t = c.1
        · subst htc
          rw [hSc, hgr] at hg
          rw [← Option.some.inj hg]
          rcases htot arr[r] arr[c.1] with h | h
          · exact h
          · rw [h] at hC
            exact absurd hC (by simp)
        · have ht2 : 2*c.1+1 ≤ t := by
            rcases inSub_lower c.1 t hs with h | h <;> omega
          rw [hSo t (by omega) htc] at hg
          refine heap_sub_bound le htot htrans arr e c.1 arr[c.1] hgc
            ?_ he t hs ht v hg
          intro i x p h2 h3 h4 h5 h6
          exact pre i x p h2 h3 (by omega) h5 h6
      refine ⟨arr3, hrec, by rw [hlen3, hlenS],
        hperm3.trans (swapCk_perm hsw), ?_, ?_, ?_, ?_⟩
      · intro t hout
        have htr : t ≠ r := by
          intro hh
          rw [hh, inSub_self] at hout
          exact absurd hout (by simp)
        have htc : t ≠ c.1 := by
          intro hh
          rw [hh, hsubRc] at hout
          exact absurd hout (by simp)
        have hoc : inSub c.1 t = false := by
          cases hs : inSub c.1 t
          · rfl
          · rw [inSub_trans r c.1 hsubRc t hs] at hout
            exact absurd hout (by simp)
        rw [hframe3 t hoc, hSo t htr htc]
      · intro t hte
        rw [hframeE3 t hte, hSo t (by omega) (by omega)]
      · intro i x p hi1 hie hrp hgx hgp
        by_cases hcsplit : c.1 ≤ (i-1)/2
        · exact hheap3 i x p hi1 hie hcsplit hgx hgp
        · by_cases hqr : (i-1)/2 = r
          · have hp : p = arr[c.1] := by
              rw [hqr, hr3] at hgp
              exact (Option.some.inj hgp).symm
            subst hp
            by_cases hicc : i = c.1
            · subst hicc
              exact hbound3 arr[c.1] hSbound c.1 x (inSub_self c.1) hie hgx
            · have hii : i = 2*r+1 ∨ i = 2*r+2 := by omega
              have hnsi : inSub c.1 i = false := hnotsub i hicc (by omega)
              rw [hframe3 i hnsi, hSo i (by omega) hicc] at hgx
              refine hbound i x arr[c.1] ?_ hgx hgc
              rcases hii with h | h <;> omega
          · have hile : 2*r+3 ≤ i := by omega
            have hic : i ≠ c.1 := by omega
            have hnsi : inSub c.1 i = false := hnotsub i hic (by omega)
            have hnsq : inSub c.1 ((i-1)/2) = false :=
              hnotsub _ (by omega) (by omega)
            rw [hframe3 i hnsi, hSo i (by omega) hic] at hgx
            rw [hframe3 _ hnsq, hSo _ (by omega) (by omega)] at hgp
            exact pre i x p hi1 hie (by omega) hgx hgp
      · intro b hb t v hsub hte hgv
        have hbS : ∀ t2 v2, inSub r t2 = true → t2 ≤ e →
            ((arr.set r arr[c.1]).set c.1 arr[r])[t2]? = some v2 →
            le v2 b = true := by
          intro t2 v2 hs2 ht2 hg2
          by_cases h : t2 = r
          · subst h
            rw [hSr, hgc] at hg2
            rw [← Option.some.inj hg2]
            exact hb c.1 arr[c.1] hsubRc hc2 hgc
          · by_cases h2 : t2 = c.1
            · subst h2
              rw [hSc, hgr] at hg2
              rw [← Option.some.inj hg2]
              exact hb r arr[r] (inSub_self r) (by omega) hgr
            · rw [hSo t2 h h2] at hg2
              exact hb t2 v2 hs2 ht2 hg2
        by_cases hsubc : inSub c.1 t = true
        · refine hbound3 b ?_ t v hsubc hte hgv
          intro t2 v2 hs2 ht2 hg2
          exact hbS t2 v2 (inSub_trans r c.1 hsubRc t2 hs2) ht2 hg2
        · rw [hframe3 t (hbfalse _ hsubc)] at hgv
          exact hbS t v hsub hte hgv

/-- The build phase: starting with parents from `cnt - 1` downward, it turns
the whole array into a max-heap. -/
theorem heapifyLoop_spec (le : α → α → Bool)
    (htot : ∀ a b, le a b = true ∨ le b a = true)
    (htrans : ∀ a b c, le a b = true → le b c = true → le a c = true) :
    ∀ (cnt : Nat) (arr : List α) (n : Nat), n = arr.length → 2 * cnt ≤ n →
      heapD le arr (n-1) cnt →
      ∃ out, heapifyLoop le arr cnt n = some out ∧ out.length = arr.length ∧
        List.Perm out arr ∧ heapD le out (n-1) 0 := by
  intro cnt
  induction cnt with
  | zero =>
    intro arr n hn h2 hheap
    exact ⟨arr, rfl, rfl, List.Perm.refl _, hheap⟩
  | succ c ih =>
    intro arr n hn h2 hheap
    rw [heapifyLoop]
    have hn1 : n - 1 < arr.length := by omega
    rcases sift_down_spec le htot htrans (n - 1 + 1 - c) c (n-1) arr
      (Nat.le_refl _) hn1 hheap with
      ⟨arr2, hsd, hlen2, hperm2, _, _, hheap2, _⟩
    simp only [hsd]
    rcases ih arr2 n (by rw [hlen2]; exact hn) (by omega) hheap2 with
      ⟨out, hout, hlen, hperm, hh⟩
    exact ⟨out, hout, by rw [hlen, hlen2], hperm.trans hperm2, hh⟩

/-- The source `is_heap` test agrees with the indexed heap property. -/
theorem is_heap_iff_heapD [Inhabited α] (le : α → α → Bool) (l : List α) :
    is_heap le l = true ↔ heapD le l (l.length - 1) 0 := by
  rw [is_heap, List.all_eq_true]
  constructor
  · intro h i c p hi1 hie hrp hgc hgp
    have hilt : i < l.length := (List.getElem?_eq_some_iff.mp hgc).1
    have h2 := h i (by rw [List.mem_range'_1]; omega)
    rw [getD_eq_getElem l i default hilt,
      getD_eq_getElem l _ default (by omega)] at h2
    rw [getElem?_some_value hgc hilt,
      getElem?_some_value hgp (by omega)] at h2
    exact h2
  · intro h i hmem
    rw [List.mem_range'_1] at hmem
    have hilt : i < l.length := by omega
    have hple : (i-1)/2 < l.length := by omega
    rw [getD_eq_getElem l i default hilt, getD_eq_getElem l _ default hple]
    exact h i _ _ (by omega) (by omega) (by omega)
      (List.getElem?_eq_getElem hilt) (List.getElem?_eq_getElem hple)

/-- The extraction phase: a heap prefix `[0, i]` followed by a sorted tail
that dominates the prefix is turned into a fully sorted array. -/
theorem extractLoop_spec (le : α → α → Bool)
    (htot : ∀ a b, le a b = true ∨ le b a = true)
    (htrans : ∀ a b c, le a b = true → le b c = true → le a c = true) :
    ∀ (i : Nat) (arr : List α), i < arr.length →
      heapD le arr i 0 →
      (∀ t v s w, t ≤ i → i < s → arr[t]? = some v → arr[s]? = some w →
        le v w = true) →
      (∀ s t v w, i < s → s < t → arr[s]? = some v → arr[t]? = some w →
        le v w = true) →
      ∃ out, extractLoop le arr i = some out ∧ out.length = arr.length ∧
        List.Perm out arr ∧ out.Pairwise (leR le) := by
  intro i
  induction i using Nat.strong_induction_on with
  | _ i ih =>
    intro arr hi hheap hcross htail
    by_cases h1 : 1 ≤ i
    case neg =>
      rw [extractLoop, dif_neg h1]
      refine ⟨arr, rfl, rfl, List.Perm.refl _, ?_⟩
      rw [List.pairwise_iff_getElem]
      intro p q hp hq hpq
      have hgp : arr[p]? = some arr[p] := List.getElem?_eq_getElem hp
      have hgq : arr[q]? = some arr[q] := List.getElem?_eq_getElem hq
      by_cases hp0 : p = 0
      · exact hcross p arr[p] q arr[q] (by omega) (by omega) hgp hgq
      · exact htail p q arr[p] arr[q] (by omega) (by omega) hgp hgq
    case pos =>
    rw [extractLoop, dif_pos h1]
    have hswb := swapCk_some (show 0 < arr.length by omega) hi
    simp only [hswb]
    rcases swapCk_getElem? hswb with ⟨hS0, hSi, hSo⟩
    have hg0 : arr[0]? = some arr[0] := List.getElem?_eq_getElem (by omega)
    have hgi : arr[i]? = some arr[i] := List.getElem?_eq_getElem hi
    have hmax := heap_root_max le htot htrans arr i hheap hi
    have hlenS : ((arr.set 0 arr[i]).set i arr[0]).length = arr.length := by
      simp
    have hpreS : heapD le ((arr.set 0 arr[i]).set i arr[0]) (i-1) 1 := by
      intro j x p hj1 hje hrp hgx hgp
      rw [hSo j (by omega) (by omega)] at hgx
      rw [hSo _ (by omega) (by omega)] at hgp
      exact hheap j x p hj1 (by omega) (by omega) hgx hgp
    rcases sift_down_spec le htot htrans (i - 1 + 1) 0 (i-1)
      ((arr.set 0 arr[i]).set i arr[0]) (Nat.le_refl _)
      (by rw [hlenS]; omega) hpreS with
      ⟨arr3, hsd, hlen3, hperm3, _, hframeE3, hheap3, hbound3⟩
    simp only [hsd]
    have hS3 : ∀ s, i ≤ s → arr3[s]? =
        ((arr.set 0 arr[i]).set i arr[0])[s]? := by
      intro s hs
      exact hframeE3 s (by omega)
    have hS3i : arr3[i]? = some arr[0] := by
      rw [hS3 i (Nat.le_refl _), hSi, hg0]
    have hS3out : ∀ s, i < s → arr3[s]? = arr[s]? := by
      intro s hs
      rw [hS3 s (by omega), hSo s (by omega) (by omega)]
    have hcross2 : ∀ t v s w, t ≤ i-1 → i-1 < s → arr3[t]? = some v →
        arr3[s]? = some w → le v w = true := by
      intro t v s w ht hs hgt hgs
      have hyp : ∀ t2 v2, inSub 0 t2 = true → t2 ≤ i-1 →
          ((arr.set 0 arr[i]).set i arr[0])[t2]? = some v2 →
          le v2 w = true := by
        intro t2 v2 _ ht2 hg2
        by_cases ht20 : t2 = 0
        · subst ht20
          rw [hS0, hgi] at hg2
          rw [← Option.some.inj hg2]
          by_cases hsi : s = i
          · rw [hsi, hS3i] at hgs
            rw [← Option.some.inj hgs]
            exact hmax i arr[i] arr[0] (Nat.le_refl _) hgi hg0
          · rw [hS3out s (by omega)] at hgs
            exact hcross i arr[i] s w (Nat.le_refl _) (by omega) hgi hgs
        · rw [hSo t2 ht20 (by omega)] at hg2
          by_cases hsi : s = i
          · rw [hsi, hS3i] at hgs
            rw [← Option.some.inj hgs]
            exact hmax t2 v2 arr[0] (by omega) hg2 hg0
          · rw [hS3out s (by omega)] at hgs
            exact hcross t2 v2 s w (by omega) (by omega) hg2 hgs
      exact hbound3 w hyp t v (inSub_zero t) ht hgt
    have htail2 : ∀ s t v w, i-1 < s → s < t → arr3[s]? = some v →
        arr3[t]? = some w → le v w = true := by
      intro s t v w hs ht hgs hgt
      by_cases hsi : s = i
      · rw [hsi, hS3i] at hgs
        rw [← Option.some.inj hgs]
        rw [hS3out t (by omega)] at hgt
        exact hcross 0 arr[0] t w (by omega) (by omega) hg0 hgt
      · rw [hS3out s (by omega)] at hgs
        rw [hS3out t (by omega)] at hgt
        exact htail s t v w (by omega) (by omega) hgs hgt
    rcases ih (i-1) (by omega) arr3 (by rw [hlen3, hlenS]; omega) hheap3
      hcross2 htail2 with ⟨out, hE, hlenE, hpermE, hsorted⟩
    exact ⟨out, hE, by rw [hlenE, hlen3, hlenS],
      (hpermE.trans hperm3).trans (swapCk_perm hswb), hsorted⟩

/-- The whole array is vacuously a heap for parents from `n/2` on. -/
theorem heapD_initial (le : α → α → Bool) (arr : List α) :
    heapD le arr (arr.length - 1) (arr.length / 2) := by
  intro i c p hi1 hie hrp hgc hgp
  exact absurd hrp (by omega)

theorem heap_sort_spec (le : α → α → Bool)
    (htot : ∀ a b, le a b = true ∨ le b a = true)
    (htrans : ∀ a b c, le a b = true → le b c = true → le a c = true)
    (arr : List α) :
    ∃ out, heap_sort le arr = some out ∧ List.Perm out arr ∧
      out.Pairwise (leR le) := by
  by_cases hnil : arr.length = 0
  · have harr : arr = [] := List.length_eq_zero.mp hnil
    subst harr
    refine ⟨[], ?_, List.Perm.refl _, List.Pairwise.nil⟩
    rw [heap_sort]
    have h0 : heapifyLoop le ([] : List α) ((0:Nat) / 2) 0 = some [] := rfl
    simp only [List.length_nil, h0]
    rw [extractLoop, dif_neg (by omega)]
  · rcases heapifyLoop_spec le htot htrans (arr.length / 2) arr arr.length
      rfl (by omega) (heapD_initial le arr) with
      ⟨arrH, hH, hlenH, hpermH, hheapH⟩
    rw [heap_sort]
    simp only [hH]
    have hcross : ∀ (t : Nat) (v : α) (s : Nat) (w : α),
        t ≤ arr.length - 1 → arr.length - 1 < s → arrH[t]? = some v →
        arrH[s]? = some w → le v w = true := by
      intro t v s w ht hs hgt hgs
      have hslt : s < arrH.length := (List.getElem?_eq_some_iff.mp hgs).1
      rw [hlenH] at hslt
      omega
    have htail : ∀ (s t : Nat) (v w : α),
        arr.length - 1 < s → s < t → arrH[s]? = some v →
        arrH[t]? = some w → le v w = true := by
      intro s t v w hs ht hgs hgt
      have hslt : s < arrH.length := (List.getElem?_eq_some_iff.mp hgs).1
      rw [hlenH] at hslt
      omega
    rcases extractLoop_spec le htot htrans (arr.length - 1) arrH
      (by rw [hlenH]; omega) hheapH hcross htail with
      ⟨out, hE, hlenE, hpermE, hsorted⟩
    exact ⟨out, hE, hpermE.trans hpermH, hsorted⟩

/-! ### Shell sort gap sequence (C6) -/

theorem gapVal_pos : ∀ j, 1 ≤ gapVal j := by
  intro j
  cases j with
  | zero => exact Nat.le_refl 1
  | succ j =>
    have : gapVal (j+1) = 3 * gapVal j + 1 := rfl
    omega

theorem shellGrow_step (n k : Nat) (h : k < n / 3) :
    shellGrow n k = shellGrow n (3 * k + 1) := by
  rw [shellGrow, dif_pos h]

theorem shellGrow_stop (n k : Nat) (h : ¬ k < n / 3) :
    shellGrow n k = k := by
  rw [shellGrow, dif_neg h]

theorem gapSeqFrom_cons (k : Nat) (h : 1 ≤ k) :
    gapSeqFrom k = k :: gapSeqFrom (k / 3) := by
  rw [gapSeqFrom, dif_pos h]

theorem gapSeqFrom_nil : gapSeqFrom 0 = [] := by
  rw [gapSeqFrom, dif_neg (by omega)]

/-- `shellLoop` runs exactly one insertion pass for each gap in the
descending-by-`/3` sequence starting at `k`. -/
theorem shellLoop_runPasses (le : α → α → Bool) :
    ∀ (k : Nat) (arr : List α) (n : Nat),
      shellLoop le arr k n = runPasses le (gapSeqFrom k) arr n := by
  intro k
  induction k using Nat.strong_induction_on with
  | _ k ih =>
    intro arr n
    by_cases h1 : 1 ≤ k
    · rw [shellLoop, dif_pos h1, gapSeqFrom_cons k h1, runPasses,
        gapPassTot, dif_pos (show 0 < k from h1)]
      cases hgp : gapPass le k h1 arr k n with
      | none => rfl
      | some arr2 => exact ih (k / 3) (by omega) arr2 n
    · rw [shellLoop, dif_neg h1]
      have hk0 : k = 0 := by omega
      subst hk0
      rw [gapSeqFrom_nil, runPasses]

theorem shell_sort_runPasses (le : α → α → Bool) (arr : List α) :
    shell_sort le arr = runPasses le (gapSeq arr.length) arr arr.length := by
  rw [shell_sort, gapSeq, shellLoop_runPasses]

theorem gapSeq_ten : gapSeq 10 = [4, 1] := by
  rw [gapSeq]
  have h1 : shellGrow 10 1 = 4 := by
    have s1 : shellGrow 10 1 = shellGrow 10 4 := by
      rw [shellGrow, dif_pos (by norm_num)]
    have s2 : shellGrow 10 4 = 4 := by
      rw [shellGrow, dif_neg (by norm_num)]
    rw [s1, s2]
  have g4 : gapSeqFrom 4 = 4 :: gapSeqFrom 1 := by
    rw [gapSeqFrom_cons 4 (by norm_num)]
  have g1 : gapSeqFrom 1 = 1 :: gapSeqFrom 0 := by
    rw [gapSeqFrom_cons 1 (by norm_num)]
  have g0 : gapSeqFrom 0 = [] := gapSeqFrom_nil
  rw [h1, g4, g1, g0]

/-- Starting from any gap reachable by the growth recurrence, the descending
sequence ends with the gap `1`: the pass at gap `1` is always last. -/
theorem gapSeqFrom_ends_one : ∀ j, ∃ pre, gapSeqFrom (gapVal j) = pre ++ [1] := by
  intro j
  induction j with
  | zero =>
    refine ⟨[], ?_⟩
    have h1 : gapVal 0 = 1 := rfl
    rw [h1, gapSeqFrom_cons 1 (by omega), gapSeqFrom_nil]
    rfl
  | succ j ih =>
    rcases ih with ⟨pre, hpre⟩
    refine ⟨gapVal (j+1) :: pre, ?_⟩
    have hstep : gapSeqFrom (gapVal (j+1)) =
        gapVal (j+1) :: gapSeqFrom (gapVal j) := by
      have harg : gapVal (j+1) / 3 = gapVal j := by
        have h3 : gapVal (j+1) = 3 * gapVal j + 1 := rfl
        omega
      rw [gapSeqFrom_cons _ (gapVal_pos (j+1)), harg]
    rw [hstep, hpre]
    rfl

theorem gapSeq_ends_one (n : Nat) : ∃ pre, gapSeq n = pre ++ [1] := by
  rw [gapSeq]
  have h0 : (1 : Nat) = gapVal 0 := rfl
  rcases shellGrow_gapVal n (n / 3) 0 (by have := gapVal_pos 0; omega) with
    ⟨j2, hj2⟩
  rw [h0, hj2]
  exact gapSeqFrom_ends_one j2

/-! ### Reference sort agreement (C9) -/

/-- Under antisymmetry, a sorted permutation is unique. -/
theorem sorted_perm_eq (le : α → α → Bool)
    (hanti : ∀ a b, le a b = true → le b a = true → a = b)
    {l1 l2 : List α} (hp : List.Perm l1 l2) (h1 : l1.Pairwise (leR le))
    (h2 : l2.Pairwise (leR le)) : l1 = l2 := by
  haveI : IsAntisymm α (leR le) := ⟨hanti⟩
  exact List.eq_of_perm_of_sorted hp h1 h2

/-- The standard-library `mergeSort` serves as the reference sort: it is a
sorted permutation. -/
theorem refSort_spec (le : α → α → Bool)
    (htot : ∀ a b, le a b = true ∨ le b a = true)
    (htrans : ∀ a b c, le a b = true → le b c = true → le a c = true)
    (l : List α) :
    List.Perm (List.mergeSort l le) l ∧
      (List.mergeSort l le).Pairwise (leR le) := by
  refine ⟨List.mergeSort_perm l le, ?_⟩
  refine List.sorted_mergeSort htrans ?_ l
  intro a b
  rcases htot a b with h | h <;> simp [h]

/-- Any sorted permutation of the input agrees with the reference sort. -/
theorem output_eq_refSort (le : α → α → Bool)
    (htot : ∀ a b, le a b = true ∨ le b a = true)
    (htrans : ∀ a b c, le a b = true → le b c = true → le a c = true)
    (hanti : ∀ a b, le a b = true → le b a = true → a = b)
    {l out : List α} (hp : List.Perm out l) (hs : out.Pairwise (leR le)) :
    out = List.mergeSort l le := by
  rcases refSort_spec le htot htrans l with ⟨hperm, hsort⟩
  exact sorted_perm_eq le hanti (hp.trans hperm.symm) hs hsort

/-- One step of the merge loop with the front of `a` at most the front of
`b` (in particular on ties): the element is taken from `a`. -/
theorem mergeLoop_take_a (le : α → α → Bool) (a b res : List α) (i j : Nat)
    (x y : α) (hx : a[i]? = some x) (hy : b[j]? = some y)
    (hres : i + j < res.length) (hxy : le x y = true) :
    mergeLoop le a b i j res =
      mergeLoop le a b (i+1) j (res.set (i+j) x) := by
  have hia : i < a.length := (List.getElem?_eq_some_iff.mp hx).1
  have hjb : j < b.length := (List.getElem?_eq_some_iff.mp hy).1
  rw [mergeLoop, dif_pos (Or.inl hia), dif_neg (by omega), dif_neg (by omega)]
  split
  rotate_left
  · rename_i hcontra
    exact (hcontra x y hx hy).elim
  rename_i x2 y2 hx2 hy2
  obtain rfl : x2 = x := by
    rw [hx] at hx2
    exact (Option.some.inj hx2).symm
  obtain rfl : y2 = y := by
    rw [hy] at hy2
    exact (Option.some.inj hy2).symm
  rw [if_neg (by simp [hxy]), setCk, if_pos hres]

/-! ### Claims -/

/-- C1: every one of the seven sort functions succeeds on every finite input
over a total, transitive comparison, and its output passes the source
`is_sorted` test (every adjacent pair is `≤`-ordered). -/
theorem C1_all_sorts_sorted (le : α → α → Bool)
    (htot : ∀ a b, le a b = true ∨ le b a = true)
    (htrans : ∀ a b c, le a b = true → le b c = true → le a c = true)
    (arr : List α) :
    (∃ out, bubble_sort le arr = some out ∧ is_sorted le out = true) ∧
    (∃ out, selection_sort le arr = some out ∧ is_sorted le out = true) ∧
    (∃ out, insertion_sort le arr = some out ∧ is_sorted le out = true) ∧
    (∃ out, shell_sort le arr = some out ∧ is_sorted le out = true) ∧
    (∃ out, heap_sort le arr = some out ∧ is_sorted le out = true) ∧
    (∃ out, merge_sort le arr = some out ∧ is_sorted le out = true) ∧
    (∃ out, quick_sort le arr = some out ∧ is_sorted le out = true) := by
  refine ⟨?_, ?_, ?_, ?_, ?_, ?_, ?_⟩
  · rcases bubble_sort_spec le htot htrans arr with ⟨out, k, h1, _, _, h4⟩
    exact ⟨out, h1, h4⟩
  · rcases selection_sort_spec le htot htrans arr with ⟨out, h1, _, h3⟩
    exact ⟨out, h1, (is_sorted_iff_pairwise le htrans out).mpr h3⟩
  · rcases insertion_sort_spec le htot htrans arr with ⟨out, h1, _, h3, _⟩
    exact ⟨out, h1, (is_sorted_iff_pairwise le htrans out).mpr h3⟩
  · rcases shell_sort_spec le htot htrans arr with ⟨out, h1, _, h3⟩
    exact ⟨out, h1, (is_sorted_iff_pairwise le htrans out).mpr h3⟩
  · rcases heap_sort_spec le htot htrans arr with ⟨out, h1, _, h3⟩
    exact ⟨out, h1, (is_sorted_iff_pairwise le htrans out).mpr h3⟩
  · rcases merge_sort_spec le htot htrans arr with ⟨out, h1, _, h3, _⟩
    exact ⟨out, h1, (is_sorted_iff_pairwise le htrans out).mpr h3⟩
  · rcases quick_sort_spec le htot htrans arr with ⟨out, h1, _, h3⟩
    exact ⟨out, h1, (is_sorted_iff_pairwise le htrans out).mpr h3⟩

theorem C1_witness :
    (∃ out, bubble_sort intLe [(3:Int), 1, 2] = some out ∧
      is_sorted intLe out = true) ∧
    (∃ out, selection_sort intLe [(3:Int), 1, 2] = some out ∧
      is_sorted intLe out = true) ∧
    (∃ out, insertion_sort intLe [(3:Int), 1, 2] = some out ∧
      is_sorted intLe out = true) ∧
    (∃ out, shell_sort intLe [(3:Int), 1, 2] = some out ∧
      is_sorted intLe out = true) ∧
    (∃ out, heap_sort intLe [(3:Int), 1, 2] = some out ∧
      is_sorted intLe out = true) ∧
    (∃ out, merge_sort intLe [(3:Int), 1, 2] = some out ∧
      is_sorted intLe out = true) ∧
    (∃ out, quick_sort intLe [(3:Int), 1, 2] = some out ∧
      is_sorted intLe out = true) :=
  C1_all_sorts_sorted intLe intLe_total intLe_trans [3, 1, 2]

/-- C2: every one of the seven sort functions returns a permutation of its
input (the multiset of elements and the length are preserved). -/
theorem C2_all_sorts_permutation (le : α → α → Bool)
    (htot : ∀ a b, le a b = true ∨ le b a = true)
    (htrans : ∀ a b c, le a b = true → le b c = true → le a c = true)
    (arr : List α) :
    (∃ out, bubble_sort le arr = some out ∧ List.Perm out arr ∧
      out.length = arr.length) ∧
    (∃ out, selection_sort le arr = some out ∧ List.Perm out arr ∧
      out.length = arr.length) ∧
    (∃ out, insertion_sort le arr = some out ∧ List.Perm out arr ∧
      out.length = arr.length) ∧
    (∃ out, shell_sort le arr = some out ∧ List.Perm out arr ∧
      out.length = arr.length) ∧
    (∃ out, heap_sort le arr = some out ∧ List.Perm out arr ∧
      out.length = arr.length) ∧
    (∃ out, merge_sort le arr = some out ∧ List.Perm out arr ∧
      out.length = arr.length) ∧
    (∃ out, quick_sort le arr = some out ∧ List.Perm out arr ∧
      out.length = arr.length) := by
  refine ⟨?_, ?_, ?_, ?_, ?_, ?_, ?_⟩
  · rcases bubble_sort_spec le htot htrans arr with ⟨out, k, h1, _, h3, _⟩
    exact ⟨out, h1, h3, h3.length_eq⟩
  · rcases selection_sort_spec le htot htrans arr with ⟨out, h1, h2, _⟩
    exact ⟨out, h1, h2, h2.length_eq⟩
  · rcases insertion_sort_spec le htot htrans arr with ⟨out, h1, h2, _, _⟩
    exact ⟨out, h1, h2, h2.length_eq⟩
  · rcases shell_sort_spec le htot htrans arr with ⟨out, h1, h2, _⟩
    exact ⟨out, h1, h2, h2.length_eq⟩
  · rcases heap_sort_spec le htot htrans arr with ⟨out, h1, h2, _⟩
    exact ⟨out, h1, h2, h2.length_eq⟩
  · rcases merge_sort_spec le htot htrans arr with ⟨out, h1, h2, _, _⟩
    exact ⟨out, h1, h2, h2.length_eq⟩
  · rcases quick_sort_spec le htot htrans arr with ⟨out, h1, h2, _⟩
    exact ⟨out, h1, h2, h2.length_eq⟩

theorem C2_witness :
    (∃ out, bubble_sort intLe [(2:Int), 2, 1] = some out ∧
      List.Perm out [(2:Int), 2, 1] ∧ out.length = ([(2:Int), 2, 1]).length) ∧
    (∃ out, selection_sort intLe [(2:Int), 2, 1] = some out ∧
      List.Perm out [(2:Int), 2, 1] ∧ out.length = ([(2:Int), 2, 1]).length) ∧
    (∃ out, insertion_sort intLe [(2:Int), 2, 1] = some out ∧
      List.Perm out [(2:Int), 2, 1] ∧ out.length = ([(2:Int), 2, 1]).length) ∧
    (∃ out, shell_sort intLe [(2:Int), 2, 1] = some out ∧
      List.Perm out [(2:Int), 2, 1] ∧ out.length = ([(2:Int), 2, 1]).length) ∧
    (∃ out, heap_sort intLe [(2:Int), 2, 1] = some out ∧
      List.Perm out [(2:Int), 2, 1] ∧ out.length = ([(2:Int), 2, 1]).length) ∧
    (∃ out, merge_sort intLe [(2:Int), 2, 1] = some out ∧
      List.Perm out [(2:Int), 2, 1] ∧ out.length = ([(2:Int), 2, 1]).length) ∧
    (∃ out, quick_sort intLe [(2:Int), 2, 1] = some out ∧
      List.Perm out [(2:Int), 2, 1] ∧ out.length = ([(2:Int), 2, 1]).length) :=
  C2_all_sorts_permutation intLe intLe_total intLe_trans [2, 2, 1]

/-- C3: quicksort's partition mechanics and postcondition: the two-cursor
loop advances `left` on `arr[left] ≤ pivot`, otherwise swaps with
`arr[right-1]` and retreats `right`, and stops at `left == right`; the
returned split is in range, holds the pivot, everything before it is `≤` the
pivot and everything from it on is `≥` the pivot; and `sort` recurses on
`[0, split)` and `(split, len)`, excluding the pivot position. -/
theorem C3_partition_mechanics (le : α → α → Bool)
    (htot : ∀ a b, le a b = true ∨ le b a = true)
    (arr : List α) (pi : Nat) (hpi : pi < arr.length) :
    (∀ (pivot : α) (a : List α) (left : Nat),
      partLoop le pivot a left left = some (a, left)) ∧
    (∀ (pivot : α) (a : List α) (left right : Nat) (v : α),
      left < right → a[left]? = some v → le v pivot = true →
      partLoop le pivot a left right = partLoop le pivot a (left+1) right) ∧
    (∀ (pivot : α) (a a2 : List α) (left right : Nat) (v : α),
      left < right → a[left]? = some v → le v pivot = false →
      swapCk a left (right-1) = some a2 →
      partLoop le pivot a left right = partLoop le pivot a2 left (right-1)) ∧
    (∃ arr3 split pivot, partition le arr pi = some (arr3, split) ∧
      arr[pi]? = some pivot ∧ split < arr.length ∧
      arr3[split]? = some pivot ∧
      (∀ t x, t < split → arr3[t]? = some x → le x pivot = true) ∧
      (∀ t x, split ≤ t → t < arr.length → arr3[t]? = some x →
        le pivot x = true)) ∧
    (∀ (fuel : Nat) (a a1 lseg rseg ls rs : List α) (mid : Nat) (pv : α),
      ¬ a.length ≤ 1 →
      partition le a (a.length / 2) = some (a1, mid) →
      sliceCk a1 0 mid = some lseg →
      sliceCk a1 (mid+1) a1.length = some rseg →
      a1[mid]? = some pv →
      quickSortFuel le fuel lseg = some ls →
      quickSortFuel le fuel rseg = some rs →
      quickSortFuel le (fuel+1) a = some (ls ++ pv :: rs)) := by
  refine ⟨?_, ?_, ?_, ?_, ?_⟩
  · intro pivot a left
    rw [partLoop, dif_neg (by omega)]
  · intro pivot a left right v h hv hle
    rw [partLoop, dif_pos h]
    simp only [hv]
    rw [if_pos hle]
  · intro pivot a a2 left right v h hv hle hsw
    rw [partLoop, dif_pos h]
    simp only [hv]
    rw [if_neg (by simp [hle])]
    simp only [hsw]
  · rcases partition_spec le htot arr pi hpi with
      ⟨arr3, split, pivot, h1, h2, h3, _, _, h6, h7, h8⟩
    exact ⟨arr3, split, pivot, h1, h2, h3, h6, h7, h8⟩
  · intro fuel a a1 lseg rseg ls rs mid pv hlen hpart hsA hsB hpv hls hrs
    rw [quickSortFuel, if_neg hlen]
    simp only [hpart, hsA, hsB, hpv, hls, hrs]

theorem C3_witness :
    (∀ (pivot : Int) (a : List Int) (left : Nat),
      partLoop intLe pivot a left left = some (a, left)) ∧
    (∀ (pivot : Int) (a : List Int) (left right : Nat) (v : Int),
      left < right → a[left]? = some v → intLe v pivot = true →
      partLoop intLe pivot a left right =
        partLoop intLe pivot a (left+1) right) ∧
    (∀ (pivot : Int) (a a2 : List Int) (left right : Nat) (v : Int),
      left < right → a[left]? = some v → intLe v pivot = false →
      swapCk a left (right-1) = some a2 →
      partLoop intLe pivot a left right =
        partLoop intLe pivot a2 left (right-1)) ∧
    (∃ arr3 split pivot,
      partition intLe [(5:Int), 3, 4, 1, 2] 2 = some (arr3, split) ∧
      ([(5:Int), 3, 4, 1, 2])[2]? = some pivot ∧
      split < ([(5:Int), 3, 4, 1, 2]).length ∧
      arr3[split]? = some pivot ∧
      (∀ t x, t < split → arr3[t]? = some x → intLe x pivot = true) ∧
      (∀ t x, split ≤ t → t < ([(5:Int), 3, 4, 1, 2]).length →
        arr3[t]? = some x → intLe pivot x = true)) ∧
    (∀ (fuel : Nat) (a a1 lseg rseg ls rs : List Int) (mid : Nat) (pv : Int),
      ¬ a.length ≤ 1 →
      partition intLe a (a.length / 2) = some (a1, mid) →
      sliceCk a1 0 mid = some lseg →
      sliceCk a1 (mid+1) a1.length = some rseg →
      a1[mid]? = some pv →
      quickSortFuel intLe fuel lseg = some ls →
      quickSortFuel intLe fuel rseg = some rs →
      quickSortFuel intLe (fuel+1) a = some (ls ++ pv :: rs)) :=
  C3_partition_mechanics intLe intLe_total [5, 3, 4, 1, 2] 2 (by decide)

/-- C6: the Shell gap sequence: grow `k ← 3k+1` while `k < n/3`, then run one
insertion pass per gap, dividing by `3` after each pass until `0`; the pass
at gap `1` is always last, and the sequence for `n = 10` is `[4, 1]`. -/
theorem C6_shell_gap_sequence (le : α → α → Bool) :
    (∀ n k : Nat, k < n / 3 → shellGrow n k = shellGrow n (3*k+1)) ∧
    (∀ n k : Nat, ¬ k < n / 3 → shellGrow n k = k) ∧
    (∀ k : Nat, 1 ≤ k → gapSeqFrom k = k :: gapSeqFrom (k / 3)) ∧
    gapSeqFrom 0 = [] ∧
    (∀ arr : List α, shell_sort le arr =
      runPasses le (gapSeq arr.length) arr arr.length) ∧
    gapSeq 10 = [4, 1] ∧
    (∀ n : Nat, ∃ pre, gapSeq n = pre ++ [1]) :=
  ⟨shellGrow_step, shellGrow_stop, gapSeqFrom_cons, gapSeqFrom_nil,
    shell_sort_runPasses le, gapSeq_ten, gapSeq_ends_one⟩

/-- C10: `partition` is safe exactly under `pi < arr.len()`: it succeeds iff
that holds (so the annotated `pi ≤ arr.len()` is strictly weaker, failing on
the very first access `arr[pi]` at `pi = arr.len()`), the returned index is
strictly below the length, and the internal caller's pivot `len / 2`
satisfies the stronger precondition whenever `len ≥ 2`. -/
theorem C10_partition_safety (le : α → α → Bool)
    (htot : ∀ a b, le a b = true ∨ le b a = true)
    (arr : List α) (pi : Nat) :
    ((partition le arr pi).isSome = true ↔ pi < arr.length) ∧
    (pi = arr.length → arr[pi]? = none ∧ partition le arr pi = none) ∧
    (∀ arr3 split, pi < arr.length → partition le arr pi = some (arr3, split) →
      split < arr.length) ∧
    (2 ≤ arr.length → arr.length / 2 < arr.length) := by
  refine ⟨partition_isSome_iff le arr pi, ?_, ?_, fun h => by omega⟩
  · intro hpi
    have hnone : arr[pi]? = none := List.getElem?_eq_none (by omega)
    refine ⟨hnone, ?_⟩
    rw [partition, hnone]
  · intro arr3 split hpi hpart
    rcases partition_spec le htot arr pi hpi with
      ⟨arr3b, splitb, pivot, h1, _, h3, _⟩
    rw [hpart] at h1
    have h2 := Option.some.inj h1
    have h4 : split = splitb := congrArg Prod.snd h2
    omega

theorem C10_witness :
    ((partition intLe [(1:Int), 2] 2).isSome = true ↔
      2 < ([(1:Int), 2]).length) ∧
    (2 = ([(1:Int), 2]).length → ([(1:Int), 2])[2]? = none ∧
      partition intLe [(1:Int), 2] 2 = none) ∧
    (∀ arr3 split, 2 < ([(1:Int), 2]).length →
      partition intLe [(1:Int), 2] 2 = some (arr3, split) →
      split < ([(1:Int), 2]).length) ∧
    (2 ≤ ([(1:Int), 2]).length → ([(1:Int), 2]).length / 2 <
      ([(1:Int), 2]).length) :=
  C10_partition_safety intLe intLe_total [1, 2] 2

/-- C4: bubble, insertion, and merge sort are stable: on index-tagged
elements whose comparison ignores the tag, an input whose equal-comparing
elements have increasing tags sorts to an output with the same property; and
merge sort's merge step takes from the first segment whenever the two fronts
compare `≤` (in particular on ties). -/
theorem C4_stability (le : α → α → Bool)
    (htot : ∀ a b, le a b = true ∨ le b a = true)
    (htrans : ∀ a b c, le a b = true → le b c = true → le a c = true)
    (arr : List (Nat × α)) (hst : arr.Pairwise (stP le)) :
    (∃ out, bubble_sort (pairLe le) arr = some out ∧
      out.Pairwise (stP le)) ∧
    (∃ out, insertion_sort (pairLe le) arr = some out ∧
      out.Pairwise (stP le)) ∧
    (∃ out, merge_sort (pairLe le) arr = some out ∧
      out.Pairwise (stP le)) ∧
    (∀ (a b res : List (Nat × α)) (i j : Nat) (x y : Nat × α),
      a[i]? = some x → b[j]? = some y → i + j < res.length →
      le x.2 y.2 = true → le y.2 x.2 = true →
      mergeLoop (pairLe le) a b i j res =
        mergeLoop (pairLe le) a b (i+1) j (res.set (i+j) x)) := by
  have htot2 : ∀ p q : Nat × α,
      pairLe le p q = true ∨ pairLe le q p = true :=
    fun p q => htot p.2 q.2
  have htrans2 : ∀ p q r : Nat × α, pairLe le p q = true →
      pairLe le q r = true → pairLe le p r = true :=
    fun p q r => htrans p.2 q.2 r.2
  have hP : ∀ p q : Nat × α, pairLe le q p = false → stP le p q := by
    intro p q h hle1 hle2
    rw [pairLe] at h
    rw [hle2] at h
    exact absurd h (by simp)
  refine ⟨?_, ?_, ?_, ?_⟩
  · rcases bubble_sort_spec (pairLe le) htot2 htrans2 arr with
      ⟨out, k, h1, hk, _, _⟩
    exact ⟨out, h1, hk ▸ bpassN_stable le k arr hst⟩
  · rcases insertion_sort_spec (pairLe le) htot2 htrans2 arr with
      ⟨out, h1, _, _, h4⟩
    exact ⟨out, h1, h4 (stP le) hP hst⟩
  · rcases merge_sort_spec (pairLe le) htot2 htrans2 arr with
      ⟨out, h1, _, _, h4⟩
    exact ⟨out, h1, h4 (stP le) hP hst⟩
  · intro a b res i j x y hx hy hres hxy hyx
    exact mergeLoop_take_a (pairLe le) a b res i j x y hx hy hres hxy

theorem C4_witness :
    (∃ out, bubble_sort (pairLe intLe)
        [(0, (2:Int)), (1, 1), (2, 2)] = some out ∧
      out.Pairwise (stP intLe)) ∧
    (∃ out, insertion_sort (pairLe intLe)
        [(0, (2:Int)), (1, 1), (2, 2)] = some out ∧
      out.Pairwise (stP intLe)) ∧
    (∃ out, merge_sort (pairLe intLe)
        [(0, (2:Int)), (1, 1), (2, 2)] = some out ∧
      out.Pairwise (stP intLe)) ∧
    (∀ (a b res : List (Nat × Int)) (i j : Nat) (x y : Nat × Int),
      a[i]? = some x → b[j]? = some y → i + j < res.length →
      intLe x.2 y.2 = true → intLe y.2 x.2 = true →
      mergeLoop (pairLe intLe) a b i j res =
        mergeLoop (pairLe intLe) a b (i+1) j (res.set (i+j) x)) :=
  C4_stability intLe intLe_total intLe_trans [(0, 2), (1, 1), (2, 2)] (by
    refine List.Pairwise.cons ?_ (List.Pairwise.cons ?_
      (List.pairwise_singleton _ _))
    · intro q hq
      rcases List.mem_cons.mp hq with rfl | hq2
      · intro h1 _
        exact absurd h1 (by decide)
      · rcases List.mem_singleton.mp hq2 with rfl
        intro _ _
        decide
    · intro q hq
      rcases List.mem_singleton.mp hq with rfl
      intro _ h2
      exact absurd h2 (by decide))

/-- C5: `sift_down` mechanics (children at `2p+1`/`2p+2`, pick the larger
child within `[0, e]`, swap downward while it is strictly larger, stop once
the parent is `≥` it), and after the build phase the whole array is a
max-heap (`is_heap`) whose position `0` bounds every element. -/
theorem C5_sift_down_and_build [Inhabited α] (le : α → α → Bool)
    (htot : ∀ a b, le a b = true ∨ le b a = true)
    (htrans : ∀ a b c, le a b = true → le b c = true → le a c = true)
    (arr : List α) :
    (∀ (a : List α) (p e : Nat), ¬ 2*p+1 ≤ e →
      sift_down le a p e = some a) ∧
    (∀ (a : List α) (p e : Nat) (h1 : 2*p+1 ≤ e)
      (c : {c : Nat // p < c ∧ c ≤ e}) (pv cv : α),
      pickChild le a p e h1 = some c → a[p]? = some pv →
      a[c.1]? = some cv → le cv pv = true → sift_down le a p e = some a) ∧
    (∀ (a a2 : List α) (p e : Nat) (h1 : 2*p+1 ≤ e)
      (c : {c : Nat // p < c ∧ c ≤ e}) (pv cv : α),
      pickChild le a p e h1 = some c → a[p]? = some pv →
      a[c.1]? = some cv → le cv pv = false → swapCk a p c.1 = some a2 →
      sift_down le a p e = sift_down le a2 c.1 e) ∧
    (∀ (a : List α) (p e : Nat) (h1 : 2*p+1 ≤ e), e < a.length →
      ∃ c, pickChild le a p e h1 = some c ∧
        (c.1 = 2*p+1 ∨ c.1 = 2*p+2) ∧ p < c.1 ∧ c.1 ≤ e ∧
        (∀ i x cv, (i = 2*p+1 ∨ (i = 2*p+2 ∧ i ≤ e)) →
          a[i]? = some x → a[c.1]? = some cv → le x cv = true)) ∧
    (∃ out, heapifyLoop le arr (arr.length / 2) arr.length = some out ∧
      List.Perm out arr ∧ is_heap le out = true ∧
      (∀ t x rv, t < out.length → out[t]? = some x → out[0]? = some rv →
        le x rv = true)) := by
  refine ⟨?_, ?_, ?_, ?_, ?_⟩
  · intro a p e h
    rw [sift_down, dif_neg h]
  · intro a p e h1 c pv cv hpc hgp hgc hC
    rw [sift_down, dif_pos h1]
    simp only [hpc, hgp, hgc]
    rw [if_pos hC]
  · intro a a2 p e h1 c pv cv hpc hgp hgc hC hsw
    rw [sift_down, dif_pos h1]
    simp only [hpc, hgp, hgc]
    rw [if_neg (by simp [hC])]
    simp only [hsw]
  · intro a p e h1 he
    rcases pickChild_spec le htot a p e h1 he with ⟨c, h2, h3, h4⟩
    exact ⟨c, h2, h3, c.2.1, c.2.2, h4⟩
  · rcases heapifyLoop_spec le htot htrans (arr.length / 2) arr arr.length
      rfl (by omega) (heapD_initial le arr) with
      ⟨out, h1, hlen, hperm, hheap⟩
    refine ⟨out, h1, hperm, ?_, ?_⟩
    · rw [is_heap_iff_heapD, hlen]
      exact hheap
    · intro t x rv ht hgx hgrv
      refine heap_root_max le htot htrans out (arr.length - 1) hheap
        ?_ t x rv ?_ hgx hgrv
      · rw [hlen]
        omega
      · rw [hlen] at ht
        omega

theorem C5_witness :
    (∀ (a : List Int) (p e : Nat), ¬ 2*p+1 ≤ e →
      sift_down intLe a p e = some a) ∧
    (∀ (a : List Int) (p e : Nat) (h1 : 2*p+1 ≤ e)
      (c : {c : Nat // p < c ∧ c ≤ e}) (pv cv : Int),
      pickChild intLe a p e h1 = some c → a[p]? = some pv →
      a[c.1]? = some cv → intLe cv pv = true →
      sift_down intLe a p e = some a) ∧
    (∀ (a a2 : List Int) (p e : Nat) (h1 : 2*p+1 ≤ e)
      (c : {c : Nat // p < c ∧ c ≤ e}) (pv cv : Int),
      pickChild intLe a p e h1 = some c → a[p]? = some pv →
      a[c.1]? = some cv → intLe cv pv = false → swapCk a p c.1 = some a2 →
      sift_down intLe a p e = sift_down intLe a2 c.1 e) ∧
    (∀ (a : List Int) (p e : Nat) (h1 : 2*p+1 ≤ e), e < a.length →
      ∃ c, pickChild intLe a p e h1 = some c ∧
        (c.1 = 2*p+1 ∨ c.1 = 2*p+2) ∧ p < c.1 ∧ c.1 ≤ e ∧
        (∀ i x cv, (i = 2*p+1 ∨ (i = 2*p+2 ∧ i ≤ e)) →
          a[i]? = some x → a[c.1]? = some cv → intLe x cv = true)) ∧
    (∃ out, heapifyLoop intLe [(7:Int), 1, 9, 3]
        (([(7:Int), 1, 9, 3]).length / 2) ([(7:Int), 1, 9, 3]).length =
        some out ∧
      List.Perm out [(7:Int), 1, 9, 3] ∧ is_heap intLe out = true ∧
      (∀ t x rv, t < out.length → out[t]? = some x → out[0]? = some rv →
        intLe x rv = true)) :=
  C5_sift_down_and_build intLe intLe_total intLe_trans [7, 1, 9, 3]

/-- C8: every one of the seven sorts terminates successfully on every finite
input (no out-of-range access, modelled by `some`), empty and singleton
inputs are returned unchanged, heap sort's build and extract loops are no-ops
when they would otherwise need the `n - 1` or `i - 1` subtractions at
`n = 0`/`i = 0`, and quicksort's length guard returns any slice of length
below `2` unchanged without calling `partition`. -/
theorem C8_termination_safety (le : α → α → Bool)
    (htot : ∀ a b, le a b = true ∨ le b a = true)
    (htrans : ∀ a b c, le a b = true → le b c = true → le a c = true)
    (arr : List α) :
    ((bubble_sort le arr).isSome = true ∧
     (selection_sort le arr).isSome = true ∧
     (insertion_sort le arr).isSome = true ∧
     (shell_sort le arr).isSome = true ∧
     (heap_sort le arr).isSome = true ∧
     (merge_sort le arr).isSome = true ∧
     (quick_sort le arr).isSome = true) ∧
    (arr.length ≤ 1 →
      bubble_sort le arr = some arr ∧
      selection_sort le arr = some arr ∧
      insertion_sort le arr = some arr ∧
      shell_sort le arr = some arr ∧
      heap_sort le arr = some arr ∧
      merge_sort le arr = some arr ∧
      quick_sort le arr = some arr) ∧
    (∀ (a : List α) (n : Nat), n / 2 = 0 →
      heapifyLoop le a (n / 2) n = some a) ∧
    (∀ (a : List α) (i : Nat), i = 0 → extractLoop le a i = some a) ∧
    (∀ (fuel : Nat) (a : List α), a.length ≤ 1 →
      quickSortFuel le fuel a = some a) := by
  refine ⟨?_, ?_, ?_, ?_, ?_⟩
  · refine ⟨?_, ?_, ?_, ?_, ?_, ?_, ?_⟩
    · rcases bubble_sort_spec le htot htrans arr with ⟨out, k, h1, _⟩
      rw [h1]
      rfl
    · rcases selection_sort_spec le htot htrans arr with ⟨out, h1, _⟩
      rw [h1]
      rfl
    · rcases insertion_sort_spec le htot htrans arr with ⟨out, h1, _⟩
      rw [h1]
      rfl
    · rcases shell_sort_spec le htot htrans arr with ⟨out, h1, _⟩
      rw [h1]
      rfl
    · rcases heap_sort_spec le htot htrans arr with ⟨out, h1, _⟩
      rw [h1]
      rfl
    · rcases merge_sort_spec le htot htrans arr with ⟨out, h1, _⟩
      rw [h1]
      rfl
    · rcases quick_sort_spec le htot htrans arr with ⟨out, h1, _⟩
      rw [h1]
      rfl
  · intro hlen
    refine ⟨?_, ?_, ?_, ?_, ?_, ?_, ?_⟩
    · by_cases h0 : arr.length = 0
      · rw [bubble_sort, bubbleOuter, dif_neg (by omega)]
      · rw [bubble_sort, bubbleOuter, dif_pos (by omega)]
        have hbi : bubbleInner le arr 1 arr.length false =
            some (arr, false) := by
          rw [bubbleInner, dif_neg (by omega)]
        simp only [hbi]
        simp
    · by_cases h0 : arr.length = 0
      · rw [selection_sort, selOuter, dif_neg (by omega)]
      · have h1 : arr.length = 1 := by omega
        rw [selection_sort, selOuter, dif_pos (by omega)]
        have hsm : selMin le arr 1 arr.length 0 = some 0 := by
          rw [selMin, dif_neg (by omega)]
        simp only [hsm]
        have hsw : swapCk arr 0 0 = some arr := swapCk_self (by omega)
        simp only [hsw]
        rw [selOuter, dif_neg (by omega)]
    · rw [insertion_sort, insOuter, dif_neg (by omega)]
    · rw [shell_sort, shellGrow_stop _ _ (by omega)]
      rw [shellLoop, dif_pos (Nat.le_refl 1)]
      have hgp : ∀ hk : 0 < 1, gapPass le 1 hk arr 1 arr.length =
          some arr := by
        intro hk
        rw [gapPass, dif_neg (by omega)]
      simp only [hgp]
      rw [shellLoop, dif_neg (by omega)]
    · rw [heap_sort]
      have h2 : arr.length / 2 = 0 := by omega
      rw [h2]
      have h0 : heapifyLoop le arr 0 arr.length = some arr := rfl
      simp only [h0]
      rw [extractLoop, dif_neg (by omega)]
    · rw [merge_sort, mergesort, dif_pos (by omega)]
    · rcases hn : arr.length with _ | n <;>
        rw [quick_sort, hn, quickSortFuel, if_pos (by omega)]
  · intro a n h
    rw [h]
    rfl
  · intro a i h
    rw [h, extractLoop, dif_neg (by omega)]
  · intro fuel a hlen
    cases fuel with
    | zero => rw [quickSortFuel, if_pos hlen]
    | succ fuel => rw [quickSortFuel, if_pos hlen]

theorem C8_witness :
    (((bubble_sort intLe [(42:Int)]).isSome = true ∧
      (selection_sort intLe [(42:Int)]).isSome = true ∧
      (insertion_sort intLe [(42:Int)]).isSome = true ∧
      (shell_sort intLe [(42:Int)]).isSome = true ∧
      (heap_sort intLe [(42:Int)]).isSome = true ∧
      (merge_sort intLe [(42:Int)]).isSome = true ∧
      (quick_sort intLe [(42:Int)]).isSome = true) ∧
    (([(42:Int)]).length ≤ 1 →
      bubble_sort intLe [(42:Int)] = some [(42:Int)] ∧
      selection_sort intLe [(42:Int)] = some [(42:Int)] ∧
      insertion_sort intLe [(42:Int)] = some [(42:Int)] ∧
      shell_sort intLe [(42:Int)] = some [(42:Int)] ∧
      heap_sort intLe [(42:Int)] = some [(42:Int)] ∧
      merge_sort intLe [(42:Int)] = some [(42:Int)] ∧
      quick_sort intLe [(42:Int)] = some [(42:Int)]) ∧
    (∀ (a : List Int) (n : Nat), n / 2 = 0 →
      heapifyLoop intLe a (n / 2) n = some a) ∧
    (∀ (a : List Int) (i : Nat), i = 0 → extractLoop intLe a i = some a) ∧
    (∀ (fuel : Nat) (a : List Int), a.length ≤ 1 →
      quickSortFuel intLe fuel a = some a)) :=
  C8_termination_safety intLe intLe_total intLe_trans [42]

/-- C9: sorting any valid subrange slice `S[lo:hi]` with any of the seven
algorithms yields exactly the reference sort (`List.mergeSort`) of that
slice, and merge sort's in-place `mergesort(arr, l, r)` writes only inside
`[l, r)`: the prefix and suffix are returned unchanged and the range holds
the reference-sorted contents. -/
theorem C9_range_confinement (le : α → α → Bool)
    (htot : ∀ a b, le a b = true ∨ le b a = true)
    (htrans : ∀ a b c, le a b = true → le b c = true → le a c = true)
    (hanti : ∀ a b, le a b = true → le b a = true → a = b)
    (S : List α) (lo hi : Nat) (hlo : lo ≤ hi) (hhi : hi ≤ S.length) :
    (bubble_sort le (sliceL S lo hi) =
      some (List.mergeSort (sliceL S lo hi) le)) ∧
    (selection_sort le (sliceL S lo hi) =
      some (List.mergeSort (sliceL S lo hi) le)) ∧
    (insertion_sort le (sliceL S lo hi) =
      some (List.mergeSort (sliceL S lo hi) le)) ∧
    (shell_sort le (sliceL S lo hi) =
      some (List.mergeSort (sliceL S lo hi) le)) ∧
    (heap_sort le (sliceL S lo hi) =
      some (List.mergeSort (sliceL S lo hi) le)) ∧
    (merge_sort le (sliceL S lo hi) =
      some (List.mergeSort (sliceL S lo hi) le)) ∧
    (quick_sort le (sliceL S lo hi) =
      some (List.mergeSort (sliceL S lo hi) le)) ∧
    (mergesort le S lo hi =
      some (S.take lo ++ List.mergeSort (sliceL S lo hi) le ++ S.drop hi)) ∧
    ((S.take lo ++ List.mergeSort (sliceL S lo hi) le ++ S.drop hi).take lo =
      S.take lo) ∧
    ((S.take lo ++ List.mergeSort (sliceL S lo hi) le ++ S.drop hi).drop hi =
      S.drop hi) ∧
    (sliceL (S.take lo ++ List.mergeSort (sliceL S lo hi) le ++ S.drop hi)
      lo hi = List.mergeSort (sliceL S lo hi) le) := by
  have hE : (S.take lo).length = lo := by
    rw [List.length_take]
    omega
  have hM : (List.mergeSort (sliceL S lo hi) le).length = hi - lo := by
    rw [(List.mergeSort_perm _ _).length_eq, sliceL_length]
    omega
  refine ⟨?_, ?_, ?_, ?_, ?_, ?_, ?_, ?_, ?_, ?_, ?_⟩
  · rcases bubble_sort_spec le htot htrans (sliceL S lo hi) with
      ⟨out, k, h1, _, h3, h4⟩
    rw [h1, output_eq_refSort le htot htrans hanti h3
      ((is_sorted_iff_pairwise le htrans out).mp h4)]
  · rcases selection_sort_spec le htot htrans (sliceL S lo hi) with
      ⟨out, h1, h2, h3⟩
    rw [h1, output_eq_refSort le htot htrans hanti h2 h3]
  · rcases insertion_sort_spec le htot htrans (sliceL S lo hi) with
      ⟨out, h1, h2, h3, _⟩
    rw [h1, output_eq_refSort le htot htrans hanti h2 h3]
  · rcases shell_sort_spec le htot htrans (sliceL S lo hi) with
      ⟨out, h1, h2, h3⟩
    rw [h1, output_eq_refSort le htot htrans hanti h2 h3]
  · rcases heap_sort_spec le htot htrans (sliceL S lo hi) with
      ⟨out, h1, h2, h3⟩
    rw [h1, output_eq_refSort le htot htrans hanti h2 h3]
  · rcases merge_sort_spec le htot htrans (sliceL S lo hi) with
      ⟨out, h1, h2, h3, _⟩
    rw [h1, output_eq_refSort le htot htrans hanti h2 h3]
  · rcases quick_sort_spec le htot htrans (sliceL S lo hi) with
      ⟨out, h1, h2, h3⟩
    rw [h1, output_eq_refSort le htot htrans hanti h2 h3]
  · rw [mergesort_spec le (hi - lo) S lo hi (Nat.le_refl _) hlo hhi]
    have hms : msortL le (sliceL S lo hi) =
        List.mergeSort (sliceL S lo hi) le :=
      output_eq_refSort le htot htrans hanti (msortL_perm le _)
        (msortL_sorted_fuel le htot htrans _ _ (Nat.le_refl _))
    rw [hms]
  · rw [List.append_assoc]
    exact List.take_left' hE
  · exact List.drop_left' (by rw [List.length_append, hE, hM]; omega)
  · show ((S.take lo ++ List.mergeSort (sliceL S lo hi) le ++
      S.drop hi).drop lo).take (hi - lo) =
      List.mergeSort (sliceL S lo hi) le
    rw [List.append_assoc, List.drop_left' hE, List.take_left' hM]

theorem C9_witness :
    (1 ≤ 4 ∧ 4 ≤ ([(5:Int), 3, 4, 1, 2]).length) ∧
    (bubble_sort intLe (sliceL [(5:Int), 3, 4, 1, 2] 1 4) =
      some (List.mergeSort (sliceL [(5:Int), 3, 4, 1, 2] 1 4) intLe)) ∧
    (selection_sort intLe (sliceL [(5:Int), 3, 4, 1, 2] 1 4) =
      some (List.mergeSort (sliceL [(5:Int), 3, 4, 1, 2] 1 4) intLe)) ∧
    (insertion_sort intLe (sliceL [(5:Int), 3, 4, 1, 2] 1 4) =
      some (List.mergeSort (sliceL [(5:Int), 3, 4, 1, 2] 1 4) intLe)) ∧
    (shell_sort intLe (sliceL [(5:Int), 3, 4, 1, 2] 1 4) =
      some (List.mergeSort (sliceL [(5:Int), 3, 4, 1, 2] 1 4) intLe)) ∧
    (heap_sort intLe (sliceL [(5:Int), 3, 4, 1, 2] 1 4) =
      some (List.mergeSort (sliceL [(5:Int), 3, 4, 1, 2] 1 4) intLe)) ∧
    (merge_sort intLe (sliceL [(5:Int), 3, 4, 1, 2] 1 4) =
      some (List.mergeSort (sliceL [(5:Int), 3, 4, 1, 2] 1 4) intLe)) ∧
    (quick_sort intLe (sliceL [(5:Int), 3, 4, 1, 2] 1 4) =
      some (List.mergeSort (sliceL [(5:Int), 3, 4, 1, 2] 1 4) intLe)) ∧
    (mergesort intLe [(5:Int), 3, 4, 1, 2] 1 4 =
      some (([(5:Int), 3, 4, 1, 2]).take 1 ++
        List.mergeSort (sliceL [(5:Int), 3, 4, 1, 2] 1 4) intLe ++
        ([(5:Int), 3, 4, 1, 2]).drop 4)) := by
  have h := C9_range_confinement intLe intLe_total intLe_trans
    intLe_antisymm [5, 3, 4, 1, 2] 1 4 (by decide) (by decide)
  exact ⟨⟨by decide, by decide⟩, h.1, h.2.1, h.2.2.1, h.2.2.2.1,
    h.2.2.2.2.1, h.2.2.2.2.2.1, h.2.2.2.2.2.2.1, h.2.2.2.2.2.2.2.1⟩

end SafeDsa
